import Mathlib

/-!
# Fixed-point (Q15) complex FFT kernel: shallow embedding and verification

Source files embedded here:
* `src/cfft-1024/include/cfft.h`  (types, `FIXED_POINT_BITS`)
* `src/cfft-1024/src/cfft_1024.c` (the 1024-point engine and its self tests)

Conventions of the embedding
* `int32_t` / `int64_t` / `uint32_t` / `uint16_t` values are mathematical integers; every
  place where C narrows or may wrap is an explicit `to_int32`, `to_int64`, `to_uint32`
  or `% 65536`.
* `>>` on signed values is the arithmetic shift (`Int.shiftRight`), as on the target.
* A C array is a total map from indices to samples (`Buf`); an in-place store is `upd`.
* The global twiddle table and its flag are an explicit `TwiddleState` that is threaded
  through the calls.
* `for` loops with a constant trip count are folds over `List.range`; the two loops whose
  trip count depends on the run-time value `m` take fuel and return `Option`.
-/

/-! ## Part I. Definitions -/

/-- Sample type `complex_t` of `cfft.h`: two `int32_t` lanes. -/
structure complex_t where
  real : Int
  imag : Int
deriving DecidableEq, Repr

/-- Constant `FIXED_POINT_BITS` of `cfft.h`. -/
def FIXED_POINT_BITS : Nat := 15

/-- Constant `FFT_N` of `cfft_1024.c`. -/
def FFT_N : Nat := 1024

/-- Constant `LOG2_FFT_N` of `cfft_1024.c`. -/
def LOG2_FFT_N : Nat := 10

/-- Narrowing to `int32_t` (two's complement wrap). -/
def to_int32 (x : Int) : Int := (x + 2147483648) % 4294967296 - 2147483648

/-- Narrowing to `int64_t` (two's complement wrap). -/
def to_int64 (x : Int) : Int :=
  (x + 9223372036854775808) % 18446744073709551616 - 9223372036854775808

/-- Narrowing to `uint32_t`. -/
def to_uint32 (x : Int) : Nat := (x % 4294967296).toNat

/-- Predicate: the value is representable as `int32_t`. -/
def is_int32 (x : Int) : Prop := -2147483648 ≤ x ∧ x ≤ 2147483647

/-- Predicate: both lanes of a sample are representable as `int32_t`. -/
def lanes_int32 (c : complex_t) : Prop := is_int32 c.real ∧ is_int32 c.imag

instance (x : Int) : Decidable (is_int32 x) := by
  unfold is_int32; infer_instance

instance (c : complex_t) : Decidable (lanes_int32 c) := by
  unfold lanes_int32; infer_instance

/-- Function `complex_multiply` (both source files have the same body):
64-bit products, difference/sum in `int64_t`, shift right by 15, narrow to `int32_t`. -/
def complex_multiply (a b : complex_t) : complex_t :=
  let real_temp := to_int64 (a.real * b.real - a.imag * b.imag)
  let imag_temp := to_int64 (a.real * b.imag + a.imag * b.real)
  { real := to_int32 (real_temp >>> FIXED_POINT_BITS)
    imag := to_int32 (imag_temp >>> FIXED_POINT_BITS) }

/-- Function `complex_add`: lane-wise `int32_t` addition. -/
def complex_add (a b : complex_t) : complex_t :=
  { real := to_int32 (a.real + b.real), imag := to_int32 (a.imag + b.imag) }

/-- Function `complex_subtract`: lane-wise `int32_t` subtraction. -/
def complex_subtract (a b : complex_t) : complex_t :=
  { real := to_int32 (a.real - b.real), imag := to_int32 (a.imag - b.imag) }

/-- A sample buffer: a C array seen as a map from index to sample. -/
abbrev Buf := Nat → complex_t

/-- In-place store `a[i] = v`. -/
def upd (a : Buf) (i : Nat) (v : complex_t) : Buf := fun k => if k = i then v else a k

/-- Loop of `bit_reverse_u16`: `n` iterations of
`r = (uint16_t)((r << 1) | (x & 1)); x >>= 1;`. -/
def bit_reverse_u16_loop : Nat → Nat → Nat → Nat
  | 0, r, _ => r
  | n + 1, r, x => bit_reverse_u16_loop n (((r <<< 1) ||| (x &&& 1)) % 65536) (x >>> 1)

/-- Function `bit_reverse_u16`. -/
def bit_reverse_u16 (x : Nat) (bits : Nat) : Nat := bit_reverse_u16_loop bits 0 x

/-- Body of the loop of `bit_reverse_reorder_generic` at index `i`. -/
def bit_reverse_reorder_body (data : Buf) (i : Nat) : Buf :=
  let j := bit_reverse_u16 i LOG2_FFT_N
  if j > i then
    let t := data i
    let data1 := upd data i (data j)
    upd data1 j t
  else data

/-- Function `bit_reverse_reorder_generic`: `for (i = 0; i < FFT_N; i++)`. -/
def bit_reverse_reorder_generic (data : Buf) : Buf :=
  (List.range FFT_N).foldl bit_reverse_reorder_body data

/-- The file-scope statics `twiddle_factors[FFT_N / 2]` and `twiddles_initialized`. -/
structure TwiddleState where
  twiddle_factors : Buf
  twiddles_initialized : Int

/-- Statics are zero-initialised at program start. -/
def TwiddleState.startup : TwiddleState :=
  { twiddle_factors := fun _ => ⟨0, 0⟩, twiddles_initialized := 0 }

/-- The constant `W1 = { 32767, -(int16_t)201 }` of `init_twiddles`. -/
def W1 : complex_t := ⟨32767, -201⟩

/-- Body of the loop of `init_twiddles`; the loop state is the table and the local `w`. -/
def init_twiddles_body (st : Buf × complex_t) (k : Nat) : Buf × complex_t :=
  let table := upd st.1 k st.2
  let next := complex_multiply st.2 W1
  (table, next)

/-- Function `init_twiddles`. -/
def init_twiddles (s : TwiddleState) : TwiddleState :=
  if s.twiddles_initialized ≠ 0 then s
  else
    let w : complex_t := ⟨32767, 0⟩
    let st := (List.range (FFT_N / 2)).foldl init_twiddles_body (s.twiddle_factors, w)
    { twiddle_factors := st.1, twiddles_initialized := 1 }

/-- One butterfly of `fft_1024_point` (body of the `j` loop); the loop state is the
output buffer and the running twiddle index `k`. -/
def butterfly_body (tw : Buf) (halfsize step block : Nat) (st : Buf × Nat) (j : Nat) :
    Buf × Nat :=
  let output := st.1
  let k := st.2
  let t := complex_multiply (output (block + j + halfsize)) (tw k)
  let u := output (block + j)
  let v := t
  let output1 := upd output (block + j) (complex_add u v)
  let output2 := upd output1 (block + j + halfsize) (complex_subtract u v)
  (output2, k + step)

/-- The `j` loop of one block: `int k = 0; for (j = 0; j < halfsize; j++)`. -/
def butterfly_loop (tw : Buf) (halfsize step block : Nat) (output : Buf) : Buf :=
  ((List.range halfsize).foldl (butterfly_body tw halfsize step block) (output, 0)).1

/-- The block loop `for (block = 0; block < FFT_N; block += m)`; `none` when the fuel
runs out before the loop condition fails. -/
def block_loop (tw : Buf) (m halfsize step : Nat) : Nat → Nat → Buf → Option Buf
  | 0, block, output => if block < FFT_N then none else some output
  | fuel + 1, block, output =>
    if block < FFT_N then
      block_loop tw m halfsize step fuel (block + m) (butterfly_loop tw halfsize step block output)
    else some output

/-- The stage loop `while (m <= FFT_N)` with `m <<= 1; step >>= 1;` at the end of the
body; `none` when the fuel runs out before the loop condition fails. -/
def stage_loop (tw : Buf) : Nat → Nat → Nat → Buf → Option Buf
  | 0, m, _, output => if m ≤ FFT_N then none else some output
  | fuel + 1, m, step, output =>
    if m ≤ FFT_N then
      let halfsize := m >>> 1
      match block_loop tw m halfsize step FFT_N 0 output with
      | none => none
      | some output1 => stage_loop tw fuel (m <<< 1) (step >>> 1) output1
    else some output

/-- The copy loop `for (i = 0; i < FFT_N; i++) output[i] = input[i];`. -/
def copy_input (input output : Buf) : Buf :=
  (List.range FFT_N).foldl (fun out i => upd out i (input i)) output

/-- Function `fft_1024_point`; the result carries the twiddle state after the call and
the output buffer. -/
def fft_1024_point (s : TwiddleState) (input output : Buf) : Option (TwiddleState × Buf) :=
  let s1 := init_twiddles s
  let output1 := copy_input input output
  let output2 := bit_reverse_reorder_generic output1
  match stage_loop s1.twiddle_factors (LOG2_FFT_N + 1) 2 (FFT_N >>> 1) output2 with
  | none => none
  | some output3 => some (s1, output3)

/-- First loop of `ifft_1024_point`: `temp[i] = conj(input[i])`. -/
def ifft_conj_loop (input temp : Buf) : Buf :=
  (List.range FFT_N).foldl
    (fun t i => upd t i { real := (input i).real, imag := to_int32 (-(input i).imag) }) temp

/-- Body of the last loop of `ifft_1024_point`: the two stores to `output[i]`. -/
def ifft_scale_body (output : Buf) (i : Nat) : Buf :=
  let output1 := upd output i
    { real := to_int32 ((output i).real >>> LOG2_FFT_N), imag := (output i).imag }
  upd output1 i
    { real := (output1 i).real
      imag := to_int32 (to_int32 (-(output1 i).imag) >>> LOG2_FFT_N) }

/-- Function `ifft_1024_point`; `temp` is the initial content of the local array
`temp[FFT_N]` (indeterminate in C, fully overwritten before use). -/
def ifft_1024_point (s : TwiddleState) (input output temp : Buf) :
    Option (TwiddleState × Buf) :=
  let temp1 := ifft_conj_loop input temp
  match fft_1024_point s temp1 output with
  | none => none
  | some (s1, output1) => some (s1, (List.range FFT_N).foldl ifft_scale_body output1)

/-- Function `magnitude_squared`: 64-bit squares, `int64_t` sum, shift, narrow to
`uint32_t`. -/
def magnitude_squared (c : complex_t) : Nat :=
  let real_sq := c.real * c.real
  let imag_sq := c.imag * c.imag
  to_uint32 (to_int64 (real_sq + imag_sq) >>> FIXED_POINT_BITS)

/-- Spec-side bit reversal: the integer whose bit `bits - 1 - k` is bit `k` of `i`, for
`k < bits` (the `bits` low-order bits of `i` in reverse order). -/
def reverse_bits (i bits : Nat) : Nat :=
  (List.range bits).foldl (fun acc k => acc + (if i.testBit k then 2 ^ (bits - 1 - k) else 0)) 0

/-- Spec-side bit-reversal permutation of a 1024-sample buffer: `d'[i] = d[r(i)]`. -/
def bit_reverse_spec (d : Buf) : Buf :=
  fun i => if i < FFT_N then d (bit_reverse_u16 i LOG2_FFT_N) else d i

/-- Auxiliary sequence for the twiddle recurrence: `w_0 = (32767, 0)`,
`w_{k+1} = complex_multiply(w_k, W1)` (the successive values of the local `w`). -/
def twiddle_seq : Nat → complex_t
  | 0 => ⟨32767, 0⟩
  | k + 1 => complex_multiply (twiddle_seq k) W1

/-- Spec-side butterfly stage of size `m` (simultaneous form, every value read from the
pre-stage buffer `d`): for a block start `b` (multiple of `m`) and `j < m / 2`,
`d'[b+j] = add(d[b+j], t)` and `d'[b+j+m/2] = subtract(d[b+j], t)` with
`t = multiply(d[b+j+m/2], twiddle[j * (FFT_N / m)])`.  Written per index `i`:
`j = i % m` in the lower half of a block and `j = i % m - m / 2` in the upper half. -/
def stage_spec (tw : Buf) (m : Nat) (d : Buf) : Buf := fun i =>
  if i < FFT_N then
    if i % m < m / 2 then
      complex_add (d i) (complex_multiply (d (i + m / 2)) (tw (i % m * (FFT_N / m))))
    else
      complex_subtract (d (i - m / 2))
        (complex_multiply (d i) (tw ((i % m - m / 2) * (FFT_N / m))))
  else d i

/-- Spec-side copy of the caller's input into the output buffer. -/
def copy_spec (input output : Buf) : Buf := fun i => if i < FFT_N then input i else output i

/-- The stage sizes `m = 2, 4, ..., 1024` in increasing order. -/
def stage_sizes : List Nat := [2, 4, 8, 16, 32, 64, 128, 256, 512, 1024]

/-- Spec-side forward transform: copy, bit-reversal permutation, then the ten stages in
increasing order of `m`. -/
def fft_spec (tw : Buf) (input output : Buf) : Buf :=
  stage_sizes.foldl (fun d m => stage_spec tw m d) (bit_reverse_spec (copy_spec input output))

/-- Complex conjugate of a buffer: the imaginary lane is negated. -/
def conj_buf (x : Buf) : Buf := fun i => { real := (x i).real, imag := -(x i).imag }

/-- Test input of `test_impulse_1024` and `test_ifft_correctness_1024`, generalised to
an arbitrary sample value `c` at index 0: all other samples are zero. -/
def impulse_input (c : complex_t) : Buf := fun i => if i = 0 then c else ⟨0, 0⟩

/-! ### Executable evaluator on two's-complement encoded samples -/

/-- Decoding of a 32-bit two's-complement word. -/
def dec32 (n : Nat) : Int := to_int32 (n : Int)

/-- Encoding of an integer as a 32-bit two's-complement word. -/
def enc32 (x : Int) : Nat := (x % 4294967296).toNat

/-- Sign extension of a 32-bit word to a 64-bit word. -/
def sx64 (a : Nat) : Nat :=
  if a % 4294967296 < 2147483648 then a % 4294967296
  else a % 4294967296 + 18446744069414584320

/-- Real lane of `complex_multiply` on encoded lanes. -/
def mulReN (ar ai br bi : Nat) : Nat :=
  ((sx64 ar * sx64 br + (340282366920938463463374607431768211456 - sx64 ai * sx64 bi)) / 32768)
    % 4294967296

/-- Imaginary lane of `complex_multiply` on encoded lanes. -/
def mulImN (ar ai br bi : Nat) : Nat :=
  ((sx64 ar * sx64 bi + sx64 ai * sx64 br) / 32768) % 4294967296

/-- Lane addition on encoded lanes. -/
def addN (a b : Nat) : Nat := (a + b) % 4294967296

/-- Lane subtraction on encoded lanes. -/
def subN (a b : Nat) : Nat := (a + (4294967296 - b % 4294967296)) % 4294967296

/-- Perfect binary tree of encoded samples; leaf order is index order. -/
inductive BT where
  | leaf (re im : Nat) : BT
  | node (l r : BT) : BT

/-- Shape predicate: perfect tree of the given height. -/
def BT.perfect : Nat → BT → Prop
  | 0, .leaf _ _ => True
  | _ + 1, .leaf _ _ => False
  | 0, .node _ _ => False
  | h + 1, .node l r => BT.perfect h l ∧ BT.perfect h r

/-- Encoded sample at index `i` of a tree of height `h`. -/
def BT.get : Nat → BT → Nat → Nat × Nat
  | _, .leaf a b, _ => (a, b)
  | 0, .node _ _, _ => (0, 0)
  | h + 1, .node l r, i => if i < 2 ^ h then BT.get h l i else BT.get h r (i - 2 ^ h)

/-- Encoding of a sample. -/
def encC (c : complex_t) : Nat × Nat := (enc32 c.real, enc32 c.imag)

/-- Decoding of a sample. -/
def decC (p : Nat × Nat) : complex_t := ⟨dec32 p.1, dec32 p.2⟩

/-- Decoded sample at index `i` of a tree of height `h`. -/
def BT.sample (h : Nat) (t : BT) (i : Nat) : complex_t := decC (BT.get h t i)

/-- Tree of height `h` holding `f off, f (off + 1), ...`. -/
def BT.build (f : Nat → Nat × Nat) : Nat → Nat → BT
  | 0, off => .leaf (f off).1 (f off).2
  | h + 1, off => .node (BT.build f h off) (BT.build f h (off + 2 ^ h))

/-- Sum outputs of the butterflies of one block: `lo + hi * tw`, leaf by leaf. -/
def BT.bfAdd : BT → BT → BT → BT
  | .leaf ur ui, .leaf vr vi, .leaf wr wi =>
    .leaf (addN ur (mulReN vr vi wr wi)) (addN ui (mulImN vr vi wr wi))
  | .node l1 r1, .node l2 r2, .node l3 r3 => .node (BT.bfAdd l1 l2 l3) (BT.bfAdd r1 r2 r3)
  | lo, _, _ => lo

/-- Difference outputs of the butterflies of one block: `lo - hi * tw`, leaf by leaf. -/
def BT.bfSub : BT → BT → BT → BT
  | .leaf ur ui, .leaf vr vi, .leaf wr wi =>
    .leaf (subN ur (mulReN vr vi wr wi)) (subN ui (mulImN vr vi wr wi))
  | .node l1 r1, .node l2 r2, .node l3 r3 => .node (BT.bfSub l1 l2 l3) (BT.bfSub r1 r2 r3)
  | _, hi, _ => hi

/-- One stage: the blocks are the subtrees `d` levels below the root. -/
def BT.stage (tw : BT) : Nat → BT → BT
  | 0, .node lo hi => .node (BT.bfAdd lo hi tw) (BT.bfSub lo hi tw)
  | d + 1, .node l r => .node (BT.stage tw d l) (BT.stage tw d r)
  | _, t => t

/-- Every second entry of a table: the tree of the even-indexed leaves. -/
def BT.halve : BT → BT
  | .node (.leaf a b) _ => .leaf a b
  | .node (.node l1 r1) r => .node (BT.halve (.node l1 r1)) (BT.halve r)
  | .leaf a b => .leaf a b

/-- Table `halve` applied `n` times. -/
def BT.halves : Nat → BT → BT
  | 0, t => t
  | n + 1, t => BT.halves n (BT.halve t)

/-- The stage twiddle tables from a full table `t` of height `n`, coarsest first:
`[halves n t, ..., halves 1 t, t]`. -/
def BT.levels : Nat → BT → List BT → List BT
  | 0, t, acc => t :: acc
  | n + 1, t, acc => BT.levels n (BT.halve t) (t :: acc)

/-- The stages in order: the first table of the list is used at block depth `d`, the
next one at depth `d - 1`, and so on. -/
def BT.stagesL : List BT → Nat → BT → BT
  | [], _, t => t
  | tw :: tws, d, t => BT.stagesL tws (d - 1) (BT.stage tw d t)

/-- The ten stages of the 1024-point transform on a tree of height 10, with the full
twiddle table `tw9` of height 9. -/
def BT.fft (tw9 t : BT) : BT := BT.stagesL (BT.levels 9 tw9 []) 9 t

/-- One step of the twiddle recurrence on encoded lanes: multiplication by `W1`. -/
def twStepN (w : Nat × Nat) : Nat × Nat :=
  (mulReN w.1 w.2 32767 4294967095, mulImN w.1 w.2 32767 4294967095)

/-- The sequence `w, step w, step (step w), ...`. -/
def iterN (step : Nat × Nat → Nat × Nat) : Nat → Nat × Nat → Nat × Nat
  | 0, w => w
  | n + 1, w => step (iterN step n w)

/-- Tree of height `h` holding `w, step w, step (step w), ...`, together with the next
value of the sequence. -/
def BT.iter (step : Nat × Nat → Nat × Nat) : Nat → Nat × Nat → BT × (Nat × Nat)
  | 0, w => (.leaf w.1 w.2, step w)
  | h + 1, w =>
    let p := BT.iter step h w
    let q := BT.iter step h p.2
    (.node p.1 q.1, q.2)

/-- The twiddle table of `init_twiddles` as a tree of height 9 of encoded samples. -/
def twiddle_tree : BT := (BT.iter twStepN 9 (32767, 0)).1

/-- Leaf function of the bit-reversed input buffer. -/
def input_leaf (input : Buf) (i : Nat) : Nat × Nat := encC (input (bit_reverse_u16 i LOG2_FFT_N))

/-- The continuation applied to `n`, after `n` has been evaluated. -/
def forceNat {β : Type} (n : Nat) (k : Nat → β) : β :=
  match n with
  | 0 => k 0
  | m + 1 => k (m + 1)

/-- Continuation-passing form of `BT.build`. -/
def BT.buildK {β : Type} (f : Nat → Nat × Nat) : Nat → Nat → (BT → β) → β
  | 0, off, k => forceNat (f off).1 fun a => forceNat (f off).2 fun b => k (.leaf a b)
  | h + 1, off, k =>
    BT.buildK f h off fun l => BT.buildK f h (off + 2 ^ h) fun r => k (.node l r)

/-- Continuation-passing form of `BT.bfAdd` and `BT.bfSub` together. -/
def BT.bfK {β : Type} : BT → BT → BT → (BT → BT → β) → β
  | .leaf ur ui, .leaf vr vi, .leaf wr wi, k =>
    forceNat (mulReN vr vi wr wi) fun tr =>
    forceNat (mulImN vr vi wr wi) fun ti =>
    forceNat (addN ur tr) fun ar =>
    forceNat (addN ui ti) fun ai =>
    forceNat (subN ur tr) fun sr =>
    forceNat (subN ui ti) fun si => k (.leaf ar ai) (.leaf sr si)
  | .node l1 r1, .node l2 r2, .node l3 r3, k =>
    BT.bfK l1 l2 l3 fun a1 s1 => BT.bfK r1 r2 r3 fun a2 s2 => k (.node a1 a2) (.node s1 s2)
  | lo, hi, tw, k => k (BT.bfAdd lo hi tw) (BT.bfSub lo hi tw)

/-- Continuation-passing form of `BT.stage`. -/
def BT.stageK {β : Type} (tw : BT) : Nat → BT → (BT → β) → β
  | 0, .node lo hi, k => BT.bfK lo hi tw fun a s => k (.node a s)
  | d + 1, .node l r, k => BT.stageK tw d l fun l1 => BT.stageK tw d r fun r1 => k (.node l1 r1)
  | d, t, k => k (BT.stage tw d t)

/-- Continuation-passing form of `BT.halve`. -/
def BT.halveK {β : Type} : BT → (BT → β) → β
  | .node (.leaf a b) _, k => k (.leaf a b)
  | .node (.node l1 r1) r, k =>
    BT.halveK (.node l1 r1) fun l2 => BT.halveK r fun r2 => k (.node l2 r2)
  | .leaf a b, k => k (.leaf a b)

/-- Continuation-passing form of `BT.levels`. -/
def BT.levelsK {β : Type} : Nat → BT → List BT → (List BT → β) → β
  | 0, t, acc, k => k (t :: acc)
  | n + 1, t, acc, k => BT.halveK t fun t1 => BT.levelsK n t1 (t :: acc) k

/-- Continuation-passing form of `BT.stagesL`. -/
def BT.stagesK {β : Type} : List BT → Nat → BT → (BT → β) → β
  | [], _, t, k => k t
  | tw :: tws, d, t, k => BT.stageK tw d t fun t1 => BT.stagesK tws (d - 1) t1 k

/-- Continuation-passing form of `BT.fft`. -/
def BT.fftK {β : Type} (tw9 t : BT) (k : BT → β) : β :=
  BT.levelsK 9 tw9 [] fun tws => BT.stagesK tws 9 t k

/-- Continuation-passing form of `BT.iter`. -/
def BT.iterK {β : Type} (step : Nat × Nat → Nat × Nat) :
    Nat → Nat → Nat → (BT → Nat → Nat → β) → β
  | 0, wr, wi, k =>
    forceNat (step (wr, wi)).1 fun nr => forceNat (step (wr, wi)).2 fun ni => k (.leaf wr wi) nr ni
  | h + 1, wr, wi, k =>
    BT.iterK step h wr wi fun l ar ai => BT.iterK step h ar ai fun r br bi => k (.node l r) br bi

/-- Evaluation of the ten stages on the tree with leaf function `f` (the bit-reversed
input), with the twiddle table of `init_twiddles`; the result goes to `k`. -/
def fft_evalK {β : Type} (f : Nat → Nat × Nat) (k : BT → β) : β :=
  BT.iterK twStepN 9 32767 0 fun tw _ _ => BT.buildK f 10 0 fun B => BT.fftK tw B k

/-- Direct form of `fft_evalK`. -/
def fft_eval (f : Nat → Nat × Nat) : BT := BT.fft twiddle_tree (BT.build f 10 0)

/-- Bounded universal check, most significant index first: `p i` for every `i < n`. -/
def all_below (p : Nat → Bool) : Nat → Bool
  | 0 => true
  | n + 1 => p n && all_below p n

/-- The twiddle state is usable by a transform call: either the table has not been built
yet (the call builds it), or it already holds what `init_twiddles` builds. -/
def TwiddleState.consistent (s : TwiddleState) : Prop :=
  s.twiddles_initialized = 0 ∨ ∀ k, k < 512 → s.twiddle_factors k = twiddle_seq k

/-- The two stores of the last loop of `ifft_1024_point`, as a function of the sample
the forward transform left in `output[i]`. -/
def ifft_scale (c : complex_t) : complex_t :=
  { real := to_int32 (c.real >>> LOG2_FFT_N)
    imag := to_int32 (to_int32 (-c.imag) >>> LOG2_FFT_N) }

/-- Test input of `test_dc_1024`: every sample is `(32767, 0)`. -/
def dc_input : Buf := fun _ => ⟨32767, 0⟩

/-- The 16-sample period of the input of `test_single_frequency_1024`. -/
def single_frequency_period : List complex_t :=
  [⟨32767, 0⟩, ⟨30273, -12539⟩, ⟨23170, -23170⟩, ⟨12539, -30273⟩,
   ⟨0, -32767⟩, ⟨-12539, -30273⟩, ⟨-23170, -23170⟩, ⟨-30273, -12539⟩,
   ⟨-32767, 0⟩, ⟨-30273, 12539⟩, ⟨-23170, 23170⟩, ⟨-12539, 30273⟩,
   ⟨0, 32767⟩, ⟨12539, 30273⟩, ⟨23170, 23170⟩, ⟨30273, 12539⟩]

/-- Test input of `test_single_frequency_1024`: `test_input[j + 16 * k]` is entry `j` of the
period, for `k` in `[0, 64)` and `j` in `[0, 16)`. -/
def single_frequency_input : Buf := fun i => single_frequency_period.getD (i % 16) ⟨0, 0⟩

/-- Function `magnitude_squared` on encoded lanes. -/
def magN (a b : Nat) : Nat := ((sx64 a * sx64 a + sx64 b * sx64 b) / 32768) % 4294967296

/-- Bounded universal check over the leaves of a tree of height `h` whose first leaf has
index `off`: `p i re im` for every leaf `(re, im)` at index `i`. -/
def BT.allLeaves (p : Nat → Nat → Nat → Bool) : Nat → Nat → BT → Bool
  | _, off, .leaf a b => p off a b
  | 0, _, .node _ _ => true
  | h + 1, off, .node l r => BT.allLeaves p h off l && BT.allLeaves p h (off + 2 ^ h) r

/-- Check of the DC-concentration property on the tree of output bins. -/
def dc_check (t : BT) : Bool :=
  forceNat (magN (BT.get 10 t 0).1 (BT.get 10 t 0).2) fun m0 =>
    decide (m0 ≥ 1024 * 32767 / 4) &&
      BT.allLeaves (fun i a b => decide (1 ≤ i → magN a b ≤ m0 / 16)) 10 0 t

/-- Check on the output bins for the single-tone input: bin 960 exceeds a sixteenth of bin
64, and every bin other than 960 is at most a sixteenth of bin 960. -/
def single_frequency_check (t : BT) : Bool :=
  forceNat (magN (BT.get 10 t 960).1 (BT.get 10 t 960).2) fun m960 =>
  forceNat (magN (BT.get 10 t 64).1 (BT.get 10 t 64).2) fun m64 =>
    decide (m64 / 16 < m960) &&
      BT.allLeaves (fun i a b => decide (i ≠ 960 → magN a b ≤ m960 / 16)) 10 0 t

/-- A zeroed buffer (contents of a caller's output array before the call). -/
def zero_buf : Buf := fun _ => ⟨0, 0⟩

/-- Exact value of the first 64-bit intermediate of `complex_multiply` (`real_temp` before
any narrowing). -/
def complex_multiply_real_temp (a b : complex_t) : Int := a.real * b.real - a.imag * b.imag

/-- Exact value of the second 64-bit intermediate of `complex_multiply` (`imag_temp` before
any narrowing). -/
def complex_multiply_imag_temp (a b : complex_t) : Int := a.real * b.imag + a.imag * b.real

/-- Predicate: the value is representable as `int64_t`. -/
def is_int64 (x : Int) : Prop := -9223372036854775808 ≤ x ∧ x ≤ 9223372036854775807

instance (x : Int) : Decidable (is_int64 x) := by
  unfold is_int64; infer_instance

/-- Check on the twiddle table held by a tree: entry 256 is the encoding of
`(-147, -32670)`. -/
def twiddle_quarter_check (t : BT) : Bool :=
  decide (BT.get 9 t 256 = (4294967149, 4294934626))

/-- Predicate: both lanes lie in the Q15 range `[-32768, 32767]`. -/
def lanes_q15 (c : complex_t) : Prop :=
  (-32768 ≤ c.real ∧ c.real ≤ 32767) ∧ (-32768 ≤ c.imag ∧ c.imag ≤ 32767)

instance (c : complex_t) : Decidable (lanes_q15 c) := by
  unfold lanes_q15; infer_instance

/-- Spec-side buffer at the start of stage number `k` (stages numbered from 0): the copied
and bit-reversed input after the first `k` stages `m = 2, 4, ..., 2^k`. -/
def stage_input (tw input output : Buf) (k : Nat) : Buf :=
  (stage_sizes.take k).foldl (fun d m => stage_spec tw m d)
    (bit_reverse_spec (copy_spec input output))

/-- Absence of wraparound in one butterfly reading `u = output[block + j]`,
`x = output[block + j + halfsize]` and the twiddle `w`: both 64-bit intermediates of the
product are `int64_t` values, both rescaled lanes are `int32_t` values, and the four sums
and differences stored by `complex_add` and `complex_subtract` are `int32_t` values. -/
def butterfly_no_wrap (u x w : complex_t) : Prop :=
  is_int64 (complex_multiply_real_temp x w) ∧ is_int64 (complex_multiply_imag_temp x w) ∧
  is_int32 (complex_multiply_real_temp x w >>> FIXED_POINT_BITS) ∧
  is_int32 (complex_multiply_imag_temp x w >>> FIXED_POINT_BITS) ∧
  is_int32 (u.real + complex_multiply_real_temp x w >>> FIXED_POINT_BITS) ∧
  is_int32 (u.imag + complex_multiply_imag_temp x w >>> FIXED_POINT_BITS) ∧
  is_int32 (u.real - complex_multiply_real_temp x w >>> FIXED_POINT_BITS) ∧
  is_int32 (u.imag - complex_multiply_imag_temp x w >>> FIXED_POINT_BITS)

/-- Predicate: both lanes have absolute value at most `B`. -/
def lanes_le (B : Int) (c : complex_t) : Prop :=
  (-B ≤ c.real ∧ c.real ≤ B) ∧ (-B ≤ c.imag ∧ c.imag ≤ B)

/-- Check on the twiddle table held by a tree: every lane is the encoding of a value in
`[-32767, 32767]`. -/
def twiddle_range_check (t : BT) : Bool :=
  BT.allLeaves (fun _ a b =>
    decide ((a ≤ 32767 ∨ (4294934529 ≤ a ∧ a < 4294967296)) ∧
      (b ≤ 32767 ∨ (4294934529 ≤ b ∧ b < 4294967296)))) 9 0 t

/-- Sum of the real lanes of the first `n` samples of a buffer. -/
def sum_real (x : Buf) : Nat → Int
  | 0 => 0
  | n + 1 => sum_real x n + (x n).real

/-- Sum of the imaginary lanes of the first `n` samples of a buffer. -/
def sum_imag (x : Buf) : Nat → Int
  | 0 => 0
  | n + 1 => sum_imag x n + (x n).imag

/-- Bound on the distance between a block-start value after `k` stages and the exact sum of
the block: `e_0 = 0`, `e_{k+1} = 2 e_k + 2^k` (so `e_k = k * 2^(k-1)`, `e_10 = 5120`). -/
def bin0_error_bound : Nat → Int
  | 0 => 0
  | k + 1 => 2 * bin0_error_bound k + 2 ^ k

/-- Check on the tree of output bins: bin 0 is the encoding of `(33548288, 0)`. -/
def dc_bin0_check (t : BT) : Bool :=
  decide (BT.get 10 t 0 = (33548288, 0))

instance (B : Int) (c : complex_t) : Decidable (lanes_le B c) := by
  unfold lanes_le; infer_instance

/-! ### The hand-unrolled 16-point transform (`cfft.c`) -/

/-- The constant table `twiddle_factors[8]` of the 16-point file (indices outside the
table are never read; they are given the value `(0, 0)`). -/
def twiddle_factors : Buf := fun k =>
  [(⟨32767, 0⟩ : complex_t), ⟨30273, -12539⟩, ⟨23170, -23170⟩, ⟨12539, -30273⟩,
   ⟨0, -32767⟩, ⟨-12539, -30273⟩, ⟨-23170, -23170⟩, ⟨-30273, -12539⟩].getD k ⟨0, 0⟩

/-- The constant table `bit_reverse_table[16]` of the 16-point file. -/
def bit_reverse_table : Nat → Nat := fun i =>
  [0, 8, 4, 12, 2, 10, 6, 14, 1, 9, 5, 13, 3, 11, 7, 15].getD i 0

/-- Lane-by-lane copy `dst[i].real = src[i].real; dst[i].imag = src[i].imag;` (body of the
copy loops of `bit_reverse_reorder` and `fft_16_point`). -/
def copy_lanes_body (src : Buf) (dst : Buf) (i : Nat) : Buf :=
  let dst1 := upd dst i { real := (src i).real, imag := (dst i).imag }
  upd dst1 i { real := (dst1 i).real, imag := (src i).imag }

/-- Body of the second loop of `bit_reverse_reorder`: `src_idx = bit_reverse_table[i]`,
then the two lane stores to `data[i]`. -/
def bit_reverse_reorder_store (temp : Buf) (data : Buf) (i : Nat) : Buf :=
  let src_idx := bit_reverse_table i
  let data1 := upd data i { real := (temp src_idx).real, imag := (data i).imag }
  upd data1 i { real := (data1 i).real, imag := (temp src_idx).imag }

/-- Function `bit_reverse_reorder` of the 16-point file; `temp` is the initial content of
the local array `temp[16]`. -/
def bit_reverse_reorder (data temp : Buf) : Buf :=
  let temp1 := (List.range 16).foldl (copy_lanes_body data) temp
  (List.range 16).foldl (bit_reverse_reorder_store temp1) data

/-- One butterfly of `fft_16_point` on `output[i]`, `output[j]` with
`twiddle_factors[twiddle_idx]`: multiply, lane-wise copies into `u` and `v`, then
`complex_add(u, v, &output[i])` and `complex_subtract(u, v, &output[j])`. -/
def fft_16_butterfly (output : Buf) (i j twiddle_idx : Nat) : Buf :=
  let temp := complex_multiply (output j) (twiddle_factors twiddle_idx)
  let u : complex_t := { real := (output i).real, imag := (output i).imag }
  let v : complex_t := { real := temp.real, imag := temp.imag }
  let output1 := upd output i (complex_add u v)
  upd output1 j (complex_subtract u v)

/-- Stage 1 of `fft_16_point`: `for (group = 0; group < 16; group += 2)`. -/
def fft_16_stage1 (output : Buf) : Buf :=
  (List.range' 0 8 2).foldl (fun out group => fft_16_butterfly out group (group + 1) 0) output

/-- Stage 2 of `fft_16_point`: `for (group = 0; group < 16; group += 4)`, two unrolled
butterflies. -/
def fft_16_stage2 (output : Buf) : Buf :=
  (List.range' 0 4 4).foldl (fun out group =>
    let out1 := fft_16_butterfly out group (group + 2) 0
    fft_16_butterfly out1 (group + 1) (group + 3) 4) output

/-- Stage 3 of `fft_16_point`: `for (group = 0; group < 16; group += 8)`,
`for (k = 0; k < 4; k++)` with `twiddle_idx = (k << 1) & 7`. -/
def fft_16_stage3 (output : Buf) : Buf :=
  (List.range' 0 2 8).foldl (fun out group =>
    (List.range 4).foldl (fun o k =>
      fft_16_butterfly o (group + k) (group + k + 4) ((k <<< 1) &&& 7)) out) output

/-- Stage 4 of `fft_16_point`: `for (k = 0; k < 8; k++)`. -/
def fft_16_stage4 (output : Buf) : Buf :=
  (List.range 8).foldl (fun o k => fft_16_butterfly o k (k + 8) k) output

/-- Function `fft_16_point`; `output` is the initial content of the caller's output array
and `temp` that of the local array of `bit_reverse_reorder`. -/
def fft_16_point (input output temp : Buf) : Buf :=
  let output1 := (List.range 16).foldl (copy_lanes_body input) output
  let output2 := bit_reverse_reorder output1 temp
  fft_16_stage4 (fft_16_stage3 (fft_16_stage2 (fft_16_stage1 output2)))

/-- Input of `test_single_frequency` of the 16-point file (the sixteen listed samples). -/
def single_frequency_input_16 : Buf := fun i => single_frequency_period.getD i ⟨0, 0⟩

/-- The checks of `test_single_frequency` after the transform, on the output bins `out`:
`bin1_mag`, then the loop over `i` with `continue` at `i == 1` and `return -1` at the
first bin above `bin1_mag >> 4`; the loop state is `none` while running and `some r` once
the function has returned `r`. -/
def single_frequency_verdict (out : Buf) : Int :=
  let bin1_mag := magnitude_squared (out 1)
  let r := (List.range 16).foldl (fun (ret : Option Int) i =>
    match ret with
    | some v => some v
    | none =>
      if i = 1 then none
      else if magnitude_squared (out i) > bin1_mag >>> 4 then some (-1) else none) none
  match r with
  | some v => v
  | none => 0

/-- Function `test_single_frequency` of the 16-point file; `fft_output` and `temp` are the
initial contents of the local arrays. -/
def test_single_frequency (fft_output temp : Buf) : Int :=
  single_frequency_verdict (fft_16_point single_frequency_input_16 fft_output temp)

/-- The checks of `test_dc` after the transform, on the output bins `out`: `return -1`
when `dc_mag < (expected_dc >> 2)`, then the loop over `i` in `[1, 16)` with `return -2`
at the first bin above `dc_mag >> 4`. -/
def dc_verdict (out : Buf) : Int :=
  let dc_mag := magnitude_squared (out 0)
  let expected_dc := to_uint32 (16 * 32767)
  if dc_mag < expected_dc >>> 2 then -1
  else
    let r := (List.range' 1 15).foldl (fun (ret : Option Int) i =>
      match ret with
      | some v => some v
      | none => if magnitude_squared (out i) > dc_mag >>> 4 then some (-2) else none) none
    match r with
    | some v => v
    | none => 0

/-- Function `test_dc` of the 16-point file (its input is the constant `(32767, 0)`). -/
def test_dc (fft_output temp : Buf) : Int :=
  dc_verdict (fft_16_point dc_input fft_output temp)

/-- Expected output bins of `fft_16_point` on the single-tone input. -/
def single_frequency_bins_16 : List complex_t :=
  [⟨-3, -7⟩, ⟨1, -8⟩, ⟨0, -2⟩, ⟨7, -6⟩, ⟨1, 1⟩, ⟨2, -1⟩, ⟨0, 0⟩, ⟨9, 2⟩,
   ⟨1, 1⟩, ⟨3, 2⟩, ⟨0, 2⟩, ⟨-1, 2⟩, ⟨1, 1⟩, ⟨2, 7⟩, ⟨0, 4⟩, ⟨524249, 2⟩]

/-- Expected output bins of `fft_16_point` on the constant input `(32767, 0)`. -/
def dc_bins_16 : List complex_t :=
  [⟨524240, 0⟩, ⟨0, -7⟩, ⟨2, -5⟩, ⟨0, -3⟩, ⟨4, -4⟩, ⟨1, -1⟩, ⟨2, -1⟩, ⟨1, -1⟩,
   ⟨8, 0⟩, ⟨2, 1⟩, ⟨2, 1⟩, ⟨2, 1⟩, ⟨4, 4⟩, ⟨1, 3⟩, ⟨2, 5⟩, ⟨1, 7⟩]


/-! ### The generic engine with its size as a parameter -/

/-- Body of the loop of `bit_reverse_reorder_generic` with the macro `LOG2_FFT_N` taken as
the parameter `bits`. -/
def bit_reverse_reorder_body_n (bits : Nat) (data : Buf) (i : Nat) : Buf :=
  let j := bit_reverse_u16 i bits
  if j > i then
    let t := data i
    let data1 := upd data i (data j)
    upd data1 j t
  else data

/-- Function `bit_reverse_reorder_generic` with the macros `FFT_N` and `LOG2_FFT_N` taken as
the parameters `n` and `bits`. -/
def bit_reverse_reorder_n (n bits : Nat) (data : Buf) : Buf :=
  (List.range n).foldl (bit_reverse_reorder_body_n bits) data

/-- The block loop of `fft_1024_point` with `FFT_N` taken as the parameter `n`. -/
def block_loop_n (n : Nat) (tw : Buf) (m halfsize step : Nat) : Nat → Nat → Buf → Option Buf
  | 0, block, output => if block < n then none else some output
  | fuel + 1, block, output =>
    if block < n then
      block_loop_n n tw m halfsize step fuel (block + m)
        (butterfly_loop tw halfsize step block output)
    else some output

/-- The stage loop of `fft_1024_point` with `FFT_N` taken as the parameter `n`. -/
def stage_loop_n (n : Nat) (tw : Buf) : Nat → Nat → Nat → Buf → Option Buf
  | 0, m, _, output => if m ≤ n then none else some output
  | fuel + 1, m, step, output =>
    if m ≤ n then
      let halfsize := m >>> 1
      match block_loop_n n tw m halfsize step n 0 output with
      | none => none
      | some output1 => stage_loop_n n tw fuel (m <<< 1) (step >>> 1) output1
    else some output

/-- The copy loop of `fft_1024_point` with `FFT_N` taken as the parameter `n`. -/
def copy_input_n (n : Nat) (input output : Buf) : Buf :=
  (List.range n).foldl (fun out i => upd out i (input i)) output

/-- The algorithm of `fft_1024_point` after `init_twiddles`, with the macros `FFT_N` and
`LOG2_FFT_N` taken as the parameters `n` and `bits` and the twiddle table as the parameter
`tw`: copy, in-place bit-reversal, then the stage loop from `m = 2`, `step = n >> 1`. -/
def fft_n_point (n bits : Nat) (tw input output : Buf) : Option Buf :=
  let output1 := copy_input_n n input output
  let output2 := bit_reverse_reorder_n n bits output1
  stage_loop_n n tw (bits + 1) 2 (n >>> 1) output2

/-! ### Instrumented stage loop: the indices used by every butterfly -/

/-- Indices used by one executed butterfly of `fft_1024_point`: the loop counter `j`, the
data indices `block + j` and `block + j + halfsize`, and the twiddle index `k`. -/
structure butterfly_access where
  j : Nat
  data_lo : Nat
  data_hi : Nat
  twiddle : Nat

/-- Record of one executed iteration of the stage loop: `m` and `step` at the start of the
iteration and the butterflies executed in it, in order. -/
structure stage_record where
  m : Nat
  step : Nat
  accesses : List butterfly_access

/-- The butterfly `butterfly_body` together with a log of the indices it uses:
`output[block + j + halfsize]`, `twiddle_factors[k]` and `output[block + j]`. -/
def butterfly_body_traced (tw : Buf) (halfsize step block : Nat)
    (st : (Buf × Nat) × List butterfly_access) (j : Nat) : (Buf × Nat) × List butterfly_access :=
  (butterfly_body tw halfsize step block st.1 j,
    st.2 ++ [{ j := j, data_lo := block + j, data_hi := block + j + halfsize,
               twiddle := st.1.2 }])

/-- The `j` loop of one block with the log of indices. -/
def butterfly_loop_traced (tw : Buf) (halfsize step block : Nat) (output : Buf)
    (tr : List butterfly_access) : Buf × List butterfly_access :=
  let r := (List.range halfsize).foldl (butterfly_body_traced tw halfsize step block)
    ((output, 0), tr)
  (r.1.1, r.2)

/-- The block loop with the log of indices; `none` when the fuel runs out before the loop
condition fails. -/
def block_loop_traced (tw : Buf) (m halfsize step : Nat) :
    Nat → Nat → Buf → List butterfly_access → Option (Buf × List butterfly_access)
  | 0, block, output, tr => if block < FFT_N then none else some (output, tr)
  | fuel + 1, block, output, tr =>
    if block < FFT_N then
      let r := butterfly_loop_traced tw halfsize step block output tr
      block_loop_traced tw m halfsize step fuel (block + m) r.1 r.2
    else some (output, tr)

/-- The stage loop with one record per executed iteration; `none` when the fuel runs out
before the loop condition fails. -/
def stage_loop_traced (tw : Buf) :
    Nat → Nat → Nat → Buf → List stage_record → Option (Buf × List stage_record)
  | 0, m, _, output, tr => if m ≤ FFT_N then none else some (output, tr)
  | fuel + 1, m, step, output, tr =>
    if m ≤ FFT_N then
      let halfsize := m >>> 1
      match block_loop_traced tw m halfsize step FFT_N 0 output [] with
      | none => none
      | some (output1, acc) =>
        stage_loop_traced tw fuel (m <<< 1) (step >>> 1) output1
          (tr ++ [{ m := m, step := step, accesses := acc }])
    else some (output, tr)

/-- Function `fft_1024_point` with the records of the stage loop. -/
def fft_1024_point_traced (s : TwiddleState) (input output : Buf) :
    Option ((TwiddleState × Buf) × List stage_record) :=
  let s1 := init_twiddles s
  let output1 := copy_input input output
  let output2 := bit_reverse_reorder_generic output1
  match stage_loop_traced s1.twiddle_factors (LOG2_FFT_N + 1) 2 (FFT_N >>> 1) output2 [] with
  | none => none
  | some (output3, tr) => some ((s1, output3), tr)

/-- Spec-side list of the butterflies of the stage of size `m`: blocks `0, m, 2m, ...`
below `FFT_N`, and in each block `j = 0, ..., m/2 - 1` with twiddle index
`j * (FFT_N / m)`. -/
def stage_accesses (m : Nat) : List butterfly_access :=
  (List.range' 0 (FFT_N / m) m).flatMap (fun b =>
    (List.range (m / 2)).map (fun j =>
      { j := j, data_lo := b + j, data_hi := b + j + m / 2, twiddle := j * (FFT_N / m) }))

/-- Spec-side schedule of the stage loop: one record per stage size. -/
def stage_schedule : List stage_record :=
  stage_sizes.map (fun m => { m := m, step := FFT_N / m, accesses := stage_accesses m })

theorem to_int32_of_is_int32 {x : Int} (h : is_int32 x) : to_int32 x = x := by
  unfold is_int32 at h
  unfold to_int32
  omega

theorem is_int32_to_int32 (x : Int) : is_int32 (to_int32 x) := by
  unfold is_int32 to_int32
  omega

theorem to_int64_of_bounds {x : Int} (h1 : -9223372036854775808 ≤ x)
    (h2 : x ≤ 9223372036854775807) : to_int64 x = x := by
  unfold to_int64
  omega

theorem shiftRight_fixed_point (x : Int) : x >>> FIXED_POINT_BITS = x / 32768 := by
  rw [Int.shiftRight_eq_div_pow]
  rfl

theorem shiftRight_log2 (x : Int) : x >>> LOG2_FFT_N = x / 1024 := by
  rw [Int.shiftRight_eq_div_pow]
  rfl

theorem complex_multiply_exact (a b : complex_t)
    (hre : is_int32 ((a.real * b.real - a.imag * b.imag) / 32768))
    (him : is_int32 ((a.real * b.imag + a.imag * b.real) / 32768)) :
    complex_multiply a b =
      ⟨(a.real * b.real - a.imag * b.imag) / 32768, (a.real * b.imag + a.imag * b.real) / 32768⟩ := by
  unfold is_int32 at hre him
  unfold complex_multiply
  simp only [shiftRight_fixed_point]
  generalize a.real * b.real - a.imag * b.imag = p at hre
  generalize a.real * b.imag + a.imag * b.real = q at him
  have hp : to_int64 p = p := to_int64_of_bounds (by omega) (by omega)
  have hq : to_int64 q = q := to_int64_of_bounds (by omega) (by omega)
  rw [hp, hq, to_int32_of_is_int32 hre, to_int32_of_is_int32 him]

/-- C4. For samples with 32-bit lanes whose rescaled results fit in 32 bits,
`complex_multiply a b` is the lane-wise floor (rounding toward negative infinity) of the
exact products divided by `2^15`. -/
theorem complex_multiply_floor (a b : complex_t) (_ha : lanes_int32 a) (_hb : lanes_int32 b)
    (hre : is_int32 ⌊((a.real * b.real - a.imag * b.imag : Int) : ℚ) / 2 ^ 15⌋)
    (him : is_int32 ⌊((a.real * b.imag + a.imag * b.real : Int) : ℚ) / 2 ^ 15⌋) :
    (complex_multiply a b).real = ⌊((a.real * b.real - a.imag * b.imag : Int) : ℚ) / 2 ^ 15⌋ ∧
    (complex_multiply a b).imag = ⌊((a.real * b.imag + a.imag * b.real : Int) : ℚ) / 2 ^ 15⌋ := by
  have key : ∀ x : Int, ⌊(x : ℚ) / 2 ^ 15⌋ = x / 32768 := by
    intro x
    have h := Rat.floor_intCast_div_natCast x 32768
    norm_num at h ⊢
    exact h
  rw [key] at hre him ⊢
  rw [key]
  rw [complex_multiply_exact a b hre him]
  exact ⟨rfl, rfl⟩

/-- Witness for C4 at a product whose exact quotient is negative and not an integer:
`(1 + 0j) * (-1 + 0j)` gives real lane `floor(-1 / 32768) = -1` (toward zero would
give `0`). -/
theorem complex_multiply_floor_witness :
    (complex_multiply ⟨1, 0⟩ ⟨-1, 0⟩).real = ⌊(((1 : Int) * (-1) - 0 * 0 : Int) : ℚ) / 2 ^ 15⌋ ∧
    (complex_multiply ⟨1, 0⟩ ⟨-1, 0⟩).imag = ⌊(((1 : Int) * 0 + 0 * (-1) : Int) : ℚ) / 2 ^ 15⌋ :=
  complex_multiply_floor ⟨1, 0⟩ ⟨-1, 0⟩ (by decide) (by decide)
    (by norm_num [is_int32, Int.floor_eq_iff]) (by norm_num [is_int32])

/-! ### Bit reversal (C5, C6) -/

theorem bit_reverse_u16_check :
    all_below (fun i => forceNat (bit_reverse_u16 i 10) fun j =>
      decide (j < 1024 ∧ bit_reverse_u16 j 10 = i ∧ j = reverse_bits i 10)) 1024 = true := by
  decide!

theorem forceNat_eq {β : Type} (n : Nat) (k : Nat → β) : forceNat n k = k n := by
  cases n <;> rfl

theorem all_below_spec (p : Nat → Bool) : ∀ n, all_below p n = true → ∀ i, i < n → p i = true := by
  intro n
  induction n with
  | zero => intro _ i hi; omega
  | succ n ih =>
    intro h i hi
    simp only [all_below, Bool.and_eq_true] at h
    by_cases c : i = n
    · subst c; exact h.1
    · exact ih h.2 i (by omega)

theorem bit_reverse_u16_table : ∀ i, i < 1024 →
    (bit_reverse_u16 i 10 < 1024 ∧ bit_reverse_u16 (bit_reverse_u16 i 10) 10 = i ∧
      bit_reverse_u16 i 10 = reverse_bits i 10) := by
  intro i hi
  have h := all_below_spec _ _ bit_reverse_u16_check i hi
  rw [forceNat_eq, decide_eq_true_eq] at h
  exact h

theorem bit_reverse_u16_lt {i : Nat} (h : i < FFT_N) : bit_reverse_u16 i LOG2_FFT_N < FFT_N :=
  (bit_reverse_u16_table i h).1

theorem bit_reverse_u16_invol {i : Nat} (h : i < FFT_N) :
    bit_reverse_u16 (bit_reverse_u16 i LOG2_FFT_N) LOG2_FFT_N = i :=
  (bit_reverse_u16_table i h).2.1

theorem upd_apply (a : Buf) (i : Nat) (v : complex_t) (k : Nat) :
    upd a i v k = if k = i then v else a k := rfl

theorem bit_reverse_upto (d : Buf) (k : Nat) (hk : k ≤ FFT_N) :
    (List.range k).foldl bit_reverse_reorder_body d =
      fun i => if i < FFT_N ∧ (i < k ∨ bit_reverse_u16 i LOG2_FFT_N < k)
        then d (bit_reverse_u16 i LOG2_FFT_N) else d i := by
  induction k with
  | zero => funext i; simp
  | succ k ih =>
    have hk1 : k < FFT_N := hk
    rw [List.range_succ, List.foldl_append, ih (by omega)]
    funext i
    have hjlt := bit_reverse_u16_lt hk1
    have hjinv := bit_reverse_u16_invol hk1
    obtain ⟨j, hj⟩ : ∃ j, bit_reverse_u16 k LOG2_FFT_N = j := ⟨_, rfl⟩
    rw [hj] at hjlt hjinv
    obtain ⟨ri, hr⟩ : ∃ ri, bit_reverse_u16 i LOG2_FFT_N = ri := ⟨_, rfl⟩
    have hrinv : i < FFT_N → bit_reverse_u16 ri LOG2_FFT_N = i := by
      intro hi; rw [← hr]; exact bit_reverse_u16_invol hi
    have e1 : ¬ i < FFT_N ∨ ri ≠ k ∨ i = j := by
      by_cases hi : i < FFT_N
      · by_cases h : ri = k
        · right; right; rw [← hrinv hi, h, hj]
        · right; left; exact h
      · left; exact hi
    have e2 : i ≠ j ∨ ri = k := by
      by_cases h : i = j
      · right; rw [← hr, h, hjinv]
      · left; exact h
    have e3 : i ≠ k ∨ ri = j := by
      by_cases h : i = k
      · right; rw [← hr, h, hj]
      · left; exact h
    simp only [List.foldl_cons, List.foldl_nil, bit_reverse_reorder_body, upd_apply, hj, hjinv, hr]
    by_cases hg : j > k
    · simp only [hg, if_true, upd_apply, hr]
      split_ifs <;> first | rfl | (exfalso; omega) | (congr 1; omega)
    · simp only [hg, if_false, hr]
      split_ifs <;> first | rfl | (exfalso; omega) | (congr 1; omega)

theorem bit_reverse_reorder_generic_eq (d : Buf) :
    bit_reverse_reorder_generic d = bit_reverse_spec d := by
  unfold bit_reverse_reorder_generic bit_reverse_spec
  rw [bit_reverse_upto d FFT_N (le_refl _)]
  funext i
  by_cases hi : i < FFT_N
  · simp [hi]
  · simp [hi]

/-- C5. `bit_reverse_reorder_generic` maps a 1024-sample buffer `d` to `d'` with
`d'[i] = d[r(i)]`, `r(i) = bit_reverse_u16(i, 10)` being the reversal of the 10 low-order
bits of `i`; an iteration stores nothing when `r(i) = i`, and of the two iterations `i`
and `r(i)` of a pair with `r(i) ≠ i` exactly one passes the guard `j > i` and performs
the swap. -/
theorem bit_reverse_reorder_generic_spec (d : Buf) :
    (∀ i, i < FFT_N →
      bit_reverse_reorder_generic d i = d (bit_reverse_u16 i LOG2_FFT_N)) ∧
    (∀ i, i < FFT_N → bit_reverse_u16 i LOG2_FFT_N = reverse_bits i LOG2_FFT_N) ∧
    (∀ i, i < FFT_N → bit_reverse_u16 i LOG2_FFT_N = i →
      ∀ data, bit_reverse_reorder_body data i = data) ∧
    (∀ i, i < FFT_N → bit_reverse_u16 i LOG2_FFT_N > i →
      ∀ data, bit_reverse_reorder_body data i =
        upd (upd data i (data (bit_reverse_u16 i LOG2_FFT_N)))
          (bit_reverse_u16 i LOG2_FFT_N) (data i)) ∧
    (∀ i, i < FFT_N → bit_reverse_u16 i LOG2_FFT_N ≠ i →
      ((bit_reverse_u16 i LOG2_FFT_N > i ∧
          ¬ bit_reverse_u16 (bit_reverse_u16 i LOG2_FFT_N) LOG2_FFT_N >
            bit_reverse_u16 i LOG2_FFT_N) ∨
       (¬ bit_reverse_u16 i LOG2_FFT_N > i ∧
          bit_reverse_u16 (bit_reverse_u16 i LOG2_FFT_N) LOG2_FFT_N >
            bit_reverse_u16 i LOG2_FFT_N))) := by
  refine ⟨?_, ?_, ?_, ?_, ?_⟩
  · intro i hi
    rw [bit_reverse_reorder_generic_eq]
    simp [bit_reverse_spec, hi]
  · intro i hi
    exact (bit_reverse_u16_table i hi).2.2
  · intro i _ h data
    simp [bit_reverse_reorder_body, h]
  · intro i _ h data
    simp [bit_reverse_reorder_body, h]
  · intro i hi hne
    rw [bit_reverse_u16_invol hi]
    omega

/-- Witness for C5 at `i = 1` (`r(1) = 512`) on the buffer holding `(i, 0)` at index `i`. -/
theorem bit_reverse_reorder_generic_spec_witness :
    bit_reverse_reorder_generic (fun i => ⟨i, 0⟩) 1 = ⟨512, 0⟩ :=
  ((bit_reverse_reorder_generic_spec (fun i => ⟨i, 0⟩)).1 1 (by decide)).trans (by decide)

/-- C6. Permutation involution: `bit_reverse_reorder_generic` applied twice returns the
original buffer. -/
theorem bit_reverse_reorder_generic_involution (d : Buf) :
    bit_reverse_reorder_generic (bit_reverse_reorder_generic d) = d := by
  rw [bit_reverse_reorder_generic_eq, bit_reverse_reorder_generic_eq]
  funext i
  unfold bit_reverse_spec
  by_cases hi : i < FFT_N
  · simp only [hi, if_true, bit_reverse_u16_lt hi, bit_reverse_u16_invol hi]
  · simp only [hi, if_false]

/-! ### Twiddle table (C7) -/

theorem twiddle_seq_zero : twiddle_seq 0 = ⟨32767, 0⟩ := rfl

theorem twiddle_seq_succ (k : Nat) :
    twiddle_seq (k + 1) = complex_multiply (twiddle_seq k) W1 := rfl

theorem init_twiddles_upto (table : Buf) (n : Nat) :
    (List.range n).foldl init_twiddles_body (table, twiddle_seq 0) =
      ((fun k => if k < n then twiddle_seq k else table k), twiddle_seq n) := by
  induction n with
  | zero => simp
  | succ n ih =>
    rw [List.range_succ, List.foldl_append, ih]
    simp only [List.foldl_cons, List.foldl_nil, init_twiddles_body, twiddle_seq_succ]
    congr 1
    funext k
    simp only [upd_apply]
    split_ifs <;> first | rfl | (exfalso; omega) | (congr 1; omega)

theorem init_twiddles_table (s : TwiddleState) (h : s.twiddles_initialized = 0) :
    init_twiddles s =
      { twiddle_factors := fun k => if k < FFT_N / 2 then twiddle_seq k else s.twiddle_factors k
        twiddles_initialized := 1 } := by
  unfold init_twiddles
  simp only [h, ne_eq, not_true_eq_false, if_false]
  have key := init_twiddles_upto s.twiddle_factors (FFT_N / 2)
  rw [twiddle_seq_zero] at key
  rw [key]

/-- C7. After `init_twiddles` runs from the uninitialised state, entry 0 of the table is
exactly `(32767, 0)` and `twiddle_factors[k+1] = complex_multiply(twiddle_factors[k], W1)`
for every `k` in `[0, 511)`, with `W1 = (32767, -201)`. -/
theorem init_twiddles_recurrence (s : TwiddleState) (h : s.twiddles_initialized = 0) :
    (init_twiddles s).twiddle_factors 0 = ⟨32767, 0⟩ ∧
    (∀ k, k < 511 →
      (init_twiddles s).twiddle_factors (k + 1) =
        complex_multiply ((init_twiddles s).twiddle_factors k) ⟨32767, -201⟩) ∧
    (init_twiddles s).twiddles_initialized = 1 := by
  rw [init_twiddles_table s h]
  refine ⟨?_, ?_, rfl⟩
  · simp [FFT_N, twiddle_seq_zero]
  · intro k hk
    have h1 : k + 1 < FFT_N / 2 := by unfold FFT_N; omega
    have h2 : k < FFT_N / 2 := by unfold FFT_N; omega
    simp only [h1, h2, if_true, twiddle_seq_succ, W1]

/-- Witness for C7 at the start-up state (zeroed statics). -/
theorem init_twiddles_recurrence_witness :
    (init_twiddles TwiddleState.startup).twiddle_factors 0 = ⟨32767, 0⟩ ∧
    (∀ k, k < 511 →
      (init_twiddles TwiddleState.startup).twiddle_factors (k + 1) =
        complex_multiply ((init_twiddles TwiddleState.startup).twiddle_factors k) ⟨32767, -201⟩) ∧
    (init_twiddles TwiddleState.startup).twiddles_initialized = 1 :=
  init_twiddles_recurrence TwiddleState.startup rfl

/-! ### Forward transform: the in-place loops against the per-stage definition (C1) -/

theorem copy_upto (input output : Buf) (n : Nat) :
    (List.range n).foldl (fun out i => upd out i (input i)) output =
      fun i => if i < n then input i else output i := by
  induction n with
  | zero => funext i; simp
  | succ n ih =>
    rw [List.range_succ, List.foldl_append, ih]
    funext i
    simp only [List.foldl_cons, List.foldl_nil, upd_apply]
    split_ifs <;> first | rfl | (exfalso; omega) | (congr 1; omega)

theorem copy_input_eq (input output : Buf) : copy_input input output = copy_spec input output :=
  copy_upto input output FFT_N

theorem butterfly_loop_upto (tw d : Buf) (h step block n : Nat) (hn : n ≤ h) :
    (List.range n).foldl (butterfly_body tw h step block) (d, 0) =
      ((fun i =>
          if block ≤ i ∧ i < block + n then
            complex_add (d i) (complex_multiply (d (i + h)) (tw ((i - block) * step)))
          else if block + h ≤ i ∧ i < block + h + n then
            complex_subtract (d (i - h)) (complex_multiply (d i) (tw ((i - block - h) * step)))
          else d i), n * step) := by
  induction n with
  | zero =>
    refine Prod.ext ?_ (by simp)
    funext i
    simp only [List.range_zero, List.foldl_nil]
    split_ifs <;> first | rfl | (exfalso; omega)
  | succ n ih =>
    rw [List.range_succ, List.foldl_append, ih (by omega)]
    simp only [List.foldl_cons, List.foldl_nil, butterfly_body]
    refine Prod.ext ?_ (by simp only [Nat.succ_mul])
    funext i
    simp only [upd_apply]
    have c1 : ¬ (block ≤ block + n + h ∧ block + n + h < block + n) := by omega
    have c2 : ¬ (block + h ≤ block + n + h ∧ block + n + h < block + h + n) := by omega
    have c3 : ¬ (block ≤ block + n ∧ block + n < block + n) := by omega
    have c4 : ¬ (block + h ≤ block + n ∧ block + n < block + h + n) := by omega
    rw [if_neg c1, if_neg c2, if_neg c3, if_neg c4]
    by_cases e1 : i = block + n + h
    · subst e1
      have c5 : ¬ (block ≤ block + n + h ∧ block + n + h < block + (n + 1)) := by omega
      have c6 : (block + h ≤ block + n + h ∧ block + n + h < block + h + (n + 1)) := by omega
      have c7 : block + n + h - h = block + n := by omega
      have c8 : block + n + h - block - h = n := by omega
      rw [if_pos rfl, if_neg c5, if_pos c6, c7, c8]
    · by_cases e2 : i = block + n
      · subst e2
        have c5 : (block ≤ block + n ∧ block + n < block + (n + 1)) := by omega
        have c8 : block + n - block = n := by omega
        rw [if_neg e1, if_pos rfl, if_pos c5, c8]
      · rw [if_neg e1, if_neg e2]
        have c5 : (block ≤ i ∧ i < block + (n + 1)) ↔ (block ≤ i ∧ i < block + n) := by omega
        have c6 : (block + h ≤ i ∧ i < block + h + (n + 1)) ↔ (block + h ≤ i ∧ i < block + h + n) := by
          omega
        simp only [c5, c6]

theorem butterfly_loop_eq (tw d : Buf) (h step block : Nat) :
    butterfly_loop tw h step block d =
      fun i =>
        if block ≤ i ∧ i < block + h then
          complex_add (d i) (complex_multiply (d (i + h)) (tw ((i - block) * step)))
        else if block + h ≤ i ∧ i < block + h + h then
          complex_subtract (d (i - h)) (complex_multiply (d i) (tw ((i - block - h) * step)))
        else d i := by
  unfold butterfly_loop
  rw [butterfly_loop_upto tw d h step block h (le_refl _)]

theorem mod_in_block {i B m : Nat} (hB : m ∣ B) (h1 : B ≤ i) (h2 : i < B + m) :
    i % m = i - B := by
  obtain ⟨c, rfl⟩ := hB
  have e : i = i - m * c + m * c := by omega
  conv_lhs => rw [e]
  rw [Nat.add_mul_mod_self_left]
  exact Nat.mod_eq_of_lt (by omega)

theorem next_block_le {B N m : Nat} (hB : m ∣ B) (hN : m ∣ N) (h : B < N) : B + m ≤ N := by
  obtain ⟨c, rfl⟩ := hB
  obtain ⟨q, rfl⟩ := hN
  have hm : 0 < m := by
    rcases Nat.eq_zero_or_pos m with h0 | h0
    · subst h0; simp at h
    · exact h0
  have hcq : c < q := lt_of_mul_lt_mul_left h (Nat.zero_le m)
  calc m * c + m = m * (c + 1) := by ring
    _ ≤ m * q := Nat.mul_le_mul_left m hcq

theorem block_start_ge {i B m : Nat} (hB : m ∣ B) (h : B ≤ i) : B + i % m ≤ i := by
  obtain ⟨c, rfl⟩ := hB
  rcases Nat.eq_zero_or_pos m with h0 | h0
  · subst h0; simp
  · have h1 : c ≤ i / m := (Nat.le_div_iff_mul_le h0).2 (by rw [Nat.mul_comm]; exact h)
    have h2 : m * c ≤ m * (i / m) := Nat.mul_le_mul_left m h1
    have h3 := Nat.div_add_mod i m
    omega

theorem block_loop_from (tw : Buf) (m h step : Nat) (hm : m = h + h) (hh : 0 < h)
    (hN : m ∣ 1024) :
    ∀ (fuel B : Nat) (D : Buf), m ∣ B → B ≤ 1024 → 1024 ≤ B + fuel * m →
      block_loop tw m h step fuel B D =
        some (fun i =>
          if B ≤ i ∧ i < 1024 then
            (if i % m < h then
              complex_add (D i) (complex_multiply (D (i + h)) (tw (i % m * step)))
            else
              complex_subtract (D (i - h))
                (complex_multiply (D i) (tw ((i % m - h) * step))))
          else D i) := by
  intro fuel
  induction fuel with
  | zero =>
    intro B D _ hle hf
    have hB2 : B = 1024 := by omega
    subst hB2
    simp only [block_loop, FFT_N, lt_irrefl, if_false]
    congr 1
    funext i
    split_ifs <;> first | rfl | (exfalso; omega)
  | succ fuel ih =>
    intro B D hB hle hf
    by_cases hlt : B < 1024
    · have hnext : B + m ≤ 1024 := next_block_le hB hN hlt
      have hB1 : m ∣ B + m := Dvd.dvd.add hB (dvd_refl m)
      have hf1 : 1024 ≤ B + m + fuel * m := by rw [Nat.succ_mul] at hf; omega
      simp only [block_loop, FFT_N, hlt, if_true]
      rw [ih _ _ hB1 hnext hf1, butterfly_loop_eq]
      congr 1
      funext i
      by_cases c1 : i < B
      · have n1 : ¬ (B + m ≤ i ∧ i < 1024) := by omega
        have n2 : ¬ (B ≤ i ∧ i < B + h) := by omega
        have n3 : ¬ (B + h ≤ i ∧ i < B + h + h) := by omega
        have n4 : ¬ (B ≤ i ∧ i < 1024) := by omega
        simp only [if_neg n1, if_neg n2, if_neg n3, if_neg n4]
      · by_cases c2 : i < B + m
        · have hmod : i % m = i - B := mod_in_block hB (by omega) c2
          have n1 : ¬ (B + m ≤ i ∧ i < 1024) := by omega
          have p4 : (B ≤ i ∧ i < 1024) := by omega
          simp only [if_neg n1, if_pos p4, hmod]
          by_cases c3 : i < B + h
          · have p2 : (B ≤ i ∧ i < B + h) := by omega
            have p5 : i - B < h := by omega
            simp only [if_pos p2, if_pos p5]
          · have n2 : ¬ (B ≤ i ∧ i < B + h) := by omega
            have p3 : (B + h ≤ i ∧ i < B + h + h) := by omega
            have n5 : ¬ (i - B < h) := by omega
            simp only [if_neg n2, if_pos p3, if_neg n5]
        · have hge := block_start_ge hB1 (by omega : B + m ≤ i)
          have hD : ∀ x, B + m ≤ x →
              (if B ≤ x ∧ x < B + h then
                complex_add (D x) (complex_multiply (D (x + h)) (tw ((x - B) * step)))
              else if B + h ≤ x ∧ x < B + h + h then
                complex_subtract (D (x - h)) (complex_multiply (D x) (tw ((x - B - h) * step)))
              else D x) = D x := by
            intro x hx
            have n2 : ¬ (B ≤ x ∧ x < B + h) := by omega
            have n3 : ¬ (B + h ≤ x ∧ x < B + h + h) := by omega
            simp only [if_neg n2, if_neg n3]
          by_cases c4 : i < 1024
          · have p1 : (B + m ≤ i ∧ i < 1024) := by omega
            have p4 : (B ≤ i ∧ i < 1024) := by omega
            simp only [if_pos p1, if_pos p4]
            by_cases c5 : i % m < h
            · simp only [if_pos c5]
              rw [hD i (by omega), hD (i + h) (by omega)]
            · simp only [if_neg c5]
              rw [hD i (by omega), hD (i - h) (by omega)]
          · have n1 : ¬ (B + m ≤ i ∧ i < 1024) := by omega
            have n4 : ¬ (B ≤ i ∧ i < 1024) := by omega
            simp only [if_neg n1, if_neg n4]
            exact hD i (by omega)
    · have hB2 : B = 1024 := by omega
      subst hB2
      simp only [block_loop, FFT_N, lt_irrefl, if_false]
      congr 1
      funext i
      split_ifs <;> first | rfl | (exfalso; omega)

theorem block_loop_stage (tw d : Buf) (m : Nat) (hm : m ∈ stage_sizes) :
    block_loop tw m (m >>> 1) (FFT_N / m) FFT_N 0 d = some (stage_spec tw m d) := by
  have hshift : m >>> 1 = m / 2 := by rw [Nat.shiftRight_eq_div_pow, pow_one]
  rw [hshift]
  have hfacts : m = m / 2 + m / 2 ∧ 0 < m / 2 ∧ m ∣ 1024 := by
    simp only [stage_sizes, List.mem_cons, List.mem_singleton, List.not_mem_nil, or_false] at hm
    rcases hm with rfl | rfl | rfl | rfl | rfl | rfl | rfl | rfl | rfl | rfl <;> decide
  obtain ⟨h1, h2, h3⟩ := hfacts
  have hfuel : 1024 ≤ 0 + FFT_N * m := by
    have : 1 ≤ m := by omega
    calc 1024 = 1024 * 1 := by norm_num
      _ ≤ 1024 * m := Nat.mul_le_mul_left 1024 this
      _ = 0 + FFT_N * m := by simp [FFT_N]
  rw [block_loop_from tw m (m / 2) (FFT_N / m) h1 h2 h3 FFT_N 0 d (dvd_zero m) (by omega) hfuel]
  congr 1
  funext i
  simp only [stage_spec, FFT_N, Nat.zero_le, true_and]

theorem stage_loop_step (tw d : Buf) (fuel m : Nat) (hm : m ∈ stage_sizes) :
    stage_loop tw (fuel + 1) m (FFT_N / m) d =
      stage_loop tw fuel (m <<< 1) ((FFT_N / m) >>> 1) (stage_spec tw m d) := by
  have hle : m ≤ FFT_N := by
    simp only [stage_sizes, List.mem_cons, List.mem_singleton, List.not_mem_nil, or_false] at hm
    rcases hm with rfl | rfl | rfl | rfl | rfl | rfl | rfl | rfl | rfl | rfl <;> decide
  simp only [stage_loop, hle, if_true, block_loop_stage tw d m hm]

theorem stage_loop_eq (tw d : Buf) :
    stage_loop tw (LOG2_FFT_N + 1) 2 (FFT_N >>> 1) d =
      some (stage_sizes.foldl (fun d m => stage_spec tw m d) d) := by
  have e0 : stage_loop tw (LOG2_FFT_N + 1) 2 (FFT_N >>> 1) d = stage_loop tw (10 + 1) 2 (FFT_N / 2) d := rfl
  rw [e0, stage_loop_step tw _ _ 2 (by decide)]
  have e1 : ∀ x, stage_loop tw 10 (2 <<< 1) ((FFT_N / 2) >>> 1) x = stage_loop tw (9 + 1) 4 (FFT_N / 4) x :=
    fun _ => rfl
  rw [e1, stage_loop_step tw _ _ 4 (by decide)]
  have e2 : ∀ x, stage_loop tw 9 (4 <<< 1) ((FFT_N / 4) >>> 1) x = stage_loop tw (8 + 1) 8 (FFT_N / 8) x :=
    fun _ => rfl
  rw [e2, stage_loop_step tw _ _ 8 (by decide)]
  have e3 : ∀ x, stage_loop tw 8 (8 <<< 1) ((FFT_N / 8) >>> 1) x = stage_loop tw (7 + 1) 16 (FFT_N / 16) x :=
    fun _ => rfl
  rw [e3, stage_loop_step tw _ _ 16 (by decide)]
  have e4 : ∀ x, stage_loop tw 7 (16 <<< 1) ((FFT_N / 16) >>> 1) x = stage_loop tw (6 + 1) 32 (FFT_N / 32) x :=
    fun _ => rfl
  rw [e4, stage_loop_step tw _ _ 32 (by decide)]
  have e5 : ∀ x, stage_loop tw 6 (32 <<< 1) ((FFT_N / 32) >>> 1) x = stage_loop tw (5 + 1) 64 (FFT_N / 64) x :=
    fun _ => rfl
  rw [e5, stage_loop_step tw _ _ 64 (by decide)]
  have e6 : ∀ x, stage_loop tw 5 (64 <<< 1) ((FFT_N / 64) >>> 1) x = stage_loop tw (4 + 1) 128 (FFT_N / 128) x :=
    fun _ => rfl
  rw [e6, stage_loop_step tw _ _ 128 (by decide)]
  have e7 : ∀ x, stage_loop tw 4 (128 <<< 1) ((FFT_N / 128) >>> 1) x = stage_loop tw (3 + 1) 256 (FFT_N / 256) x :=
    fun _ => rfl
  rw [e7, stage_loop_step tw _ _ 256 (by decide)]
  have e8 : ∀ x, stage_loop tw 3 (256 <<< 1) ((FFT_N / 256) >>> 1) x = stage_loop tw (2 + 1) 512 (FFT_N / 512) x :=
    fun _ => rfl
  rw [e8, stage_loop_step tw _ _ 512 (by decide)]
  have e9 : ∀ x, stage_loop tw 2 (512 <<< 1) ((FFT_N / 512) >>> 1) x = stage_loop tw (1 + 1) 1024 (FFT_N / 1024) x :=
    fun _ => rfl
  rw [e9, stage_loop_step tw _ _ 1024 (by decide)]
  have e10 : ∀ x, stage_loop tw 1 (1024 <<< 1) ((FFT_N / 1024) >>> 1) x = some x := fun _ => rfl
  rw [e10]
  rfl

theorem fft_1024_point_eq (s : TwiddleState) (input output : Buf) :
    fft_1024_point s input output =
      some (init_twiddles s, fft_spec (init_twiddles s).twiddle_factors input output) := by
  unfold fft_1024_point fft_spec
  simp only [stage_loop_eq, copy_input_eq, bit_reverse_reorder_generic_eq]

theorem stage_spec_pair (tw d : Buf) (m : Nat) (hm : m ∈ stage_sizes) (b j : Nat)
    (hb : m ∣ b) (hbN : b < FFT_N) (hj : j < m / 2) :
    stage_spec tw m d (b + j) =
      complex_add (d (b + j))
        (complex_multiply (d (b + j + m / 2)) (tw (j * (FFT_N / m)))) ∧
    stage_spec tw m d (b + j + m / 2) =
      complex_subtract (d (b + j))
        (complex_multiply (d (b + j + m / 2)) (tw (j * (FFT_N / m)))) := by
  have hfacts : m = m / 2 + m / 2 ∧ 0 < m / 2 ∧ m ∣ FFT_N := by
    simp only [stage_sizes, List.mem_cons, List.mem_singleton, List.not_mem_nil, or_false] at hm
    rcases hm with rfl | rfl | rfl | rfl | rfl | rfl | rfl | rfl | rfl | rfl <;> decide
  obtain ⟨h1, h2, h3⟩ := hfacts
  have hnext : b + m ≤ FFT_N := next_block_le hb h3 hbN
  have e1 : (b + j) % m = j := by
    rw [mod_in_block hb (by omega) (by omega)]; omega
  have e2 : (b + j + m / 2) % m = j + m / 2 := by
    rw [mod_in_block hb (by omega) (by omega)]; omega
  have l1 : b + j < FFT_N := by omega
  have l2 : b + j + m / 2 < FFT_N := by omega
  have n2 : ¬ (j + m / 2 < m / 2) := by omega
  have e3 : b + j + m / 2 - m / 2 = b + j := by omega
  have e4 : j + m / 2 - m / 2 = j := by omega
  constructor
  · simp only [stage_spec, l1, if_true, e1, hj]
  · simp only [stage_spec, l2, if_true, e2, n2, if_false, e3, e4]

/-- C1. `fft_1024_point` returns, and its output is the result of copying the input,
applying the 10-bit bit-reversal permutation and then the ten stages `m = 2, 4, ..., 1024`
in increasing order, each stage computed simultaneously from the pre-stage buffer:
`d'[b+j] = add(d[b+j], t)`, `d'[b+j+m/2] = subtract(d[b+j], t)`,
`t = multiply(d[b+j+m/2], twiddle[j*(1024/m)])`. -/
theorem fft_1024_point_stages (s : TwiddleState) (input output : Buf) :
    fft_1024_point s input output =
      some (init_twiddles s,
        stage_sizes.foldl (fun d m => stage_spec (init_twiddles s).twiddle_factors m d)
          (bit_reverse_spec (copy_spec input output))) ∧
    (∀ (tw d : Buf) (m : Nat), m ∈ stage_sizes → ∀ b j, m ∣ b → b < FFT_N → j < m / 2 →
      stage_spec tw m d (b + j) =
        complex_add (d (b + j))
          (complex_multiply (d (b + j + m / 2)) (tw (j * (1024 / m)))) ∧
      stage_spec tw m d (b + j + m / 2) =
        complex_subtract (d (b + j))
          (complex_multiply (d (b + j + m / 2)) (tw (j * (1024 / m))))) ∧
    (∀ d i, i < FFT_N → bit_reverse_spec d i = d (bit_reverse_u16 i 10)) ∧
    (∀ i, i < FFT_N → copy_spec input output i = input i) := by
  refine ⟨fft_1024_point_eq s input output, ?_, ?_, ?_⟩
  · intro tw d m hm b j hb hbN hj
    exact stage_spec_pair tw d m hm b j hb hbN hj
  · intro d i hi
    simp [bit_reverse_spec, hi, LOG2_FFT_N]
  · intro i hi
    simp [copy_spec, hi]

/-! ### Inverse transform (C2) -/

theorem ifft_conj_upto (input temp : Buf) (n : Nat) :
    (List.range n).foldl
      (fun t i => upd t i { real := (input i).real, imag := to_int32 (-(input i).imag) }) temp =
      fun i => if i < n then { real := (input i).real, imag := to_int32 (-(input i).imag) }
        else temp i := by
  induction n with
  | zero => funext i; simp
  | succ n ih =>
    rw [List.range_succ, List.foldl_append, ih]
    funext i
    simp only [List.foldl_cons, List.foldl_nil, upd_apply]
    by_cases h : i = n
    · subst h
      simp
    · have c : i < n + 1 ↔ i < n := by omega
      simp only [h, if_false, c]

theorem ifft_scale_upto (F : Buf) (n : Nat) :
    (List.range n).foldl ifft_scale_body F =
      fun i => if i < n then
          { real := to_int32 ((F i).real >>> LOG2_FFT_N)
            imag := to_int32 (to_int32 (-(F i).imag) >>> LOG2_FFT_N) }
        else F i := by
  induction n with
  | zero => funext i; simp
  | succ n ih =>
    rw [List.range_succ, List.foldl_append, ih]
    funext i
    simp only [List.foldl_cons, List.foldl_nil, ifft_scale_body, upd_apply, lt_irrefl, if_false,
      if_true]
    by_cases h : i = n
    · subst h
      simp
    · have c : i < n + 1 ↔ i < n := by omega
      simp only [h, if_false, c]

theorem fft_spec_congr (tw input1 input2 output : Buf)
    (h : ∀ i, i < FFT_N → input1 i = input2 i) :
    fft_spec tw input1 output = fft_spec tw input2 output := by
  have e : copy_spec input1 output = copy_spec input2 output := by
    funext i
    unfold copy_spec
    by_cases hi : i < FFT_N
    · simp only [hi, if_true, h i hi]
    · simp only [hi, if_false]
  unfold fft_spec
  rw [e]

theorem fft_spec_last (tw input output : Buf) :
    ∃ d, fft_spec tw input output = stage_spec tw 1024 d :=
  ⟨_, rfl⟩

theorem stage_spec_lanes (tw d : Buf) (m i : Nat) (hi : i < FFT_N) :
    lanes_int32 (stage_spec tw m d i) := by
  unfold stage_spec
  simp only [hi, if_true]
  split_ifs
  · exact ⟨is_int32_to_int32 _, is_int32_to_int32 _⟩
  · exact ⟨is_int32_to_int32 _, is_int32_to_int32 _⟩

theorem fft_spec_lanes (tw input output : Buf) (i : Nat) (hi : i < FFT_N) :
    lanes_int32 (fft_spec tw input output i) := by
  obtain ⟨d, hd⟩ := fft_spec_last tw input output
  rw [hd]
  exact stage_spec_lanes tw d 1024 i hi

theorem floor_div_1024 (x : Int) : ⌊(x : ℚ) / 1024⌋ = x / 1024 := by
  have h := Rat.floor_intCast_div_natCast x 1024
  norm_num at h ⊢
  exact h

theorem ifft_1024_point_eq (s : TwiddleState) (x output temp : Buf)
    (hx : ∀ i, i < FFT_N → lanes_int32 (x i) ∧ (x i).imag ≠ -2147483648) :
    ifft_1024_point s x output temp =
      some (init_twiddles s,
        fun i => if i < FFT_N then
          { real := to_int32
              ((fft_spec (init_twiddles s).twiddle_factors (conj_buf x) output i).real >>> LOG2_FFT_N)
            imag := to_int32 (to_int32
              (-(fft_spec (init_twiddles s).twiddle_factors (conj_buf x) output i).imag)
                >>> LOG2_FFT_N) }
        else fft_spec (init_twiddles s).twiddle_factors (conj_buf x) output i) := by
  unfold ifft_1024_point
  simp only [fft_1024_point_eq]
  have hc : fft_spec (init_twiddles s).twiddle_factors (ifft_conj_loop x temp) output =
      fft_spec (init_twiddles s).twiddle_factors (conj_buf x) output := by
    apply fft_spec_congr
    intro i hi
    unfold ifft_conj_loop
    rw [ifft_conj_upto]
    simp only [hi, if_true, conj_buf]
    obtain ⟨⟨_, h2⟩, h3⟩ := hx i hi
    have : is_int32 (-(x i).imag) := by
      unfold is_int32 at h2 ⊢
      omega
    rw [to_int32_of_is_int32 this]
  rw [hc, ifft_scale_upto]

/-- C2. For an input `x` of 1024 samples with 32-bit lanes and no 32-bit overflow in the
two negations (no imaginary lane of `x` or of `F` equal to `-2^31`), where
`F = fft_1024_point(conj x)`: `ifft_1024_point` returns and
`ifft_1024_point(x)[i] = (floor(F[i].real / 1024), floor(-F[i].imag / 1024))`; the
imaginary lane is negated before the shift and the shift rounds toward negative
infinity. -/
theorem ifft_1024_point_floor (s s1 : TwiddleState) (x output temp F : Buf)
    (hx : ∀ i, i < FFT_N → lanes_int32 (x i) ∧ (x i).imag ≠ -2147483648)
    (hfft : fft_1024_point s (conj_buf x) output = some (s1, F))
    (hF : ∀ i, i < FFT_N → (F i).imag ≠ -2147483648) :
    ∃ out,
      ifft_1024_point s x output temp = some (s1, out) ∧
      ∀ i, i < FFT_N →
        (out i).real = ⌊((F i).real : ℚ) / 1024⌋ ∧
        (out i).imag = ⌊((-(F i).imag : Int) : ℚ) / 1024⌋ := by
  rw [fft_1024_point_eq] at hfft
  have hpair := Option.some.inj hfft
  have hs1 : init_twiddles s = s1 := congrArg Prod.fst hpair
  have hFeq : fft_spec (init_twiddles s).twiddle_factors (conj_buf x) output = F :=
    congrArg Prod.snd hpair
  subst hs1
  subst hFeq
  refine ⟨_, ifft_1024_point_eq s x output temp hx, ?_⟩
  intro i hi
  simp only [hi, if_true, floor_div_1024, shiftRight_log2]
  obtain ⟨h1, h2⟩ := fft_spec_lanes (init_twiddles s).twiddle_factors (conj_buf x) output i hi
  have h3 := hF i hi
  generalize (fft_spec (init_twiddles s).twiddle_factors (conj_buf x) output i).real = a at h1
  generalize (fft_spec (init_twiddles s).twiddle_factors (conj_buf x) output i).imag = b at h2 h3
  unfold is_int32 at h1 h2
  have e1 : to_int32 (-b) = -b := to_int32_of_is_int32 (by unfold is_int32; omega)
  rw [e1]
  constructor
  · exact to_int32_of_is_int32 (by unfold is_int32; omega)
  · exact to_int32_of_is_int32 (by unfold is_int32; omega)

/-! ### The transform of an impulse at index 0 -/

theorem complex_multiply_zero (w : complex_t) : complex_multiply ⟨0, 0⟩ w = ⟨0, 0⟩ := by
  simp [complex_multiply, to_int64, to_int32]

theorem complex_add_zero (c : complex_t) (hc : lanes_int32 c) : complex_add c ⟨0, 0⟩ = c := by
  obtain ⟨h1, h2⟩ := hc
  simp [complex_add, to_int32_of_is_int32 h1, to_int32_of_is_int32 h2]

theorem complex_subtract_zero (c : complex_t) (hc : lanes_int32 c) :
    complex_subtract c ⟨0, 0⟩ = c := by
  obtain ⟨h1, h2⟩ := hc
  simp [complex_subtract, to_int32_of_is_int32 h1, to_int32_of_is_int32 h2]

theorem lanes_int32_zero : lanes_int32 ⟨0, 0⟩ := by decide

theorem stage_spec_impulse (tw d : Buf) (c : complex_t) (hc : lanes_int32 c) (m : Nat)
    (hm : m ∈ stage_sizes)
    (hd : ∀ i, i < FFT_N → d i = if i < m / 2 then c else ⟨0, 0⟩) :
    ∀ i, i < FFT_N → stage_spec tw m d i = if i < m then c else ⟨0, 0⟩ := by
  have hfacts : m = m / 2 + m / 2 ∧ 0 < m / 2 ∧ m ∣ FFT_N := by
    simp only [stage_sizes, List.mem_cons, List.mem_singleton, List.not_mem_nil, or_false] at hm
    rcases hm with rfl | rfl | rfl | rfl | rfl | rfl | rfl | rfl | rfl | rfl <;> decide
  obtain ⟨h1, h2, h3⟩ := hfacts
  intro i hi
  have hsub : i - i % m + i % m = i := Nat.sub_add_cancel (Nat.mod_le i m)
  have hdvd : m ∣ i - i % m := Nat.dvd_sub_mod i
  have hnext : i - i % m + m ≤ FFT_N := next_block_le hdvd h3 (by omega)
  have hmodlt : i % m < m := Nat.mod_lt i (by omega)
  have hmodeq : i < m → i % m = i := fun h => Nat.mod_eq_of_lt h
  have hmodge : m ≤ i → m ≤ i - i % m := by
    intro h
    have := block_start_ge (dvd_refl m) h
    omega
  unfold stage_spec
  simp only [hi, if_true]
  by_cases c1 : i % m < m / 2
  · have hlt : i + m / 2 < FFT_N := by omega
    have n1 : ¬ (i + m / 2 < m / 2) := by omega
    rw [if_pos c1, hd i hi, hd (i + m / 2) hlt, if_neg n1, complex_multiply_zero]
    by_cases c2 : i < m
    · have p : i < m / 2 := by have := hmodeq c2; omega
      rw [if_pos p, if_pos c2, complex_add_zero c hc]
    · have n : ¬ i < m / 2 := by omega
      rw [if_neg n, if_neg c2, complex_add_zero _ lanes_int32_zero]
  · have n1 : ¬ (i < m / 2) := by omega
    rw [if_neg c1, hd i hi, hd (i - m / 2) (by omega), if_neg n1, complex_multiply_zero]
    by_cases c2 : i < m
    · have p : i - m / 2 < m / 2 := by omega
      rw [if_pos p, if_pos c2, complex_subtract_zero c hc]
    · have n : ¬ (i - m / 2 < m / 2) := by
        have := hmodge (by omega)
        omega
      rw [if_neg n, if_neg c2, complex_subtract_zero _ lanes_int32_zero]

theorem bit_reverse_u16_eq_zero {i : Nat} (hi : i < FFT_N) :
    bit_reverse_u16 i LOG2_FFT_N = 0 ↔ i = 0 := by
  constructor
  · intro h
    have := bit_reverse_u16_invol hi
    rw [h] at this
    rw [← this]
    decide
  · intro h
    subst h
    decide

theorem fft_spec_impulse (tw output : Buf) (c : complex_t) (hc : lanes_int32 c) :
    ∀ i, i < FFT_N → fft_spec tw (impulse_input c) output i = c := by
  have h0 : ∀ i, i < FFT_N →
      bit_reverse_spec (copy_spec (impulse_input c) output) i = if i < 2 / 2 then c else ⟨0, 0⟩ := by
    intro i hi
    simp only [bit_reverse_spec, copy_spec, hi, if_true, bit_reverse_u16_lt hi, impulse_input,
      bit_reverse_u16_eq_zero hi]
    have e : i < 2 / 2 ↔ i = 0 := by omega
    simp only [e]
  have s1 := stage_spec_impulse tw _ c hc 2 (by decide) h0
  have s2 := stage_spec_impulse tw _ c hc 4 (by decide) s1
  have s3 := stage_spec_impulse tw _ c hc 8 (by decide) s2
  have s4 := stage_spec_impulse tw _ c hc 16 (by decide) s3
  have s5 := stage_spec_impulse tw _ c hc 32 (by decide) s4
  have s6 := stage_spec_impulse tw _ c hc 64 (by decide) s5
  have s7 := stage_spec_impulse tw _ c hc 128 (by decide) s6
  have s8 := stage_spec_impulse tw _ c hc 256 (by decide) s7
  have s9 := stage_spec_impulse tw _ c hc 512 (by decide) s8
  have s10 := stage_spec_impulse tw _ c hc 1024 (by decide) s9
  intro i hi
  have hfin := s10 i hi
  have hi2 : i < 1024 := hi
  rw [if_pos hi2] at hfin
  exact hfin

/-! ### Correctness of the evaluator -/

theorem dec32_addN (a b : Nat) : dec32 (addN a b) = to_int32 (dec32 a + dec32 b) := by
  unfold dec32 addN to_int32
  omega

theorem dec32_subN (a b : Nat) : dec32 (subN a b) = to_int32 (dec32 a - dec32 b) := by
  unfold dec32 subN to_int32
  omega

theorem dec32_enc32 (x : Int) (h : is_int32 x) : dec32 (enc32 x) = x := by
  unfold is_int32 at h
  unfold dec32 enc32 to_int32
  omega

theorem sx64_spec (a : Nat) :
    ∃ e : Int, (sx64 a : Int) = dec32 a + 18446744073709551616 * e ∧ sx64 a < 18446744073709551616 := by
  unfold sx64 dec32 to_int32
  by_cases h : a % 4294967296 < 2147483648
  · refine ⟨0, ?_, ?_⟩ <;> simp only [h, if_true] <;> omega
  · refine ⟨1, ?_, ?_⟩ <;> simp only [h, if_false] <;> omega

theorem shift_wrap (x k : Int) (u : Nat) (hu : (u : Int) = x + 18446744073709551616 * k) :
    dec32 ((u / 32768) % 4294967296) = to_int32 (to_int64 x >>> FIXED_POINT_BITS) := by
  rw [shiftRight_fixed_point]
  unfold dec32 to_int32 to_int64
  omega

theorem sx64_mul (a b : Nat) :
    ∃ k : Int, ((sx64 a * sx64 b : Nat) : Int) = dec32 a * dec32 b + 18446744073709551616 * k ∧
      sx64 a * sx64 b < 340282366920938463463374607431768211456 := by
  obtain ⟨e1, h1, l1⟩ := sx64_spec a
  obtain ⟨e2, h2, l2⟩ := sx64_spec b
  refine ⟨e1 * dec32 b + e2 * dec32 a + 18446744073709551616 * e1 * e2, ?_, ?_⟩
  · push_cast
    rw [h1, h2]
    ring
  · calc sx64 a * sx64 b < 18446744073709551616 * 18446744073709551616 :=
        Nat.mul_lt_mul'' l1 l2
      _ = 340282366920938463463374607431768211456 := by norm_num

theorem dec32_mulReN (ar ai br bi : Nat) :
    dec32 (mulReN ar ai br bi) =
      to_int32 (to_int64 (dec32 ar * dec32 br - dec32 ai * dec32 bi) >>> FIXED_POINT_BITS) := by
  obtain ⟨k1, h1, _⟩ := sx64_mul ar br
  obtain ⟨k2, h2, l2⟩ := sx64_mul ai bi
  unfold mulReN
  apply shift_wrap _ (k1 - k2 + 18446744073709551616)
  rw [Nat.cast_add, Nat.cast_sub (le_of_lt l2), h1, h2]
  push_cast
  ring

theorem dec32_mulImN (ar ai br bi : Nat) :
    dec32 (mulImN ar ai br bi) =
      to_int32 (to_int64 (dec32 ar * dec32 bi + dec32 ai * dec32 br) >>> FIXED_POINT_BITS) := by
  obtain ⟨k1, h1, _⟩ := sx64_mul ar bi
  obtain ⟨k2, h2, _⟩ := sx64_mul ai br
  unfold mulImN
  apply shift_wrap _ (k1 + k2)
  rw [Nat.cast_add, h1, h2]
  ring

theorem BT.sample_leaf (h : Nat) (a b : Nat) (i : Nat) :
    BT.sample h (.leaf a b) i = ⟨dec32 a, dec32 b⟩ := by
  cases h <;> rfl

theorem BT.sample_node (h : Nat) (l r : BT) (i : Nat) :
    BT.sample (h + 1) (.node l r) i =
      if i < 2 ^ h then BT.sample h l i else BT.sample h r (i - 2 ^ h) := by
  unfold BT.sample
  simp only [BT.get]
  split_ifs <;> rfl

theorem BT.sample_bfAdd : ∀ (h : Nat) (lo hi tw : BT), BT.perfect h lo → BT.perfect h hi →
    BT.perfect h tw → ∀ j,
      BT.sample h (BT.bfAdd lo hi tw) j =
        complex_add (BT.sample h lo j) (complex_multiply (BT.sample h hi j) (BT.sample h tw j)) := by
  intro h
  induction h with
  | zero =>
    intro lo hi tw h1 h2 h3 j
    cases lo <;> cases hi <;> cases tw <;> simp only [BT.perfect] at h1 h2 h3
    simp only [BT.bfAdd, BT.sample_leaf]
    rw [dec32_addN, dec32_addN, dec32_mulReN, dec32_mulImN]
    rfl
  | succ h ih =>
    intro lo hi tw h1 h2 h3 j
    cases lo <;> cases hi <;> cases tw <;> simp only [BT.perfect] at h1 h2 h3
    simp only [BT.bfAdd, BT.sample_node]
    split_ifs
    · exact ih _ _ _ h1.1 h2.1 h3.1 j
    · exact ih _ _ _ h1.2 h2.2 h3.2 _

theorem BT.sample_bfSub : ∀ (h : Nat) (lo hi tw : BT), BT.perfect h lo → BT.perfect h hi →
    BT.perfect h tw → ∀ j,
      BT.sample h (BT.bfSub lo hi tw) j =
        complex_subtract (BT.sample h lo j) (complex_multiply (BT.sample h hi j) (BT.sample h tw j)) := by
  intro h
  induction h with
  | zero =>
    intro lo hi tw h1 h2 h3 j
    cases lo <;> cases hi <;> cases tw <;> simp only [BT.perfect] at h1 h2 h3
    simp only [BT.bfSub, BT.sample_leaf]
    rw [dec32_subN, dec32_subN, dec32_mulReN, dec32_mulImN]
    rfl
  | succ h ih =>
    intro lo hi tw h1 h2 h3 j
    cases lo <;> cases hi <;> cases tw <;> simp only [BT.perfect] at h1 h2 h3
    simp only [BT.bfSub, BT.sample_node]
    split_ifs
    · exact ih _ _ _ h1.1 h2.1 h3.1 j
    · exact ih _ _ _ h1.2 h2.2 h3.2 _

theorem BT.perfect_bfAdd : ∀ (h : Nat) (lo hi tw : BT), BT.perfect h lo → BT.perfect h hi →
    BT.perfect h tw → BT.perfect h (BT.bfAdd lo hi tw) := by
  intro h
  induction h with
  | zero =>
    intro lo hi tw h1 h2 h3
    cases lo <;> cases hi <;> cases tw <;> simp only [BT.perfect] at h1 h2 h3
    simp only [BT.bfAdd, BT.perfect]
  | succ h ih =>
    intro lo hi tw h1 h2 h3
    cases lo <;> cases hi <;> cases tw <;> simp only [BT.perfect] at h1 h2 h3
    simp only [BT.bfAdd, BT.perfect]
    exact ⟨ih _ _ _ h1.1 h2.1 h3.1, ih _ _ _ h1.2 h2.2 h3.2⟩

theorem BT.perfect_bfSub : ∀ (h : Nat) (lo hi tw : BT), BT.perfect h lo → BT.perfect h hi →
    BT.perfect h tw → BT.perfect h (BT.bfSub lo hi tw) := by
  intro h
  induction h with
  | zero =>
    intro lo hi tw h1 h2 h3
    cases lo <;> cases hi <;> cases tw <;> simp only [BT.perfect] at h1 h2 h3
    simp only [BT.bfSub, BT.perfect]
  | succ h ih =>
    intro lo hi tw h1 h2 h3
    cases lo <;> cases hi <;> cases tw <;> simp only [BT.perfect] at h1 h2 h3
    simp only [BT.bfSub, BT.perfect]
    exact ⟨ih _ _ _ h1.1 h2.1 h3.1, ih _ _ _ h1.2 h2.2 h3.2⟩

theorem sub_mod_of_dvd {i M m : Nat} (h : m ∣ M) (hle : M ≤ i) : (i - M) % m = i % m := by
  obtain ⟨c, rfl⟩ := h
  have e : i = i - m * c + m * c := by omega
  conv_rhs => rw [e]
  rw [Nat.add_mul_mod_self_left]

theorem add_half_lt {i M m P : Nat} (hm : m = P + P) (hdvd : m ∣ M) (hi : i < M)
    (hmod : i % m < P) : i + P < M := by
  have h1 : m ∣ i - i % m := Nat.dvd_sub_mod i
  have h2 : i % m ≤ i := Nat.mod_le i m
  have h3 := next_block_le h1 hdvd (by omega)
  omega

theorem BT.sample_stage (tw : BT) (h : Nat) (htw : BT.perfect h tw) :
    ∀ (d H : Nat) (t : BT), H = d + h + 1 → BT.perfect H t → ∀ i, i < 2 ^ H →
      BT.sample H (BT.stage tw d t) i =
        if i % 2 ^ (h + 1) < 2 ^ h then
          complex_add (BT.sample H t i)
            (complex_multiply (BT.sample H t (i + 2 ^ h)) (BT.sample h tw (i % 2 ^ (h + 1))))
        else
          complex_subtract (BT.sample H t (i - 2 ^ h))
            (complex_multiply (BT.sample H t i) (BT.sample h tw (i % 2 ^ (h + 1) - 2 ^ h))) := by
  have hm : 2 ^ (h + 1) = 2 ^ h + 2 ^ h := by rw [pow_succ]; omega
  have hP : 0 < 2 ^ h := Nat.two_pow_pos h
  intro d
  induction d with
  | zero =>
    intro H t hH ht i hi
    have hH1 : H = h + 1 := by omega
    subst hH1
    cases t with
    | leaf a b => simp only [BT.perfect] at ht
    | node lo hi2 =>
      simp only [BT.perfect] at ht
      have hmod : i % 2 ^ (h + 1) = i := Nat.mod_eq_of_lt hi
      simp only [BT.stage, BT.sample_node, hmod]
      rw [hm] at hi
      by_cases c : i < 2 ^ h
      · have n1 : ¬ (i + 2 ^ h < 2 ^ h) := by omega
        have e1 : i + 2 ^ h - 2 ^ h = i := by omega
        simp only [c, if_true, n1, if_false, e1]
        exact BT.sample_bfAdd h lo hi2 tw ht.1 ht.2 htw i
      · have p1 : i - 2 ^ h < 2 ^ h := by omega
        simp only [c, if_false, p1, if_true]
        exact BT.sample_bfSub h lo hi2 tw ht.1 ht.2 htw _
  | succ d ih =>
    intro H t hH ht i hi
    have hH1 : H = (d + h + 1) + 1 := by omega
    subst hH1
    cases t with
    | leaf a b => simp only [BT.perfect] at ht
    | node l r =>
      simp only [BT.perfect] at ht
      have hdvd : 2 ^ (h + 1) ∣ 2 ^ (d + h + 1) := pow_dvd_pow 2 (by omega)
      have hM : 2 ^ (d + h + 1 + 1) = 2 ^ (d + h + 1) + 2 ^ (d + h + 1) := by rw [pow_succ]; omega
      rw [hM] at hi
      simp only [BT.stage, BT.sample_node]
      by_cases c : i < 2 ^ (d + h + 1)
      · rw [if_pos c, ih _ l rfl ht.1 i c]
        by_cases c2 : i % 2 ^ (h + 1) < 2 ^ h
        · have p1 : i + 2 ^ h < 2 ^ (d + h + 1) := add_half_lt hm hdvd c c2
          simp only [c2, if_true, p1, c]
        · have p1 : i - 2 ^ h < 2 ^ (d + h + 1) := by omega
          simp only [c2, if_false, p1, if_true, c]
      · have hle : 2 ^ (d + h + 1) ≤ i := by omega
        have hmod := sub_mod_of_dvd hdvd hle
        rw [if_neg c, ih _ r rfl ht.2 _ (by omega), hmod]
        by_cases c2 : i % 2 ^ (h + 1) < 2 ^ h
        · have n1 : ¬ (i + 2 ^ h < 2 ^ (d + h + 1)) := by omega
          have e1 : i + 2 ^ h - 2 ^ (d + h + 1) = i - 2 ^ (d + h + 1) + 2 ^ h := by omega
          simp only [c2, if_true, n1, if_false, e1, c]
        · have hge : 2 ^ (d + h + 1) + i % 2 ^ (h + 1) ≤ i := block_start_ge hdvd hle
          have n1 : ¬ (i - 2 ^ h < 2 ^ (d + h + 1)) := by omega
          have e1 : i - 2 ^ h - 2 ^ (d + h + 1) = i - 2 ^ (d + h + 1) - 2 ^ h := by omega
          simp only [c2, if_false, n1, e1, c]

theorem BT.perfect_stage (tw : BT) (h : Nat) (htw : BT.perfect h tw) :
    ∀ (d H : Nat) (t : BT), H = d + h + 1 → BT.perfect H t → BT.perfect H (BT.stage tw d t) := by
  intro d
  induction d with
  | zero =>
    intro H t hH ht
    have hH1 : H = h + 1 := by omega
    subst hH1
    cases t with
    | leaf a b => simp only [BT.perfect] at ht
    | node lo hi2 =>
      simp only [BT.perfect] at ht
      simp only [BT.stage, BT.perfect]
      exact ⟨BT.perfect_bfAdd h _ _ _ ht.1 ht.2 htw, BT.perfect_bfSub h _ _ _ ht.1 ht.2 htw⟩
  | succ d ih =>
    intro H t hH ht
    have hH1 : H = (d + h + 1) + 1 := by omega
    subst hH1
    cases t with
    | leaf a b => simp only [BT.perfect] at ht
    | node l r =>
      simp only [BT.perfect] at ht
      simp only [BT.stage, BT.perfect]
      exact ⟨ih _ l rfl ht.1, ih _ r rfl ht.2⟩

theorem BT.halve_spec : ∀ (h : Nat) (t : BT), BT.perfect (h + 1) t →
    BT.perfect h (BT.halve t) ∧
      ∀ j, j < 2 ^ h → BT.sample h (BT.halve t) j = BT.sample (h + 1) t (2 * j) := by
  intro h
  induction h with
  | zero =>
    intro t ht
    cases t with
    | leaf a b => simp only [BT.perfect] at ht
    | node l r =>
      cases l with
      | node l1 r1 => simp only [BT.perfect, false_and] at ht
      | leaf a b =>
        refine ⟨by simp only [BT.halve, BT.perfect], ?_⟩
        intro j hj
        have hj0 : j = 0 := by simpa using hj
        subst hj0
        simp only [BT.halve, BT.sample_node, BT.sample_leaf, Nat.mul_zero, pow_zero, Nat.lt_one_iff,
          if_true]
  | succ h ih =>
    intro t ht
    cases t with
    | leaf a b => simp only [BT.perfect] at ht
    | node l r =>
      simp only [BT.perfect] at ht
      cases l with
      | leaf a b => simp only [BT.perfect] at ht; exact absurd ht.1 id
      | node l1 r1 =>
        obtain ⟨p1, s1⟩ := ih (.node l1 r1) ht.1
        obtain ⟨p2, s2⟩ := ih r ht.2
        refine ⟨by simp only [BT.halve, BT.perfect]; exact ⟨p1, p2⟩, ?_⟩
        intro j hj
        have hm : 2 ^ (h + 1) = 2 ^ h + 2 ^ h := by rw [pow_succ]; omega
        rw [hm] at hj
        simp only [BT.halve]
        rw [BT.sample_node, BT.sample_node (h + 1)]
        by_cases c : j < 2 ^ h
        · have c2 : 2 * j < 2 ^ (h + 1) := by omega
          rw [if_pos c, if_pos c2]
          exact s1 j c
        · have c2 : ¬ 2 * j < 2 ^ (h + 1) := by omega
          have e : 2 * j - 2 ^ (h + 1) = 2 * (j - 2 ^ h) := by omega
          rw [if_neg c, if_neg c2, e]
          exact s2 _ (by omega)

theorem BT.halves_spec : ∀ (n h : Nat) (t : BT), BT.perfect (h + n) t →
    BT.perfect h (BT.halves n t) ∧
      ∀ j, j < 2 ^ h → BT.sample h (BT.halves n t) j = BT.sample (h + n) t (j * 2 ^ n) := by
  intro n
  induction n with
  | zero =>
    intro h t ht
    exact ⟨ht, fun j _ => by simp only [BT.halves, pow_zero, Nat.mul_one, Nat.add_zero]⟩
  | succ n ih =>
    intro h t ht
    obtain ⟨p1, s1⟩ := BT.halve_spec (h + n) t ht
    obtain ⟨p2, s2⟩ := ih h (BT.halve t) p1
    refine ⟨p2, ?_⟩
    intro j hj
    simp only [BT.halves]
    rw [s2 j hj, s1 _ (by rw [pow_add]; exact Nat.mul_lt_mul_of_pos_right hj (Nat.two_pow_pos n))]
    congr 1
    rw [pow_succ]
    ring

theorem BT.build_spec (f : Nat → Nat × Nat) : ∀ (h off : Nat),
    BT.perfect h (BT.build f h off) ∧
      ∀ i, i < 2 ^ h → BT.sample h (BT.build f h off) i = decC (f (off + i)) := by
  intro h
  induction h with
  | zero =>
    intro off
    refine ⟨by simp only [BT.build, BT.perfect], ?_⟩
    intro i hi
    have hi0 : i = 0 := by simpa using hi
    subst hi0
    simp only [BT.build, BT.sample_leaf, decC, Nat.add_zero]
  | succ h ih =>
    intro off
    obtain ⟨p1, s1⟩ := ih off
    obtain ⟨p2, s2⟩ := ih (off + 2 ^ h)
    refine ⟨by simp only [BT.build, BT.perfect]; exact ⟨p1, p2⟩, ?_⟩
    intro i hi
    have hm : 2 ^ (h + 1) = 2 ^ h + 2 ^ h := by rw [pow_succ]; omega
    rw [hm] at hi
    simp only [BT.build, BT.sample_node]
    by_cases c : i < 2 ^ h
    · rw [if_pos c, s1 i c]
    · rw [if_neg c, s2 _ (by omega)]
      congr 2
      omega

theorem iterN_add (step : Nat × Nat → Nat × Nat) (a : Nat) (w : Nat × Nat) :
    ∀ b, iterN step (a + b) w = iterN step b (iterN step a w) := by
  intro b
  induction b with
  | zero => rfl
  | succ b ih =>
    show step (iterN step (a + b) w) = step (iterN step b (iterN step a w))
    rw [ih]

theorem BT.iter_spec (step : Nat × Nat → Nat × Nat) : ∀ (h : Nat) (w : Nat × Nat),
    BT.perfect h (BT.iter step h w).1 ∧ (BT.iter step h w).2 = iterN step (2 ^ h) w ∧
      ∀ i, i < 2 ^ h → BT.get h (BT.iter step h w).1 i = iterN step i w := by
  intro h
  induction h with
  | zero =>
    intro w
    refine ⟨by simp only [BT.iter, BT.perfect], rfl, ?_⟩
    intro i hi
    have hi0 : i = 0 := by simpa using hi
    subst hi0
    rfl
  | succ h ih =>
    intro w
    obtain ⟨p1, e1, g1⟩ := ih w
    obtain ⟨p2, e2, g2⟩ := ih (BT.iter step h w).2
    have hm : 2 ^ (h + 1) = 2 ^ h + 2 ^ h := by rw [pow_succ]; omega
    refine ⟨by simp only [BT.iter, BT.perfect]; exact ⟨p1, p2⟩, ?_, ?_⟩
    · simp only [BT.iter]
      rw [e2, e1, hm, iterN_add]
    · intro i hi
      rw [hm] at hi
      simp only [BT.iter, BT.get]
      by_cases c : i < 2 ^ h
      · rw [if_pos c, g1 i c]
      · rw [if_neg c, g2 _ (by omega), e1, ← iterN_add]
        congr 1
        omega

theorem decC_twStepN (w : Nat × Nat) : decC (twStepN w) = complex_multiply (decC w) W1 := by
  have e1 : dec32 32767 = 32767 := by unfold dec32 to_int32; norm_num
  have e2 : dec32 4294967095 = -201 := by unfold dec32 to_int32; norm_num
  unfold twStepN decC complex_multiply W1
  simp only [dec32_mulReN, dec32_mulImN, e1, e2]

theorem decC_iterN_twStepN : ∀ k, decC (iterN twStepN k (32767, 0)) = twiddle_seq k := by
  intro k
  induction k with
  | zero =>
    have e1 : dec32 32767 = 32767 := by unfold dec32 to_int32; norm_num
    have e0 : dec32 0 = 0 := by unfold dec32 to_int32; norm_num
    simp only [iterN, decC, twiddle_seq, e1, e0]
  | succ k ih =>
    simp only [iterN, twiddle_seq, decC_twStepN, ih]

theorem twiddle_tree_spec :
    BT.perfect 9 twiddle_tree ∧ ∀ k, k < 512 → BT.sample 9 twiddle_tree k = twiddle_seq k := by
  obtain ⟨p, _, g⟩ := BT.iter_spec twStepN 9 (32767, 0)
  refine ⟨p, ?_⟩
  intro k hk
  unfold BT.sample twiddle_tree
  rw [g k (by norm_num; exact hk), decC_iterN_twStepN]

theorem stage_bridge (tw : Buf) (twT : BT) (h d : Nat) (hd : d + h + 1 = 10)
    (htw : BT.perfect h twT) (htwv : ∀ j, j < 2 ^ h → BT.sample h twT j = tw (j * 2 ^ d))
    (t : BT) (ht : BT.perfect 10 t) (D : Buf) (hD : ∀ i, i < 1024 → D i = BT.sample 10 t i) :
    BT.perfect 10 (BT.stage twT d t) ∧
      ∀ i, i < 1024 → stage_spec tw (2 ^ (h + 1)) D i = BT.sample 10 (BT.stage twT d t) i := by
  refine ⟨BT.perfect_stage twT h htw d 10 t (by omega) ht, ?_⟩
  intro i hi
  have hm : 2 ^ (h + 1) = 2 ^ h + 2 ^ h := by rw [pow_succ]; omega
  have hP : 0 < 2 ^ h := Nat.two_pow_pos h
  have hN : 2 ^ (h + 1) * 2 ^ d = 1024 := by
    rw [← pow_add]
    have : h + 1 + d = 10 := by omega
    rw [this]
    norm_num
  have hdvd : 2 ^ (h + 1) ∣ 1024 := ⟨2 ^ d, hN.symm⟩
  have hdiv : 1024 / 2 ^ (h + 1) = 2 ^ d := by
    rw [← hN]
    exact Nat.mul_div_cancel_left _ (by omega)
  have hhalf : 2 ^ (h + 1) / 2 = 2 ^ h := by omega
  have hmodlt : i % 2 ^ (h + 1) < 2 ^ (h + 1) := Nat.mod_lt i (by omega)
  rw [BT.sample_stage twT h htw d 10 t (by omega) ht i (by norm_num; exact hi)]
  unfold stage_spec
  have hi2 : i < FFT_N := hi
  simp only [hi2, if_true, hhalf, FFT_N, hdiv]
  by_cases c : i % 2 ^ (h + 1) < 2 ^ h
  · have hlt : i + 2 ^ h < 1024 := add_half_lt hm hdvd hi c
    rw [if_pos c, if_pos c, hD i hi, hD _ hlt, htwv _ c, if_pos hi]
  · rw [if_neg c, if_neg c, hD i hi, hD _ (by omega), htwv _ (by omega), if_pos hi]

theorem BT.fft_unfold (tw9 t : BT) :
    BT.fft tw9 t =
      BT.stage (BT.halves 0 tw9) 0 (BT.stage (BT.halves 1 tw9) 1 (BT.stage (BT.halves 2 tw9) 2
        (BT.stage (BT.halves 3 tw9) 3 (BT.stage (BT.halves 4 tw9) 4 (BT.stage (BT.halves 5 tw9) 5
          (BT.stage (BT.halves 6 tw9) 6 (BT.stage (BT.halves 7 tw9) 7
            (BT.stage (BT.halves 8 tw9) 8 (BT.stage (BT.halves 9 tw9) 9 t))))))))) := rfl

theorem fft_spec_unfold (tw input output : Buf) :
    fft_spec tw input output =
      stage_spec tw (2 ^ (9 + 1)) (stage_spec tw (2 ^ (8 + 1)) (stage_spec tw (2 ^ (7 + 1))
        (stage_spec tw (2 ^ (6 + 1)) (stage_spec tw (2 ^ (5 + 1)) (stage_spec tw (2 ^ (4 + 1))
          (stage_spec tw (2 ^ (3 + 1)) (stage_spec tw (2 ^ (2 + 1)) (stage_spec tw (2 ^ (1 + 1))
            (stage_spec tw (2 ^ (0 + 1))
              (bit_reverse_spec (copy_spec input output))))))))))) := rfl

theorem twiddle_level (tw : Buf) (htw : ∀ k, k < 512 → tw k = twiddle_seq k) (h d : Nat)
    (hd : h + d = 9) :
    BT.perfect h (BT.halves d twiddle_tree) ∧
      ∀ j, j < 2 ^ h → BT.sample h (BT.halves d twiddle_tree) j = tw (j * 2 ^ d) := by
  obtain ⟨p9, s9⟩ := twiddle_tree_spec
  obtain ⟨p, s⟩ := BT.halves_spec d h twiddle_tree (by rw [hd]; exact p9)
  refine ⟨p, ?_⟩
  intro j hj
  have hlt : j * 2 ^ d < 512 := by
    have e : (512 : Nat) = 2 ^ h * 2 ^ d := by rw [← pow_add, hd]; norm_num
    rw [e]
    exact Nat.mul_lt_mul_of_pos_right hj (Nat.two_pow_pos d)
  rw [s j hj, htw _ hlt]
  have e9 : h + d = 9 := hd
  rw [e9]
  exact s9 _ hlt

theorem fft_spec_eval (tw : Buf) (htw : ∀ k, k < 512 → tw k = twiddle_seq k)
    (input output : Buf) (B : BT) (hB : BT.perfect 10 B)
    (hin : ∀ i, i < 1024 → input (bit_reverse_u16 i LOG2_FFT_N) = BT.sample 10 B i) :
    ∀ i, i < 1024 → fft_spec tw input output i = BT.sample 10 (BT.fft twiddle_tree B) i := by
  have h0 : ∀ i, i < 1024 → bit_reverse_spec (copy_spec input output) i = BT.sample 10 B i := by
    intro i hi
    have hi2 : i < FFT_N := hi
    simp only [bit_reverse_spec, copy_spec, hi2, if_true, bit_reverse_u16_lt hi2]
    exact hin i hi
  rw [fft_spec_unfold, BT.fft_unfold]
  obtain ⟨q0, w0⟩ := twiddle_level tw htw 0 9 rfl
  obtain ⟨q1, w1⟩ := twiddle_level tw htw 1 8 rfl
  obtain ⟨q2, w2⟩ := twiddle_level tw htw 2 7 rfl
  obtain ⟨q3, w3⟩ := twiddle_level tw htw 3 6 rfl
  obtain ⟨q4, w4⟩ := twiddle_level tw htw 4 5 rfl
  obtain ⟨q5, w5⟩ := twiddle_level tw htw 5 4 rfl
  obtain ⟨q6, w6⟩ := twiddle_level tw htw 6 3 rfl
  obtain ⟨q7, w7⟩ := twiddle_level tw htw 7 2 rfl
  obtain ⟨q8, w8⟩ := twiddle_level tw htw 8 1 rfl
  obtain ⟨q9, w9⟩ := twiddle_level tw htw 9 0 rfl
  obtain ⟨p1, s1⟩ := stage_bridge tw _ 0 9 rfl q0 w0 B hB _ h0
  obtain ⟨p2, s2⟩ := stage_bridge tw _ 1 8 rfl q1 w1 _ p1 _ s1
  obtain ⟨p3, s3⟩ := stage_bridge tw _ 2 7 rfl q2 w2 _ p2 _ s2
  obtain ⟨p4, s4⟩ := stage_bridge tw _ 3 6 rfl q3 w3 _ p3 _ s3
  obtain ⟨p5, s5⟩ := stage_bridge tw _ 4 5 rfl q4 w4 _ p4 _ s4
  obtain ⟨p6, s6⟩ := stage_bridge tw _ 5 4 rfl q5 w5 _ p5 _ s5
  obtain ⟨p7, s7⟩ := stage_bridge tw _ 6 3 rfl q6 w6 _ p6 _ s6
  obtain ⟨p8, s8⟩ := stage_bridge tw _ 7 2 rfl q7 w7 _ p7 _ s7
  obtain ⟨p9, s9⟩ := stage_bridge tw _ 8 1 rfl q8 w8 _ p8 _ s8
  obtain ⟨p10, s10⟩ := stage_bridge tw _ 9 0 rfl q9 w9 _ p9 _ s9
  exact s10

theorem BT.fft_perfect (B : BT) (hB : BT.perfect 10 B) : BT.perfect 10 (BT.fft twiddle_tree B) := by
  have htw : ∀ k, k < 512 → twiddle_seq k = twiddle_seq k := fun _ _ => rfl
  rw [BT.fft_unfold]
  have p1 := BT.perfect_stage _ 0 (twiddle_level twiddle_seq htw 0 9 rfl).1 9 10 B rfl hB
  have p2 := BT.perfect_stage _ 1 (twiddle_level twiddle_seq htw 1 8 rfl).1 8 10 _ rfl p1
  have p3 := BT.perfect_stage _ 2 (twiddle_level twiddle_seq htw 2 7 rfl).1 7 10 _ rfl p2
  have p4 := BT.perfect_stage _ 3 (twiddle_level twiddle_seq htw 3 6 rfl).1 6 10 _ rfl p3
  have p5 := BT.perfect_stage _ 4 (twiddle_level twiddle_seq htw 4 5 rfl).1 5 10 _ rfl p4
  have p6 := BT.perfect_stage _ 5 (twiddle_level twiddle_seq htw 5 4 rfl).1 4 10 _ rfl p5
  have p7 := BT.perfect_stage _ 6 (twiddle_level twiddle_seq htw 6 3 rfl).1 3 10 _ rfl p6
  have p8 := BT.perfect_stage _ 7 (twiddle_level twiddle_seq htw 7 2 rfl).1 2 10 _ rfl p7
  have p9 := BT.perfect_stage _ 8 (twiddle_level twiddle_seq htw 8 1 rfl).1 1 10 _ rfl p8
  exact BT.perfect_stage _ 9 (twiddle_level twiddle_seq htw 9 0 rfl).1 0 10 _ rfl p9

theorem BT.buildK_eq {β : Type} (f : Nat → Nat × Nat) : ∀ (h off : Nat) (k : BT → β),
    BT.buildK f h off k = k (BT.build f h off) := by
  intro h
  induction h with
  | zero => intro off k; simp only [BT.buildK, BT.build, forceNat_eq]
  | succ h ih => intro off k; simp only [BT.buildK, BT.build, ih]

theorem BT.bfK_eq {β : Type} : ∀ (lo hi tw : BT) (k : BT → BT → β),
    BT.bfK lo hi tw k = k (BT.bfAdd lo hi tw) (BT.bfSub lo hi tw) := by
  intro lo
  induction lo with
  | leaf ur ui =>
    intro hi tw k
    cases hi <;> cases tw <;> simp only [BT.bfK, BT.bfAdd, BT.bfSub, forceNat_eq]
  | node l1 r1 ih1 ih2 =>
    intro hi tw k
    cases hi <;> cases tw <;> simp only [BT.bfK, BT.bfAdd, BT.bfSub, ih1, ih2]

theorem BT.stageK_eq {β : Type} (tw : BT) : ∀ (d : Nat) (t : BT) (k : BT → β),
    BT.stageK tw d t k = k (BT.stage tw d t) := by
  intro d
  induction d with
  | zero =>
    intro t k
    cases t <;> simp only [BT.stageK, BT.stage, BT.bfK_eq]
  | succ d ih =>
    intro t k
    cases t <;> simp only [BT.stageK, BT.stage, ih]

theorem BT.halveK_eq {β : Type} : ∀ (t : BT) (k : BT → β), BT.halveK t k = k (BT.halve t) := by
  intro t
  induction t with
  | leaf a b => intro k; simp only [BT.halveK, BT.halve]
  | node l r ih1 ih2 =>
    intro k
    cases l with
    | leaf a b => simp only [BT.halveK, BT.halve]
    | node l1 r1 => simp only [BT.halveK, BT.halve, ih1, ih2]

theorem BT.levelsK_eq {β : Type} : ∀ (n : Nat) (t : BT) (acc : List BT) (k : List BT → β),
    BT.levelsK n t acc k = k (BT.levels n t acc) := by
  intro n
  induction n with
  | zero => intro t acc k; rfl
  | succ n ih => intro t acc k; simp only [BT.levelsK, BT.levels, BT.halveK_eq, ih]

theorem BT.stagesK_eq {β : Type} : ∀ (tws : List BT) (d : Nat) (t : BT) (k : BT → β),
    BT.stagesK tws d t k = k (BT.stagesL tws d t) := by
  intro tws
  induction tws with
  | nil => intro d t k; rfl
  | cons tw tws ih => intro d t k; simp only [BT.stagesK, BT.stagesL, BT.stageK_eq, ih]

theorem BT.fftK_eq {β : Type} (tw9 t : BT) (k : BT → β) : BT.fftK tw9 t k = k (BT.fft tw9 t) := by
  simp only [BT.fftK, BT.fft, BT.levelsK_eq, BT.stagesK_eq]

theorem BT.iterK_eq {β : Type} (step : Nat × Nat → Nat × Nat) :
    ∀ (h wr wi : Nat) (k : BT → Nat → Nat → β),
      BT.iterK step h wr wi k =
        k (BT.iter step h (wr, wi)).1 (BT.iter step h (wr, wi)).2.1 (BT.iter step h (wr, wi)).2.2 := by
  intro h
  induction h with
  | zero => intro wr wi k; simp only [BT.iterK, BT.iter, forceNat_eq]
  | succ h ih => intro wr wi k; simp only [BT.iterK, BT.iter, ih]

theorem fft_evalK_eq {β : Type} (f : Nat → Nat × Nat) (k : BT → β) :
    fft_evalK f k = k (fft_eval f) := by
  simp only [fft_evalK, fft_eval, BT.iterK_eq, BT.buildK_eq, BT.fftK_eq, twiddle_tree]

theorem init_twiddles_consistent (s : TwiddleState) (hs : s.consistent) :
    (∀ k, k < 512 → (init_twiddles s).twiddle_factors k = twiddle_seq k) ∧
      (init_twiddles s).consistent := by
  have key : ∀ k, k < 512 → (init_twiddles s).twiddle_factors k = twiddle_seq k := by
    by_cases h0 : s.twiddles_initialized = 0
    · intro k hk
      rw [init_twiddles_table s h0]
      have hk2 : k < FFT_N / 2 := hk
      simp only [hk2, if_true]
    · rcases hs with h | h
      · exact absurd h h0
      · intro k hk
        unfold init_twiddles
        simp only [ne_eq, h0, not_false_eq_true, if_true]
        exact h k hk
  exact ⟨key, Or.inr key⟩

theorem consistent_startup : TwiddleState.startup.consistent := Or.inl rfl

theorem init_twiddles_idem (s : TwiddleState) : init_twiddles (init_twiddles s) = init_twiddles s := by
  by_cases h0 : s.twiddles_initialized = 0
  · rw [init_twiddles_table s h0]
    unfold init_twiddles
    simp
  · have e : init_twiddles s = s := by
      unfold init_twiddles
      simp only [ne_eq, h0, not_false_eq_true, if_true]
    rw [e, e]

theorem decC_encC (c : complex_t) (hc : lanes_int32 c) : decC (encC c) = c := by
  obtain ⟨h1, h2⟩ := hc
  unfold decC encC
  simp only [dec32_enc32 _ h1, dec32_enc32 _ h2]

theorem fft_1024_point_eval (s : TwiddleState) (hs : s.consistent) (input output : Buf)
    (hin : ∀ i, i < 1024 → lanes_int32 (input i)) :
    ∃ F, fft_1024_point s input output = some (init_twiddles s, F) ∧
      ∀ i, i < 1024 → F i = BT.sample 10 (fft_eval (input_leaf input)) i := by
  refine ⟨_, fft_1024_point_eq s input output, ?_⟩
  obtain ⟨pB, sB⟩ := BT.build_spec (input_leaf input) 10 0
  apply fft_spec_eval _ (init_twiddles_consistent s hs).1 input output _ pB
  intro i hi
  rw [sB i (by norm_num; exact hi)]
  have hr : bit_reverse_u16 i LOG2_FFT_N < 1024 := bit_reverse_u16_lt hi
  simp only [input_leaf, Nat.zero_add]
  rw [decC_encC _ (hin _ hr)]

theorem ifft_1024_point_raw (s : TwiddleState) (x output temp : Buf) :
    ifft_1024_point s x output temp =
      some (init_twiddles s,
        fun i => if i < FFT_N then
          ifft_scale (fft_spec (init_twiddles s).twiddle_factors (ifft_conj_loop x temp) output i)
        else fft_spec (init_twiddles s).twiddle_factors (ifft_conj_loop x temp) output i) := by
  unfold ifft_1024_point
  simp only [fft_1024_point_eq]
  rw [ifft_scale_upto]
  rfl

/-- C8. Flat spectrum: for the unit impulse (sample 0 = `(32767, 0)`, all others zero)
`fft_1024_point` returns and every output bin `i` in `[1, 1024)` has `magnitude_squared`
within 8 of that of bin 0. -/
theorem fft_1024_point_impulse_flat (s : TwiddleState) (output : Buf) :
    ∃ F, fft_1024_point s (impulse_input ⟨32767, 0⟩) output = some (init_twiddles s, F) ∧
      ∀ i, 1 ≤ i → i < 1024 →
        magnitude_squared (F i) ≤ magnitude_squared (F 0) + 8 ∧
        magnitude_squared (F 0) ≤ magnitude_squared (F i) + 8 := by
  refine ⟨_, fft_1024_point_eq s _ output, ?_⟩
  intro i _ hi
  have hc : lanes_int32 ⟨32767, 0⟩ := by decide
  rw [fft_spec_impulse _ output _ hc i hi, fft_spec_impulse _ output _ hc 0 (by decide)]
  omega

theorem shift_wrap_u (x k : Int) (u : Nat) (hu : (u : Int) = x + 18446744073709551616 * k) :
    to_uint32 (to_int64 x >>> FIXED_POINT_BITS) = (u / 32768) % 4294967296 := by
  rw [shiftRight_fixed_point]
  unfold to_uint32 to_int64
  have key : ((x + 9223372036854775808) % 18446744073709551616 - 9223372036854775808) / 32768
      % 4294967296 = (((u / 32768) % 4294967296 : Nat) : Int) := by
    omega
  rw [key, Int.toNat_ofNat]

theorem magnitude_squared_decC (p : Nat × Nat) :
    magnitude_squared (decC p) = magN p.1 p.2 := by
  obtain ⟨k1, h1, _⟩ := sx64_mul p.1 p.1
  obtain ⟨k2, h2, _⟩ := sx64_mul p.2 p.2
  unfold magnitude_squared magN decC
  apply shift_wrap_u _ (k1 + k2)
  rw [Nat.cast_add, h1, h2]
  ring

theorem BT.allLeaves_spec (p : Nat → Nat → Nat → Bool) : ∀ (h off : Nat) (t : BT),
    BT.perfect h t → BT.allLeaves p h off t = true →
      ∀ i, i < 2 ^ h → p (off + i) (BT.get h t i).1 (BT.get h t i).2 = true := by
  intro h
  induction h with
  | zero =>
    intro off t ht hall i hi
    have hi0 : i = 0 := by simpa using hi
    subst hi0
    cases t with
    | node l r => simp only [BT.perfect] at ht
    | leaf a b => simpa only [BT.allLeaves, BT.get, Nat.add_zero] using hall
  | succ h ih =>
    intro off t ht hall i hi
    have hm : 2 ^ (h + 1) = 2 ^ h + 2 ^ h := by rw [pow_succ]; omega
    rw [hm] at hi
    cases t with
    | leaf a b => simp only [BT.perfect] at ht
    | node l r =>
      simp only [BT.perfect] at ht
      simp only [BT.allLeaves, Bool.and_eq_true] at hall
      simp only [BT.get]
      by_cases c : i < 2 ^ h
      · rw [if_pos c]
        exact ih off l ht.1 hall.1 i c
      · rw [if_neg c]
        have key := ih (off + 2 ^ h) r ht.2 hall.2 (i - 2 ^ h) (by omega)
        have e : off + 2 ^ h + (i - 2 ^ h) = off + i := by omega
        rw [e] at key
        exact key

theorem fft_eval_perfect (f : Nat → Nat × Nat) : BT.perfect 10 (fft_eval f) :=
  BT.fft_perfect _ (BT.build_spec f 10 0).1

theorem fft_eval_leaves (f : Nat → Nat × Nat) (p : Nat → Nat → Nat → Bool)
    (h : BT.allLeaves p 10 0 (fft_eval f) = true) (i : Nat) (hi : i < 1024) :
    p i (BT.get 10 (fft_eval f) i).1 (BT.get 10 (fft_eval f) i).2 = true := by
  have key := BT.allLeaves_spec p 10 0 (fft_eval f) (fft_eval_perfect f) h i (by norm_num; exact hi)
  rw [Nat.zero_add] at key
  exact key

theorem magnitude_squared_sample (t : BT) (i : Nat) :
    magnitude_squared (BT.sample 10 t i) = magN (BT.get 10 t i).1 (BT.get 10 t i).2 := by
  unfold BT.sample
  exact magnitude_squared_decC _

set_option maxRecDepth 100000 in
theorem dc_eval_check : fft_evalK (input_leaf dc_input) dc_check = true := by
  decide!

/-- C9. DC concentration: for the constant input `(32767, 0)`, `fft_1024_point` returns,
`magnitude_squared(bin 0) >= (1024 * 32767) / 4` and every bin `i` in `[1, 1024)` has
`magnitude_squared(bin i) <= magnitude_squared(bin 0) / 16`. -/
theorem fft_1024_point_dc (s : TwiddleState) (hs : s.consistent) (output : Buf) :
    ∃ F, fft_1024_point s dc_input output = some (init_twiddles s, F) ∧
      magnitude_squared (F 0) ≥ 1024 * 32767 / 4 ∧
      ∀ i, 1 ≤ i → i < 1024 → magnitude_squared (F i) ≤ magnitude_squared (F 0) / 16 := by
  have hl : ∀ i, i < 1024 → lanes_int32 (dc_input i) := by
    intro i _
    show lanes_int32 ⟨32767, 0⟩
    decide
  obtain ⟨F, hF, hv⟩ := fft_1024_point_eval s hs dc_input output hl
  have h := dc_eval_check
  rw [fft_evalK_eq] at h
  unfold dc_check at h
  rw [forceNat_eq, Bool.and_eq_true, decide_eq_true_eq] at h
  obtain ⟨h1, h2⟩ := h
  refine ⟨F, hF, ?_, ?_⟩
  · rw [hv 0 (by norm_num), magnitude_squared_sample]
    exact h1
  · intro i h1i hi
    rw [hv i hi, hv 0 (by norm_num), magnitude_squared_sample, magnitude_squared_sample]
    have h3 := fft_eval_leaves _ _ h2 i hi
    rw [decide_eq_true_eq] at h3
    exact h3 h1i

/-- Witness for C9 at the start-up state. -/
theorem fft_1024_point_dc_witness :
    ∃ F, fft_1024_point TwiddleState.startup dc_input (fun _ => ⟨0, 0⟩) =
        some (init_twiddles TwiddleState.startup, F) ∧
      magnitude_squared (F 0) ≥ 1024 * 32767 / 4 ∧
      ∀ i, 1 ≤ i → i < 1024 → magnitude_squared (F i) ≤ magnitude_squared (F 0) / 16 :=
  fft_1024_point_dc TwiddleState.startup consistent_startup (fun _ => ⟨0, 0⟩)

theorem single_frequency_input_lanes : ∀ i, i < 1024 → lanes_int32 (single_frequency_input i) := by
  intro i _
  have h16 : i % 16 < 16 := Nat.mod_lt i (by norm_num)
  unfold single_frequency_input
  generalize i % 16 = j at h16
  interval_cases j <;> decide

set_option maxRecDepth 100000 in
theorem single_frequency_eval_check :
    fft_evalK (input_leaf single_frequency_input) single_frequency_check = true := by
  decide!

/-- C10 (evaluation of the code at the test input). For the input of
`test_single_frequency_1024`, `fft_1024_point` returns; bin 960 has more than a sixteenth
of the `magnitude_squared` of bin 64, and every bin other than 960 has at most a
sixteenth of the `magnitude_squared` of bin 960: the energy is at bin 960, not 64. -/
theorem fft_1024_point_single_frequency (output : Buf) :
    ∃ F, fft_1024_point TwiddleState.startup single_frequency_input output =
        some (init_twiddles TwiddleState.startup, F) ∧
      ¬ (magnitude_squared (F 960) ≤ magnitude_squared (F 64) / 16) ∧
      ∀ i, i < 1024 → i ≠ 960 → magnitude_squared (F i) ≤ magnitude_squared (F 960) / 16 := by
  obtain ⟨F, hF, hv⟩ := fft_1024_point_eval TwiddleState.startup consistent_startup
    single_frequency_input output single_frequency_input_lanes
  have h := single_frequency_eval_check
  rw [fft_evalK_eq] at h
  unfold single_frequency_check at h
  rw [forceNat_eq, forceNat_eq, Bool.and_eq_true, decide_eq_true_eq] at h
  obtain ⟨h1, h2⟩ := h
  refine ⟨F, hF, ?_, ?_⟩
  · rw [hv 960 (by norm_num), hv 64 (by norm_num), magnitude_squared_sample,
      magnitude_squared_sample]
    exact Nat.not_le.mpr h1
  · intro i hi hne
    rw [hv i hi, hv 960 (by norm_num), magnitude_squared_sample, magnitude_squared_sample]
    have h3 := fft_eval_leaves _ _ h2 i hi
    rw [decide_eq_true_eq] at h3
    exact h3 hne

/-! ### Round trip (C3) and the witness of C2 -/

theorem impulse_input_lanes (c : complex_t) (hc : lanes_int32 c) :
    ∀ i, i < 1024 → lanes_int32 (impulse_input c i) := by
  intro i _
  unfold impulse_input
  split_ifs
  · exact hc
  · exact lanes_int32_zero

/-- Witness for C2 at the unit impulse, from the start-up state: `F` is the constant
buffer `(32767, 0)` on the 1024 bins. -/
theorem ifft_1024_point_floor_witness :
    ∃ out,
      ifft_1024_point TwiddleState.startup (impulse_input ⟨32767, 0⟩) zero_buf zero_buf =
        some (init_twiddles TwiddleState.startup, out) ∧
      ∀ i, i < FFT_N →
        (out i).real =
          ⌊((fft_spec (init_twiddles TwiddleState.startup).twiddle_factors
              (conj_buf (impulse_input ⟨32767, 0⟩)) zero_buf i).real : ℚ) / 1024⌋ ∧
        (out i).imag =
          ⌊((-(fft_spec (init_twiddles TwiddleState.startup).twiddle_factors
              (conj_buf (impulse_input ⟨32767, 0⟩)) zero_buf i).imag : Int) : ℚ) / 1024⌋ :=
  ifft_1024_point_floor TwiddleState.startup (init_twiddles TwiddleState.startup)
    (impulse_input ⟨32767, 0⟩) zero_buf zero_buf
    (fft_spec (init_twiddles TwiddleState.startup).twiddle_factors
      (conj_buf (impulse_input ⟨32767, 0⟩)) zero_buf)
    (by
      intro i _
      unfold impulse_input
      split_ifs <;> decide)
    (fft_1024_point_eq TwiddleState.startup (conj_buf (impulse_input ⟨32767, 0⟩)) zero_buf)
    (by
      intro i hi
      have e : fft_spec (init_twiddles TwiddleState.startup).twiddle_factors
          (conj_buf (impulse_input ⟨32767, 0⟩)) zero_buf =
          fft_spec (init_twiddles TwiddleState.startup).twiddle_factors
            (impulse_input ⟨32767, 0⟩) zero_buf := by
        apply fft_spec_congr
        intro j _
        unfold conj_buf impulse_input
        split_ifs <;> rfl
      rw [e, fft_spec_impulse _ _ _ (by decide) i hi]
      decide)

/-! ### Exact impulse response (C20) -/

/-- C20. Exact impulse response: for every sample value `c` with 32-bit lanes and every
twiddle state (any table contents, built or not), `fft_1024_point` on the buffer with
sample 0 equal to `c` and all other samples zero returns the buffer whose 1024 bins all
equal `c` exactly. -/
theorem fft_1024_point_impulse_exact (s : TwiddleState) (output : Buf) (c : complex_t)
    (hc : lanes_int32 c) :
    ∃ F, fft_1024_point s (impulse_input c) output = some (init_twiddles s, F) ∧
      ∀ i, i < 1024 → F i = c :=
  ⟨_, fft_1024_point_eq s _ output, fun i hi => fft_spec_impulse _ output c hc i hi⟩

/-- Witness for C20 at `c = (-5, 7)`, on a state whose flag is set and whose table is all
zero. -/
theorem fft_1024_point_impulse_exact_witness :
    ∃ F, fft_1024_point { twiddle_factors := zero_buf, twiddles_initialized := 1 }
        (impulse_input ⟨-5, 7⟩) zero_buf =
        some (init_twiddles { twiddle_factors := zero_buf, twiddles_initialized := 1 }, F) ∧
      ∀ i, i < 1024 → F i = ⟨-5, 7⟩ :=
  fft_1024_point_impulse_exact _ zero_buf ⟨-5, 7⟩ (by decide)

/-! ### The twiddle state across calls (C12) -/

theorem init_twiddles_of_set (s : TwiddleState) (hs : s.twiddles_initialized ≠ 0) :
    init_twiddles s = s := by
  unfold init_twiddles
  simp only [ne_eq, hs, not_false_eq_true, if_true]

theorem init_twiddles_flag (s : TwiddleState) : (init_twiddles s).twiddles_initialized ≠ 0 := by
  by_cases h0 : s.twiddles_initialized = 0
  · rw [init_twiddles_table s h0]
    show (1 : Int) ≠ 0
    decide
  · rw [init_twiddles_of_set s h0]
    exact h0

/-- C12. Once the flag is set, `init_twiddles`, `fft_1024_point` and `ifft_1024_point`
leave the table and the flag unchanged; `init_twiddles` always leaves the flag set and is
idempotent, and `fft_1024_point` returns the same output for the same input on a state
`s0` and on the state `init_twiddles s0` in which the table is already built. -/
theorem twiddle_state_immutable (s : TwiddleState) (hs : s.twiddles_initialized ≠ 0)
    (input output temp : Buf) :
    init_twiddles s = s ∧
    (∃ F, fft_1024_point s input output = some (s, F)) ∧
    (∃ out, ifft_1024_point s input output temp = some (s, out)) ∧
    (∀ s0 : TwiddleState,
      (init_twiddles s0).twiddles_initialized ≠ 0 ∧
      init_twiddles (init_twiddles s0) = init_twiddles s0 ∧
      ∃ F, fft_1024_point s0 input output = some (init_twiddles s0, F) ∧
        fft_1024_point (init_twiddles s0) input output = some (init_twiddles s0, F)) := by
  have e := init_twiddles_of_set s hs
  have h1 := fft_1024_point_eq s input output
  rw [e] at h1
  have h2 := ifft_1024_point_raw s input output temp
  rw [e] at h2
  refine ⟨e, ⟨_, h1⟩, ⟨_, h2⟩, ?_⟩
  intro s0
  have h3 := fft_1024_point_eq (init_twiddles s0) input output
  rw [init_twiddles_idem] at h3
  exact ⟨init_twiddles_flag s0, init_twiddles_idem s0, _, fft_1024_point_eq s0 input output, h3⟩

/-- Witness for C12 at the state left by the first `init_twiddles` after start-up. -/
theorem twiddle_state_immutable_witness :
    init_twiddles (init_twiddles TwiddleState.startup) = init_twiddles TwiddleState.startup ∧
    (∃ F, fft_1024_point (init_twiddles TwiddleState.startup) dc_input zero_buf =
      some (init_twiddles TwiddleState.startup, F)) ∧
    (∃ out, ifft_1024_point (init_twiddles TwiddleState.startup) dc_input zero_buf zero_buf =
      some (init_twiddles TwiddleState.startup, out)) ∧
    (∀ s0 : TwiddleState,
      (init_twiddles s0).twiddles_initialized ≠ 0 ∧
      init_twiddles (init_twiddles s0) = init_twiddles s0 ∧
      ∃ F, fft_1024_point s0 dc_input zero_buf = some (init_twiddles s0, F) ∧
        fft_1024_point (init_twiddles s0) dc_input zero_buf = some (init_twiddles s0, F)) :=
  twiddle_state_immutable (init_twiddles TwiddleState.startup)
    (init_twiddles_flag TwiddleState.startup) dc_input zero_buf zero_buf

/-! ### Range of the intermediates of `complex_multiply` (C13) -/

theorem complex_multiply_temps (a b : complex_t) :
    complex_multiply a b =
      { real := to_int32 (to_int64 (complex_multiply_real_temp a b) >>> FIXED_POINT_BITS)
        imag := to_int32 (to_int64 (complex_multiply_imag_temp a b) >>> FIXED_POINT_BITS) } :=
  rfl

theorem int32_mul_bounds (x y : Int) (hx : is_int32 x) (hy : is_int32 y) :
    -4611686016279904256 ≤ x * y ∧ x * y ≤ 4611686018427387904 := by
  unfold is_int32 at hx hy
  obtain ⟨hx1, hx2⟩ := hx
  obtain ⟨hy1, hy2⟩ := hy
  constructor
  · nlinarith [mul_nonneg (sub_nonneg.mpr hx1) (sub_nonneg.mpr hy2),
      mul_nonneg (sub_nonneg.mpr hx2) (sub_nonneg.mpr hy1)]
  · nlinarith [mul_nonneg (sub_nonneg.mpr hx1) (sub_nonneg.mpr hy1),
      mul_nonneg (sub_nonneg.mpr hx2) (sub_nonneg.mpr hy2)]

theorem int32_mul_upper (x y : Int) (hx : is_int32 x) (hy : is_int32 y)
    (hne : ¬ (x = -2147483648 ∧ y = -2147483648)) :
    x * y ≤ 4611686016279904256 := by
  unfold is_int32 at hx hy
  obtain ⟨hx1, hx2⟩ := hx
  obtain ⟨hy1, hy2⟩ := hy
  by_cases hxm : x = -2147483648
  · have hy3 : -2147483647 ≤ y := by
      by_contra hc
      exact hne ⟨hxm, by omega⟩
    subst hxm
    omega
  · have hx3 : -2147483647 ≤ x := by omega
    by_cases hy0 : 0 ≤ y
    · nlinarith [mul_nonneg (sub_nonneg.mpr hx2) hy0]
    · have hy4 : 0 ≤ -y := by omega
      nlinarith [mul_nonneg (sub_nonneg.mpr hx3) hy4]

/-- C13 (counterexample). For `a = b = (-2^31, -2^31)`, whose lanes are `int32_t` values,
the exact second intermediate `a.real*b.imag + a.imag*b.real` is `2^63`, outside the
`int64_t` range (the narrowed product is `(0, 0)`). -/
theorem complex_multiply_imag_temp_overflow :
    lanes_int32 ⟨-2147483648, -2147483648⟩ ∧
    complex_multiply_imag_temp ⟨-2147483648, -2147483648⟩ ⟨-2147483648, -2147483648⟩ =
      9223372036854775808 ∧
    ¬ is_int64
      (complex_multiply_imag_temp ⟨-2147483648, -2147483648⟩ ⟨-2147483648, -2147483648⟩) ∧
    complex_multiply ⟨-2147483648, -2147483648⟩ ⟨-2147483648, -2147483648⟩ = ⟨0, 0⟩ := by
  refine ⟨by decide, by decide, by decide, by decide⟩

/-! ### The quarter-turn twiddle (C15) -/

theorem twiddle_quarter_eval_check :
    BT.iterK twStepN 9 32767 0 (fun tw _ _ => twiddle_quarter_check tw) = true := by
  decide!

theorem twiddle_seq_256 : twiddle_seq 256 = ⟨-147, -32670⟩ := by
  have h := twiddle_quarter_eval_check
  rw [BT.iterK_eq] at h
  unfold twiddle_quarter_check at h
  rw [decide_eq_true_eq] at h
  have h2 := twiddle_tree_spec.2 256 (by norm_num)
  unfold BT.sample twiddle_tree at h2
  rw [h] at h2
  rw [← h2]
  have e1 : dec32 4294967149 = -147 := by unfold dec32 to_int32; norm_num
  have e2 : dec32 4294934626 = -32670 := by unfold dec32 to_int32; norm_num
  unfold decC
  rw [e1, e2]

/-- C15. After `init_twiddles` (from a state not yet built, or already holding the built
table), `twiddle_factors[256]` is `(-147, -32670)`: its real lane is within 1000 of 0 and
its imaginary lane within 1000 of `-32767`. -/
theorem twiddle_quarter_turn (s : TwiddleState) (hs : s.consistent) :
    (init_twiddles s).twiddle_factors 256 = ⟨-147, -32670⟩ ∧
    |((init_twiddles s).twiddle_factors 256).real - 0| ≤ 1000 ∧
    |((init_twiddles s).twiddle_factors 256).imag - (-32767)| ≤ 1000 := by
  have h := (init_twiddles_consistent s hs).1 256 (by norm_num)
  rw [twiddle_seq_256] at h
  rw [h]
  refine ⟨rfl, ?_, ?_⟩
  · show |(-147 : Int) - 0| ≤ 1000
    norm_num
  · show |(-32670 : Int) - (-32767)| ≤ 1000
    norm_num

/-- Witness for C15 at the start-up state. -/
theorem twiddle_quarter_turn_witness :
    (init_twiddles TwiddleState.startup).twiddle_factors 256 = ⟨-147, -32670⟩ ∧
    |((init_twiddles TwiddleState.startup).twiddle_factors 256).real - 0| ≤ 1000 ∧
    |((init_twiddles TwiddleState.startup).twiddle_factors 256).imag - (-32767)| ≤ 1000 :=
  twiddle_quarter_turn TwiddleState.startup consistent_startup

/-! ### `magnitude_squared` and the exact sum of squares (C18) -/

theorem magnitude_squared_mod (c : complex_t) :
    (magnitude_squared c : Int) =
      ((c.real * c.real + c.imag * c.imag) >>> FIXED_POINT_BITS) % 4294967296 := by
  unfold magnitude_squared
  simp only [shiftRight_fixed_point]
  unfold to_uint32 to_int64
  generalize c.real * c.real + c.imag * c.imag = x
  rw [Int.toNat_of_nonneg (Int.emod_nonneg _ (by norm_num))]
  omega

/-- C18 (counterexample). The sample `c = (33548288, 0)` has 32-bit lanes (it is bin 0 of
the transform of the constant full-scale input), the exact value
`(c.real^2 + c.imag^2) >> 15` is `34347156608`, and `magnitude_squared(c)` is
`4282385536`. -/
theorem magnitude_squared_not_exact :
    lanes_int32 ⟨33548288, 0⟩ ∧
    ((33548288 : Int) ^ 2 + 0 ^ 2) >>> (15 : Nat) = 34347156608 ∧
    magnitude_squared ⟨33548288, 0⟩ = 4282385536 ∧
    (magnitude_squared ⟨33548288, 0⟩ : Int) ≠ ((33548288 : Int) ^ 2 + 0 ^ 2) >>> (15 : Nat) := by
  refine ⟨by decide, by decide!, by decide!, by decide!⟩

/-- C18 (amended). For every sample `c` (any integer lanes, in particular 32-bit ones),
`magnitude_squared(c)` is the exact integer `(c.real^2 + c.imag^2) >> 15` reduced modulo
`2^32`; it equals the exact integer whenever that is below `2^32`, and this is the case
when both lanes lie in `[-8388607, 8388607]`. -/
theorem magnitude_squared_wraps (c : complex_t) :
    (magnitude_squared c : Int) =
      ((c.real ^ 2 + c.imag ^ 2) >>> (15 : Nat)) % 4294967296 ∧
    ((c.real ^ 2 + c.imag ^ 2) >>> (15 : Nat) < 4294967296 →
      (magnitude_squared c : Int) = (c.real ^ 2 + c.imag ^ 2) >>> (15 : Nat)) ∧
    (-8388607 ≤ c.real ∧ c.real ≤ 8388607 ∧ -8388607 ≤ c.imag ∧ c.imag ≤ 8388607 →
      (magnitude_squared c : Int) = (c.real ^ 2 + c.imag ^ 2) >>> (15 : Nat)) := by
  have key := magnitude_squared_mod c
  have e15 : ∀ x : Int, x >>> (15 : Nat) = x >>> FIXED_POINT_BITS := fun _ => rfl
  rw [e15, pow_two, pow_two]
  have hnn : 0 ≤ (c.real * c.real + c.imag * c.imag) >>> FIXED_POINT_BITS := by
    rw [shiftRight_fixed_point]
    have := mul_self_nonneg c.real
    have := mul_self_nonneg c.imag
    omega
  refine ⟨key, ?_, ?_⟩
  · intro h
    rw [key]
    exact Int.emod_eq_of_lt hnn h
  · intro ⟨h1, h2, h3, h4⟩
    rw [key]
    apply Int.emod_eq_of_lt hnn
    rw [shiftRight_fixed_point]
    have a1 : c.real * c.real ≤ 8388607 * 8388607 := by nlinarith
    have a2 : c.imag * c.imag ≤ 8388607 * 8388607 := by nlinarith
    omega

/-! ### Range of the twiddle table -/

theorem twiddle_range_eval_check :
    BT.iterK twStepN 9 32767 0 (fun tw _ _ => twiddle_range_check tw) = true := by
  decide!

theorem dec32_range (a : Nat) (h : a ≤ 32767 ∨ (4294934529 ≤ a ∧ a < 4294967296)) :
    -32767 ≤ dec32 a ∧ dec32 a ≤ 32767 := by
  unfold dec32 to_int32
  omega

theorem twiddle_seq_range (k : Nat) (hk : k < 512) :
    (-32767 ≤ (twiddle_seq k).real ∧ (twiddle_seq k).real ≤ 32767) ∧
    (-32767 ≤ (twiddle_seq k).imag ∧ (twiddle_seq k).imag ≤ 32767) := by
  have h := twiddle_range_eval_check
  rw [BT.iterK_eq] at h
  unfold twiddle_range_check at h
  have h2 := BT.allLeaves_spec _ 9 0 _ twiddle_tree_spec.1 h k (by norm_num; exact hk)
  rw [decide_eq_true_eq] at h2
  have h3 := twiddle_tree_spec.2 k hk
  unfold BT.sample at h3
  rw [← h3]
  unfold decC
  exact ⟨dec32_range _ h2.1, dec32_range _ h2.2⟩

/-! ### Absence of 32-bit wraparound on Q15 inputs (C14) -/

theorem mul_abs_bound (a w B : Int) (ha : -B ≤ a ∧ a ≤ B) (hw : -32768 ≤ w ∧ w ≤ 32768) :
    -(32768 * B) ≤ a * w ∧ a * w ≤ 32768 * B := by
  obtain ⟨ha1, ha2⟩ := ha
  obtain ⟨hw1, hw2⟩ := hw
  constructor
  · nlinarith [mul_nonneg (sub_nonneg.mpr ha1) (sub_nonneg.mpr hw2),
      mul_nonneg (sub_nonneg.mpr ha2) (sub_nonneg.mpr hw1)]
  · nlinarith [mul_nonneg (sub_nonneg.mpr ha1) (sub_nonneg.mpr hw1),
      mul_nonneg (sub_nonneg.mpr ha2) (sub_nonneg.mpr hw2)]

theorem butterfly_bound (u x w : complex_t) (B : Int) (h3B : 3 * B ≤ 2147483647)
    (hu : lanes_le B u) (hx : lanes_le B x) (hw : lanes_le 32768 w) :
    butterfly_no_wrap u x w ∧
    lanes_le (3 * B) (complex_add u (complex_multiply x w)) ∧
    lanes_le (3 * B) (complex_subtract u (complex_multiply x w)) := by
  obtain ⟨⟨u1, u2⟩, ⟨u3, u4⟩⟩ := hu
  obtain ⟨p1, p2⟩ := mul_abs_bound x.real w.real B hx.1 hw.1
  obtain ⟨p3, p4⟩ := mul_abs_bound x.imag w.imag B hx.2 hw.2
  obtain ⟨p5, p6⟩ := mul_abs_bound x.real w.imag B hx.1 hw.2
  obtain ⟨p7, p8⟩ := mul_abs_bound x.imag w.real B hx.2 hw.1
  have hre : is_int32 ((x.real * w.real - x.imag * w.imag) / 32768) := by
    unfold is_int32; omega
  have him : is_int32 ((x.real * w.imag + x.imag * w.real) / 32768) := by
    unfold is_int32; omega
  rw [complex_multiply_exact x w hre him]
  unfold butterfly_no_wrap lanes_le complex_add complex_subtract complex_multiply_real_temp
    complex_multiply_imag_temp is_int64 is_int32
  simp only [shiftRight_fixed_point]
  have a1 : to_int32 (u.real + (x.real * w.real - x.imag * w.imag) / 32768) =
      u.real + (x.real * w.real - x.imag * w.imag) / 32768 :=
    to_int32_of_is_int32 (by unfold is_int32; omega)
  have a2 : to_int32 (u.imag + (x.real * w.imag + x.imag * w.real) / 32768) =
      u.imag + (x.real * w.imag + x.imag * w.real) / 32768 :=
    to_int32_of_is_int32 (by unfold is_int32; omega)
  have a3 : to_int32 (u.real - (x.real * w.real - x.imag * w.imag) / 32768) =
      u.real - (x.real * w.real - x.imag * w.imag) / 32768 :=
    to_int32_of_is_int32 (by unfold is_int32; omega)
  have a4 : to_int32 (u.imag - (x.real * w.imag + x.imag * w.real) / 32768) =
      u.imag - (x.real * w.imag + x.imag * w.real) / 32768 :=
    to_int32_of_is_int32 (by unfold is_int32; omega)
  rw [a1, a2, a3, a4]
  generalize x.real * w.real = P1 at *
  generalize x.imag * w.imag = P2 at *
  generalize x.real * w.imag = P3 at *
  generalize x.imag * w.real = P4 at *
  refine ⟨⟨⟨?_, ?_⟩, ⟨?_, ?_⟩, ⟨?_, ?_⟩, ⟨?_, ?_⟩, ⟨?_, ?_⟩, ⟨?_, ?_⟩, ⟨?_, ?_⟩, ?_, ?_⟩,
    ⟨⟨?_, ?_⟩, ?_, ?_⟩, ⟨?_, ?_⟩, ?_, ?_⟩ <;> omega

theorem stage_sizes_facts {m : Nat} (hm : m ∈ stage_sizes) :
    m = m / 2 + m / 2 ∧ 0 < m / 2 ∧ m ∣ FFT_N ∧ m / 2 * (FFT_N / m) = 512 := by
  simp only [stage_sizes, List.mem_cons, List.mem_singleton, List.not_mem_nil, or_false] at hm
  rcases hm with rfl | rfl | rfl | rfl | rfl | rfl | rfl | rfl | rfl | rfl <;> decide

theorem twiddle_index_lt {m j : Nat} (hm : m ∈ stage_sizes) (hj : j < m / 2) :
    j * (FFT_N / m) < 512 := by
  obtain ⟨_, _, _, h4⟩ := stage_sizes_facts hm
  have hpos : 0 < FFT_N / m := by
    rcases Nat.eq_zero_or_pos (FFT_N / m) with h | h
    · rw [h] at h4; simp at h4
    · exact h
  calc j * (FFT_N / m) < m / 2 * (FFT_N / m) := Nat.mul_lt_mul_of_pos_right hj hpos
    _ = 512 := h4

theorem stage_spec_bound (tw d : Buf) (m : Nat) (hm : m ∈ stage_sizes) (B : Int)
    (h3B : 3 * B ≤ 2147483647) (htw : ∀ k, k < 512 → lanes_le 32768 (tw k))
    (hd : ∀ i, i < FFT_N → lanes_le B (d i)) :
    ∀ i, i < FFT_N → lanes_le (3 * B) (stage_spec tw m d i) := by
  obtain ⟨h1, h2, h3, _⟩ := stage_sizes_facts hm
  intro i hi
  have hmodlt : i % m < m := Nat.mod_lt i (by omega)
  unfold stage_spec
  rw [if_pos hi]
  by_cases hlow : i % m < m / 2
  · rw [if_pos hlow]
    have hi2 : i + m / 2 < FFT_N := add_half_lt h1 h3 hi hlow
    exact (butterfly_bound _ _ _ B h3B (hd i hi) (hd _ hi2)
      (htw _ (twiddle_index_lt hm hlow))).2.1
  · rw [if_neg hlow]
    have hle : i % m ≤ i := Nat.mod_le i m
    have hi2 : i - m / 2 < FFT_N := by omega
    exact (butterfly_bound _ _ _ B h3B (hd _ hi2) (hd i hi)
      (htw _ (twiddle_index_lt hm (by omega)))).2.2

theorem stage_input_succ (tw input output : Buf) (k m : Nat) (hk : k < 10)
    (hkm : m = 2 ^ (k + 1)) :
    m ∈ stage_sizes ∧
    stage_input tw input output (k + 1) = stage_spec tw m (stage_input tw input output k) := by
  interval_cases k <;> norm_num at hkm <;> subst hkm <;>
    exact ⟨by decide, by simp only [stage_input, stage_sizes, List.take, List.foldl]⟩

theorem stage_input_bound (tw input output : Buf)
    (htw : ∀ k, k < 512 → lanes_le 32768 (tw k))
    (hin : ∀ i, i < FFT_N → lanes_q15 (input i)) :
    ∀ k, k ≤ 10 → ∀ i, i < FFT_N → lanes_le (32768 * 3 ^ k) (stage_input tw input output k i) := by
  intro k
  induction k with
  | zero =>
    intro _ i hi
    have e : stage_input tw input output 0 i = input (bit_reverse_u16 i LOG2_FFT_N) := by
      show bit_reverse_spec (copy_spec input output) i = _
      simp only [bit_reverse_spec, copy_spec, hi, if_true, bit_reverse_u16_lt hi]
    rw [e]
    have h := hin _ (bit_reverse_u16_lt hi)
    unfold lanes_q15 at h
    unfold lanes_le
    omega
  | succ k ih =>
    intro hk i hi
    obtain ⟨hm, e⟩ := stage_input_succ tw input output k _ (by omega) rfl
    rw [e]
    have hpow : (3 : Int) ^ k ≤ 3 ^ 9 := pow_le_pow_right₀ (by norm_num) (by omega)
    have e3 : (32768 : Int) * 3 ^ (k + 1) = 3 * (32768 * 3 ^ k) := by ring
    rw [e3]
    apply stage_spec_bound tw _ _ hm _ _ htw (ih (by omega)) i hi
    norm_num at hpow
    omega

/-- C14. For every input buffer whose 1024 samples have both lanes in the Q15 range
`[-32768, 32767]` and every consistent twiddle state, `fft_1024_point` returns the buffer
after stage 10, and in every butterfly of every stage (stage number `k < 10`, size
`m = 2^(k+1)`, block start `b`, offset `j < m/2`, read from the buffer at the start of the
stage) nothing wraps: both 64-bit intermediates of the product are in the `int64_t`
range, both rescaled lanes are in the `int32_t` range, and the four lanes written to
`output[b+j]` and `output[b+j+m/2]` are in the `int32_t` range; the two stored samples are
the values of the next stage buffer at these indices. -/
theorem fft_1024_point_no_wrap (s : TwiddleState) (hs : s.consistent) (input output : Buf)
    (hin : ∀ i, i < 1024 → lanes_q15 (input i)) :
    fft_1024_point s input output =
      some (init_twiddles s,
        stage_input (init_twiddles s).twiddle_factors input output 10) ∧
    ∀ k m, k < 10 → m = 2 ^ (k + 1) → ∀ b j, m ∣ b → b < 1024 → j < m / 2 →
      butterfly_no_wrap
        (stage_input (init_twiddles s).twiddle_factors input output k (b + j))
        (stage_input (init_twiddles s).twiddle_factors input output k (b + j + m / 2))
        ((init_twiddles s).twiddle_factors (j * (1024 / m))) ∧
      stage_input (init_twiddles s).twiddle_factors input output (k + 1) (b + j) =
        complex_add
          (stage_input (init_twiddles s).twiddle_factors input output k (b + j))
          (complex_multiply
            (stage_input (init_twiddles s).twiddle_factors input output k (b + j + m / 2))
            ((init_twiddles s).twiddle_factors (j * (1024 / m)))) ∧
      stage_input (init_twiddles s).twiddle_factors input output (k + 1) (b + j + m / 2) =
        complex_subtract
          (stage_input (init_twiddles s).twiddle_factors input output k (b + j))
          (complex_multiply
            (stage_input (init_twiddles s).twiddle_factors input output k (b + j + m / 2))
            ((init_twiddles s).twiddle_factors (j * (1024 / m)))) := by
  refine ⟨fft_1024_point_eq s input output, ?_⟩
  intro k m hk hkm b j hb hbN hj
  generalize htwd : (init_twiddles s).twiddle_factors = tw
  have htw : ∀ k, k < 512 → lanes_le 32768 (tw k) := by
    intro q hq
    rw [← htwd, (init_twiddles_consistent s hs).1 q hq]
    have h := twiddle_seq_range q hq
    unfold lanes_le
    omega
  obtain ⟨hm, e⟩ := stage_input_succ tw input output k m hk hkm
  obtain ⟨h1, h2, h3, _⟩ := stage_sizes_facts hm
  have hnext : b + m ≤ FFT_N := next_block_le hb h3 hbN
  have hbound := stage_input_bound tw input output htw hin k (by omega)
  have hpow : (3 : Int) ^ k ≤ 3 ^ 9 := pow_le_pow_right₀ (by norm_num) (by omega)
  have h3B : 3 * ((32768 : Int) * 3 ^ k) ≤ 2147483647 := by
    norm_num at hpow
    omega
  have hbj : b + j < FFT_N := by omega
  have hbj2 : b + j + m / 2 < FFT_N := by omega
  obtain ⟨p1, p2⟩ := stage_spec_pair tw (stage_input tw input output k) m hm b j hb hbN hj
  rw [e]
  exact ⟨(butterfly_bound _ _ _ _ h3B (hbound _ hbj) (hbound _ hbj2)
    (htw _ (twiddle_index_lt hm hj))).1, p1, p2⟩

/-- Witness for C14 at the start-up state and the constant full-scale input. -/
theorem fft_1024_point_no_wrap_witness :
    (∀ i, i < 1024 → lanes_q15 (dc_input i)) ∧
    butterfly_no_wrap
      (stage_input (init_twiddles TwiddleState.startup).twiddle_factors dc_input zero_buf 9
        (0 + 3))
      (stage_input (init_twiddles TwiddleState.startup).twiddle_factors dc_input zero_buf 9
        (0 + 3 + 1024 / 2))
      ((init_twiddles TwiddleState.startup).twiddle_factors (3 * (1024 / 1024))) :=
  ⟨fun _ _ => by show lanes_q15 ⟨32767, 0⟩; decide,
    ((fft_1024_point_no_wrap TwiddleState.startup consistent_startup dc_input zero_buf
      (fun _ _ => by show lanes_q15 ⟨32767, 0⟩; decide)).2 9 1024 (by decide) (by decide) 0 3
        (by decide) (by decide) (by decide)).1⟩

/-! ### Bin 0 and the sum of the samples (C11) -/

theorem sum_real_eq (x : Buf) (n : Nat) :
    sum_real x n = ∑ i in Finset.range n, (x i).real := by
  induction n with
  | zero => rfl
  | succ n ih => rw [Finset.sum_range_succ, ← ih]; rfl

theorem sum_imag_eq (x : Buf) (n : Nat) :
    sum_imag x n = ∑ i in Finset.range n, (x i).imag := by
  induction n with
  | zero => rfl
  | succ n ih => rw [Finset.sum_range_succ, ← ih]; rfl

theorem sum_bit_reverse (f : Nat → Int) :
    ∑ i in Finset.range FFT_N, f (bit_reverse_u16 i LOG2_FFT_N) = ∑ i in Finset.range FFT_N, f i := by
  apply Finset.sum_nbij' (fun i => bit_reverse_u16 i LOG2_FFT_N)
    (fun i => bit_reverse_u16 i LOG2_FFT_N)
  · intro a ha
    rw [Finset.mem_range] at ha ⊢
    exact bit_reverse_u16_lt ha
  · intro a ha
    rw [Finset.mem_range] at ha ⊢
    exact bit_reverse_u16_lt ha
  · intro a ha
    rw [Finset.mem_range] at ha
    exact bit_reverse_u16_invol ha
  · intro a ha
    rw [Finset.mem_range] at ha
    exact bit_reverse_u16_invol ha
  · intro a _
    rfl

theorem complex_multiply_unit (x : complex_t) (hx : lanes_le 16777216 x) :
    complex_multiply x ⟨32767, 0⟩ = ⟨(32767 * x.real) / 32768, (32767 * x.imag) / 32768⟩ := by
  obtain ⟨⟨h1, h2⟩, ⟨h3, h4⟩⟩ := hx
  have e1 : x.real * 32767 - x.imag * 0 = 32767 * x.real := by ring
  have e2 : x.real * 0 + x.imag * 32767 = 32767 * x.imag := by ring
  have key := complex_multiply_exact x ⟨32767, 0⟩
  simp only [e1, e2] at key
  exact key (by unfold is_int32; omega) (by unfold is_int32; omega)

theorem stage_spec_block_start (tw d : Buf) (m : Nat) (hm : m ∈ stage_sizes)
    (htw0 : tw 0 = ⟨32767, 0⟩) (b : Nat) (hb : m ∣ b) (hbN : b < FFT_N)
    (h1 : lanes_le 16777216 (d b)) (h2 : lanes_le 16777216 (d (b + m / 2))) :
    stage_spec tw m d b =
      ⟨(d b).real + (32767 * (d (b + m / 2)).real) / 32768,
        (d b).imag + (32767 * (d (b + m / 2)).imag) / 32768⟩ := by
  obtain ⟨_, f2, _, _⟩ := stage_sizes_facts hm
  obtain ⟨p1, _⟩ := stage_spec_pair tw d m hm b 0 hb hbN f2
  simp only [Nat.add_zero, Nat.zero_mul] at p1
  rw [p1, htw0, complex_multiply_unit _ h2]
  obtain ⟨⟨a1, a2⟩, ⟨a3, a4⟩⟩ := h1
  obtain ⟨⟨c1, c2⟩, ⟨c3, c4⟩⟩ := h2
  unfold complex_add
  simp only
  rw [to_int32_of_is_int32 (by unfold is_int32; omega),
    to_int32_of_is_int32 (by unfold is_int32; omega)]

theorem bin0_invariant (tw input output : Buf) (htw0 : tw 0 = ⟨32767, 0⟩)
    (hin : ∀ i, i < FFT_N → lanes_q15 (input i)) :
    ∀ k, k ≤ 10 → ∀ b, 2 ^ k ∣ b → b < FFT_N →
      lanes_le (32768 * 2 ^ k) (stage_input tw input output k b) ∧
      lanes_le (bin0_error_bound k)
        ⟨(stage_input tw input output k b).real -
            ∑ i in Finset.range (2 ^ k), (stage_input tw input output 0 (b + i)).real,
          (stage_input tw input output k b).imag -
            ∑ i in Finset.range (2 ^ k), (stage_input tw input output 0 (b + i)).imag⟩ := by
  intro k
  induction k with
  | zero =>
    intro _ b _ hbN
    have e : stage_input tw input output 0 b = input (bit_reverse_u16 b LOG2_FFT_N) := by
      show bit_reverse_spec (copy_spec input output) b = _
      simp only [bit_reverse_spec, copy_spec, hbN, if_true, bit_reverse_u16_lt hbN]
    have h := hin _ (bit_reverse_u16_lt hbN)
    unfold lanes_q15 at h
    simp only [pow_zero, Finset.sum_range_one, Nat.add_zero, sub_self, bin0_error_bound]
    rw [e]
    unfold lanes_le
    simp only
    omega
  | succ k ih =>
    intro hk b hb hbN
    obtain ⟨hm, e⟩ := stage_input_succ tw input output k _ (by omega) rfl
    obtain ⟨_, _, f3, _⟩ := stage_sizes_facts hm
    have hnext : b + 2 ^ (k + 1) ≤ FFT_N := next_block_le hb f3 hbN
    have hhalf : 2 ^ (k + 1) / 2 = 2 ^ k := by
      rw [pow_succ]
      exact Nat.mul_div_cancel _ (by norm_num)
    have hsplit : 2 ^ (k + 1) = 2 ^ k + 2 ^ k := by rw [pow_succ]; omega
    have hpos : 0 < 2 ^ k := Nat.two_pow_pos k
    have hb1 : 2 ^ k ∣ b := Dvd.dvd.trans (Dvd.intro _ (pow_succ 2 k).symm) hb
    have hb2 : 2 ^ k ∣ b + 2 ^ k := Nat.dvd_add hb1 (dvd_refl _)
    obtain ⟨⟨⟨a1, a2⟩, ⟨a3, a4⟩⟩, ⟨⟨a5, a6⟩, ⟨a7, a8⟩⟩⟩ := ih (by omega) b hb1 (by omega)
    obtain ⟨⟨⟨c1, c2⟩, ⟨c3, c4⟩⟩, ⟨⟨c5, c6⟩, ⟨c7, c8⟩⟩⟩ := ih (by omega) (b + 2 ^ k) hb2 (by omega)
    have hP : (2 : Int) ^ k ≤ 2 ^ 9 := pow_le_pow_right₀ (by norm_num) (by omega)
    have hP0 : (0 : Int) < 2 ^ k := pow_pos (by norm_num) k
    have hPs : (2 : Int) ^ (k + 1) = 2 * 2 ^ k := by ring
    norm_num at hP
    rw [e, stage_spec_block_start tw _ _ hm htw0 b hb hbN
      (by unfold lanes_le; omega) (by rw [hhalf]; unfold lanes_le; omega), hhalf]
    have s1 : ∀ f : Nat → Int, ∑ i in Finset.range (2 ^ (k + 1)), f (b + i) =
        ∑ i in Finset.range (2 ^ k), f (b + i) + ∑ i in Finset.range (2 ^ k), f (b + 2 ^ k + i) := by
      intro f
      rw [hsplit, Finset.sum_range_add]
      simp only [Nat.add_assoc]
    rw [s1 (fun j => (stage_input tw input output 0 j).real),
      s1 (fun j => (stage_input tw input output 0 j).imag)]
    simp only [bin0_error_bound, hPs]
    unfold lanes_le
    simp only
    simp only at a5 a6 a7 a8 c5 c6 c7 c8
    generalize (2 : Int) ^ k = P at *
    generalize bin0_error_bound k = E at *
    refine ⟨⟨⟨?_, ?_⟩, ?_, ?_⟩, ⟨?_, ?_⟩, ?_, ?_⟩ <;> omega

theorem bin0_error_bound_ten : bin0_error_bound 10 = 5120 := by
  simp only [bin0_error_bound]
  norm_num

set_option maxRecDepth 100000 in
theorem dc_bin0_eval_check : fft_evalK (input_leaf dc_input) dc_bin0_check = true := by
  decide!

theorem sum_real_dc_input (n : Nat) : sum_real dc_input n = n * 32767 := by
  induction n with
  | zero => simp [sum_real]
  | succ n ih =>
    have e : (dc_input n).real = 32767 := rfl
    rw [sum_real, ih, e]
    push_cast
    ring

theorem sum_imag_dc_input (n : Nat) : sum_imag dc_input n = 0 := by
  induction n with
  | zero => rfl
  | succ n ih =>
    have e : (dc_input n).imag = 0 := rfl
    rw [sum_imag, ih, e]
    rfl

/-- C11 (counterexample). For the constant input `(32767, 0)` from the start-up state,
`fft_1024_point` returns a buffer whose bin 0 is `(33548288, 0)`, whereas the lane-wise sum
of the 1024 input samples is `(1024 * 32767, 0) = (33553408, 0)`. -/
theorem fft_1024_point_bin0_not_sum :
    ∃ F, fft_1024_point TwiddleState.startup dc_input zero_buf =
        some (init_twiddles TwiddleState.startup, F) ∧
      F 0 = ⟨33548288, 0⟩ ∧
      sum_real dc_input 1024 = 1024 * 32767 ∧ sum_imag dc_input 1024 = 0 ∧
      F 0 ≠ ⟨1024 * 32767, 0⟩ := by
  have hl : ∀ i, i < 1024 → lanes_int32 (dc_input i) := by
    intro i _
    show lanes_int32 ⟨32767, 0⟩
    decide
  obtain ⟨F, hF, hv⟩ := fft_1024_point_eval TwiddleState.startup consistent_startup dc_input
    zero_buf hl
  have h := dc_bin0_eval_check
  rw [fft_evalK_eq] at h
  unfold dc_bin0_check at h
  rw [decide_eq_true_eq] at h
  have e1 : dec32 33548288 = 33548288 := by unfold dec32 to_int32; norm_num
  have e2 : dec32 0 = 0 := by unfold dec32 to_int32; norm_num
  have h0 : F 0 = ⟨33548288, 0⟩ := by
    rw [hv 0 (by norm_num)]
    unfold BT.sample
    rw [h]
    unfold decC
    rw [e1, e2]
  refine ⟨F, hF, h0, ?_, sum_imag_dc_input 1024, ?_⟩
  · rw [sum_real_dc_input]
    norm_num
  · rw [h0]
    intro hc
    have h2 := congrArg complex_t.real hc
    norm_num at h2

/-- C11 (amended). For every input buffer whose 1024 samples have Q15 lanes and every
consistent twiddle state, `fft_1024_point` returns, and each lane of bin 0 differs from
the sum of that lane over the 1024 input samples by at most 5120 (the ten multiplications
by `twiddle_factors[0] = (32767, 0)`, each rounded down, account for the difference). -/
theorem fft_1024_point_bin0_near_sum (s : TwiddleState) (hs : s.consistent)
    (input output : Buf) (hin : ∀ i, i < 1024 → lanes_q15 (input i)) :
    ∃ F, fft_1024_point s input output = some (init_twiddles s, F) ∧
      |(F 0).real - sum_real input 1024| ≤ 5120 ∧
      |(F 0).imag - sum_imag input 1024| ≤ 5120 := by
  refine ⟨stage_input (init_twiddles s).twiddle_factors input output 10,
    fft_1024_point_eq s input output, ?_⟩
  generalize htwd : (init_twiddles s).twiddle_factors = tw
  have htw0 : tw 0 = ⟨32767, 0⟩ := by
    rw [← htwd, (init_twiddles_consistent s hs).1 0 (by norm_num), twiddle_seq_zero]
  obtain ⟨_, ⟨⟨a1, a2⟩, ⟨a3, a4⟩⟩⟩ :=
    bin0_invariant tw input output htw0 hin 10 (le_refl _) 0 (dvd_zero _) (by decide)
  have e0 : ∀ i, i < 1024 →
      stage_input tw input output 0 (0 + i) = input (bit_reverse_u16 i LOG2_FFT_N) := by
    intro i hi
    have hi2 : i < FFT_N := hi
    rw [Nat.zero_add]
    show bit_reverse_spec (copy_spec input output) i = _
    simp only [bit_reverse_spec, copy_spec, hi2, if_true, bit_reverse_u16_lt hi2]
  have sr : ∑ i in Finset.range (2 ^ 10), (stage_input tw input output 0 (0 + i)).real =
      sum_real input 1024 := by
    rw [sum_real_eq]
    show ∑ i in Finset.range FFT_N, _ = ∑ i in Finset.range FFT_N, (input i).real
    rw [← sum_bit_reverse (fun i => (input i).real)]
    apply Finset.sum_congr rfl
    intro i hi
    rw [Finset.mem_range] at hi
    rw [e0 i hi]
  have si : ∑ i in Finset.range (2 ^ 10), (stage_input tw input output 0 (0 + i)).imag =
      sum_imag input 1024 := by
    rw [sum_imag_eq]
    show ∑ i in Finset.range FFT_N, _ = ∑ i in Finset.range FFT_N, (input i).imag
    rw [← sum_bit_reverse (fun i => (input i).imag)]
    apply Finset.sum_congr rfl
    intro i hi
    rw [Finset.mem_range] at hi
    rw [e0 i hi]
  simp only [sr, si, bin0_error_bound_ten] at a1 a2 a3 a4
  exact ⟨abs_le.mpr ⟨a1, a2⟩, abs_le.mpr ⟨a3, a4⟩⟩

/-- Witness for C11 (amended) at the start-up state and the constant full-scale input. -/
theorem fft_1024_point_bin0_near_sum_witness :
    (∀ i, i < 1024 → lanes_q15 (dc_input i)) ∧
    ∃ F, fft_1024_point TwiddleState.startup dc_input zero_buf =
        some (init_twiddles TwiddleState.startup, F) ∧
      |(F 0).real - sum_real dc_input 1024| ≤ 5120 ∧
      |(F 0).imag - sum_imag dc_input 1024| ≤ 5120 :=
  ⟨fun _ _ => by show lanes_q15 ⟨32767, 0⟩; decide,
    fft_1024_point_bin0_near_sum TwiddleState.startup consistent_startup dc_input zero_buf
      (fun _ _ => by show lanes_q15 ⟨32767, 0⟩; decide)⟩

/-! ### Evaluation of the 16-point transform -/

theorem fft_16_point_single_frequency_eval :
    (List.range 16).map (fft_16_point single_frequency_input_16 zero_buf zero_buf) =
      single_frequency_bins_16 := by
  decide!

theorem fft_16_point_dc_eval :
    (List.range 16).map (fft_16_point dc_input zero_buf zero_buf) = dc_bins_16 := by
  decide!

theorem test_single_frequency_eval : test_single_frequency zero_buf zero_buf = -1 := by
  decide!

theorem test_dc_eval : test_dc zero_buf zero_buf = 0 := by
  decide!

/-! ### Independence from the initial content of the local arrays -/

theorem copy_lanes_value (src dst : Buf) (i : Nat) (hi : i < 16) :
    (List.range 16).foldl (copy_lanes_body src) dst i = src i := by
  interval_cases i <;> rfl

theorem bit_reverse_reorder_value (data temp : Buf) (i : Nat) (hi : i < 16) :
    bit_reverse_reorder data temp i = data (bit_reverse_table i) := by
  interval_cases i <;> rfl

theorem fft_16_butterfly_agree (d1 d2 : Buf) (i j t : Nat) (hi : i < 16) (hj : j < 16)
    (h : ∀ k, k < 16 → d1 k = d2 k) :
    ∀ k, k < 16 → fft_16_butterfly d1 i j t k = fft_16_butterfly d2 i j t k := by
  intro k hk
  unfold fft_16_butterfly
  simp only [upd_apply, h i hi, h j hj, h k hk]

theorem fft_16_stage1_agree (d1 d2 : Buf) (h : ∀ k, k < 16 → d1 k = d2 k) :
    ∀ k, k < 16 → fft_16_stage1 d1 k = fft_16_stage1 d2 k := by
  unfold fft_16_stage1
  simp only [List.range', List.foldl]
  repeat (first | exact h | (apply fft_16_butterfly_agree _ _ _ _ _ (by decide) (by decide)))

theorem fft_16_stage2_agree (d1 d2 : Buf) (h : ∀ k, k < 16 → d1 k = d2 k) :
    ∀ k, k < 16 → fft_16_stage2 d1 k = fft_16_stage2 d2 k := by
  unfold fft_16_stage2
  simp only [List.range', List.foldl]
  repeat (first | exact h | (apply fft_16_butterfly_agree _ _ _ _ _ (by decide) (by decide)))

theorem fft_16_stage3_agree (d1 d2 : Buf) (h : ∀ k, k < 16 → d1 k = d2 k) :
    ∀ k, k < 16 → fft_16_stage3 d1 k = fft_16_stage3 d2 k := by
  unfold fft_16_stage3
  have e4 : List.range 4 = [0, 1, 2, 3] := rfl
  simp only [List.range', List.foldl, e4]
  repeat (first | exact h | (apply fft_16_butterfly_agree _ _ _ _ _ (by decide) (by decide)))

theorem fft_16_stage4_agree (d1 d2 : Buf) (h : ∀ k, k < 16 → d1 k = d2 k) :
    ∀ k, k < 16 → fft_16_stage4 d1 k = fft_16_stage4 d2 k := by
  unfold fft_16_stage4
  have e8 : List.range 8 = [0, 1, 2, 3, 4, 5, 6, 7] := rfl
  simp only [List.foldl, e8]
  repeat (first | exact h | (apply fft_16_butterfly_agree _ _ _ _ _ (by decide) (by decide)))

theorem fft_16_point_frame (input output temp output2 temp2 : Buf) :
    ∀ i, i < 16 → fft_16_point input output temp i = fft_16_point input output2 temp2 i := by
  unfold fft_16_point
  apply fft_16_stage4_agree
  apply fft_16_stage3_agree
  apply fft_16_stage2_agree
  apply fft_16_stage1_agree
  intro k hk
  rw [bit_reverse_reorder_value _ _ k hk, bit_reverse_reorder_value _ _ k hk]
  have hb : bit_reverse_table k < 16 := by interval_cases k <;> decide
  rw [copy_lanes_value _ _ _ hb, copy_lanes_value _ _ _ hb]

/-! ### The generic engine at `N = 1024` and at `N = 16` (C19) -/

theorem block_loop_n_eq (tw : Buf) (m halfsize step : Nat) :
    ∀ (fuel block : Nat) (output : Buf),
      block_loop_n FFT_N tw m halfsize step fuel block output =
        block_loop tw m halfsize step fuel block output := by
  intro fuel
  induction fuel with
  | zero => intro block output; rfl
  | succ fuel ih =>
    intro block output
    simp only [block_loop_n, block_loop, ih]

theorem stage_loop_n_eq (tw : Buf) :
    ∀ (fuel m step : Nat) (output : Buf),
      stage_loop_n FFT_N tw fuel m step output = stage_loop tw fuel m step output := by
  intro fuel
  induction fuel with
  | zero => intro m step output; rfl
  | succ fuel ih =>
    intro m step output
    simp only [stage_loop_n, stage_loop, block_loop_n_eq, ih]

theorem fft_n_point_1024 (s : TwiddleState) (input output : Buf) :
    fft_1024_point s input output =
      (fft_n_point FFT_N LOG2_FFT_N (init_twiddles s).twiddle_factors input output).map
        (fun o => (init_twiddles s, o)) := by
  unfold fft_1024_point fft_n_point
  simp only [stage_loop_n_eq]
  have e1 : copy_input_n FFT_N input output = copy_input input output := rfl
  have e2 : ∀ d, bit_reverse_reorder_n FFT_N LOG2_FFT_N d = bit_reverse_reorder_generic d :=
    fun _ => rfl
  rw [e1, e2]
  cases stage_loop (init_twiddles s).twiddle_factors (LOG2_FFT_N + 1) 2 (FFT_N >>> 1)
    (bit_reverse_reorder_generic (copy_input input output)) <;> rfl

theorem copy_lanes_body_eq (src dst : Buf) (i : Nat) :
    copy_lanes_body src dst i = upd dst i (src i) := by
  funext k
  unfold copy_lanes_body
  simp only [upd_apply]
  by_cases hk : k = i <;> simp [hk]

theorem copy_input_n_16 (input output : Buf) :
    copy_input_n 16 input output = (List.range 16).foldl (copy_lanes_body input) output := by
  unfold copy_input_n
  apply List.foldl_ext
  intro a b _
  rw [copy_lanes_body_eq]

theorem bit_reverse_u16_4_lt (k : Nat) (hk : k < 16) : bit_reverse_u16 k 4 < 16 := by
  interval_cases k <;> decide

theorem bit_reverse_reorder_n_frame (d : Buf) (i : Nat) (hi : 16 ≤ i) :
    ∀ k, k ≤ 16 → (List.range k).foldl (bit_reverse_reorder_body_n 4) d i = d i := by
  intro k
  induction k with
  | zero => intro _; rfl
  | succ k ih =>
    intro hk
    rw [List.range_succ, List.foldl_append]
    simp only [List.foldl]
    have h1 := bit_reverse_u16_4_lt k (by omega)
    unfold bit_reverse_reorder_body_n
    simp only
    split_ifs
    · rw [upd_apply, upd_apply, if_neg (by omega), if_neg (by omega)]
      exact ih (by omega)
    · exact ih (by omega)

theorem bit_reverse_reorder_frame (d temp : Buf) (i : Nat) (hi : 16 ≤ i) :
    ∀ k, k ≤ 16 → (List.range k).foldl (bit_reverse_reorder_store temp) d i = d i := by
  intro k
  induction k with
  | zero => intro _; rfl
  | succ k ih =>
    intro hk
    have step : ∀ d2 : Buf, bit_reverse_reorder_store temp d2 k i = d2 i := by
      intro d2
      have hne : i ≠ k := by omega
      unfold bit_reverse_reorder_store
      simp only [upd_apply, hne, if_false]
    rw [List.range_succ, List.foldl_append]
    simp only [List.foldl]
    rw [step]
    exact ih (by omega)

theorem bit_reverse_reorder_n_16 (d temp : Buf) :
    bit_reverse_reorder_n 16 4 d = bit_reverse_reorder d temp := by
  funext i
  by_cases hi : i < 16
  · rw [bit_reverse_reorder_value d temp i hi]
    interval_cases i <;> rfl
  · rw [show bit_reverse_reorder_n 16 4 d i = d i from
      bit_reverse_reorder_n_frame d i (by omega) 16 (le_refl _)]
    exact (bit_reverse_reorder_frame _ _ i (by omega) 16 (le_refl _)).symm

theorem block_loop_n_blocks (n : Nat) (tw : Buf) (m halfsize step : Nat) :
    ∀ (c fuel block : Nat) (output : Buf), c ≤ fuel → n ≤ block + c * m →
      (∀ q, q < c → block + q * m < n) →
      block_loop_n n tw m halfsize step fuel block output =
        some ((List.range' block c m).foldl
          (fun o b => butterfly_loop tw halfsize step b o) output) := by
  intro c
  induction c with
  | zero =>
    intro fuel block output _ hge _
    have hnot : ¬ block < n := by omega
    cases fuel <;> simp only [block_loop_n, hnot, if_false, List.range', List.foldl]
  | succ c ih =>
    intro fuel block output hfuel hge hlt
    have hb : block < n := by
      have := hlt 0 (by omega)
      omega
    obtain ⟨fuel2, rfl⟩ : ∃ f, fuel = f + 1 := ⟨fuel - 1, by omega⟩
    rw [block_loop_n, if_pos hb]
    rw [ih fuel2 (block + m) _ (by omega) (by rw [Nat.succ_mul] at hge; omega)
      (by
        intro q hq
        have := hlt (q + 1) (by omega)
        rw [Nat.succ_mul] at this
        omega)]
    rfl

theorem stage_loop_n_step (n : Nat) (tw : Buf) (fuel m step : Nat) (output output1 : Buf)
    (hm : m ≤ n) (h : block_loop_n n tw m (m >>> 1) step n 0 output = some output1) :
    stage_loop_n n tw (fuel + 1) m step output =
      stage_loop_n n tw fuel (m <<< 1) (step >>> 1) output1 := by
  rw [stage_loop_n, if_pos hm]
  simp only [h]

theorem stage_loop_n_done (n : Nat) (tw : Buf) (fuel m step : Nat) (output : Buf)
    (hm : n < m) : stage_loop_n n tw fuel m step output = some output := by
  have hnot : ¬ m ≤ n := by omega
  cases fuel <;> simp only [stage_loop_n, hnot, if_false]

theorem butterfly_body_16 (h step block k j : Nat) (out : Buf) :
    butterfly_body twiddle_factors h step block (out, k) j =
      (fft_16_butterfly out (block + j) (block + j + h) k, k + step) := rfl

theorem butterfly_fold_16 (h step b : Nat) (o : Buf) : ∀ c,
    (List.range c).foldl (butterfly_body twiddle_factors h step b) (o, 0) =
      ((List.range c).foldl
        (fun o j => fft_16_butterfly o (b + j) (b + j + h) (j * step)) o, c * step) := by
  intro c
  induction c with
  | zero => simp only [List.range_zero, List.foldl, Nat.zero_mul]
  | succ c ih =>
    rw [List.range_succ, List.foldl_append, List.foldl_append, ih]
    simp only [List.foldl, butterfly_body_16, Nat.succ_mul]

theorem butterfly_loop_16 (h step b : Nat) (o : Buf) :
    butterfly_loop twiddle_factors h step b o =
      (List.range h).foldl
        (fun o j => fft_16_butterfly o (b + j) (b + j + h) (j * step)) o := by
  unfold butterfly_loop
  rw [butterfly_fold_16]

theorem butterfly_loop_stage1 (b : Nat) (o : Buf) :
    butterfly_loop twiddle_factors 1 8 b o = fft_16_butterfly o b (b + 1) 0 := rfl

theorem butterfly_loop_stage2 (b : Nat) (o : Buf) :
    butterfly_loop twiddle_factors 2 4 b o =
      fft_16_butterfly (fft_16_butterfly o b (b + 2) 0) (b + 1) (b + 3) 4 := rfl

theorem stage3_twiddle_idx (k : Nat) (hk : k < 4) : (k <<< 1) &&& 7 = k * 2 := by
  interval_cases k <;> decide

theorem butterfly_loop_stage3 (b : Nat) (o : Buf) :
    butterfly_loop twiddle_factors 4 2 b o =
      (List.range 4).foldl (fun o k =>
        fft_16_butterfly o (b + k) (b + k + 4) ((k <<< 1) &&& 7)) o := by
  rw [butterfly_loop_16]
  apply List.foldl_ext
  intro a k hk
  rw [List.mem_range] at hk
  rw [stage3_twiddle_idx k hk]

theorem butterfly_loop_stage4 (o : Buf) :
    butterfly_loop twiddle_factors 8 1 0 o = fft_16_stage4 o := by
  rw [butterfly_loop_16]
  unfold fft_16_stage4
  apply List.foldl_ext
  intro a k _
  rw [Nat.zero_add, Nat.mul_one]

theorem block_loop_n_stage1 (d : Buf) :
    block_loop_n 16 twiddle_factors 2 1 8 16 0 d = some (fft_16_stage1 d) := by
  rw [block_loop_n_blocks 16 twiddle_factors 2 1 8 8 16 0 d (by decide) (by decide)
    (by intro q hq; omega)]
  simp only [butterfly_loop_stage1]
  rfl

theorem block_loop_n_stage2 (d : Buf) :
    block_loop_n 16 twiddle_factors 4 2 4 16 0 d = some (fft_16_stage2 d) := by
  rw [block_loop_n_blocks 16 twiddle_factors 4 2 4 4 16 0 d (by decide) (by decide)
    (by intro q hq; omega)]
  simp only [butterfly_loop_stage2]
  rfl

theorem block_loop_n_stage3 (d : Buf) :
    block_loop_n 16 twiddle_factors 8 4 2 16 0 d = some (fft_16_stage3 d) := by
  rw [block_loop_n_blocks 16 twiddle_factors 8 4 2 2 16 0 d (by decide) (by decide)
    (by intro q hq; omega)]
  simp only [butterfly_loop_stage3]
  rfl

theorem block_loop_n_stage4 (d : Buf) :
    block_loop_n 16 twiddle_factors 16 8 1 16 0 d = some (fft_16_stage4 d) := by
  rw [block_loop_n_blocks 16 twiddle_factors 16 8 1 1 16 0 d (by decide) (by decide)
    (by intro q hq; omega)]
  simp only [List.range', List.foldl, butterfly_loop_stage4]

theorem stage_loop_n_16 (d : Buf) :
    stage_loop_n 16 twiddle_factors (4 + 1) 2 (16 >>> 1) d =
      some (fft_16_stage4 (fft_16_stage3 (fft_16_stage2 (fft_16_stage1 d)))) := by
  have s1 := stage_loop_n_step 16 twiddle_factors 4 2 8 d _ (by decide) (block_loop_n_stage1 d)
  have s2 := stage_loop_n_step 16 twiddle_factors 3 4 4 _ _ (by decide)
    (block_loop_n_stage2 (fft_16_stage1 d))
  have s3 := stage_loop_n_step 16 twiddle_factors 2 8 2 _ _ (by decide)
    (block_loop_n_stage3 (fft_16_stage2 (fft_16_stage1 d)))
  have s4 := stage_loop_n_step 16 twiddle_factors 1 16 1 _ _ (by decide)
    (block_loop_n_stage4 (fft_16_stage3 (fft_16_stage2 (fft_16_stage1 d))))
  have s5 := stage_loop_n_done 16 twiddle_factors 0 32 0
    (fft_16_stage4 (fft_16_stage3 (fft_16_stage2 (fft_16_stage1 d)))) (by decide)
  exact s1.trans (s2.trans (s3.trans (s4.trans s5)))

theorem fft_16_point_single_frequency_bins (fft_output temp : Buf) (i : Nat) (hi : i < 16) :
    fft_16_point single_frequency_input_16 fft_output temp i =
      single_frequency_bins_16.getD i ⟨0, 0⟩ := by
  rw [fft_16_point_frame _ fft_output temp zero_buf zero_buf i hi,
    ← fft_16_point_single_frequency_eval]
  interval_cases i <;> rfl

theorem fft_16_point_dc_bins (fft_output temp : Buf) (i : Nat) (hi : i < 16) :
    fft_16_point dc_input fft_output temp i = dc_bins_16.getD i ⟨0, 0⟩ := by
  rw [fft_16_point_frame _ fft_output temp zero_buf zero_buf i hi, ← fft_16_point_dc_eval]
  interval_cases i <;> rfl

theorem single_frequency_verdict_congr (o1 o2 : Buf) (h : ∀ i, i < 16 → o1 i = o2 i) :
    single_frequency_verdict o1 = single_frequency_verdict o2 := by
  unfold single_frequency_verdict
  rw [h 1 (by decide)]
  have e : (List.range 16).foldl (fun (ret : Option Int) i =>
      match ret with
      | some v => some v
      | none =>
        if i = 1 then none
        else if magnitude_squared (o1 i) > magnitude_squared (o2 1) >>> 4 then some (-1)
        else none) none =
      (List.range 16).foldl (fun (ret : Option Int) i =>
      match ret with
      | some v => some v
      | none =>
        if i = 1 then none
        else if magnitude_squared (o2 i) > magnitude_squared (o2 1) >>> 4 then some (-1)
        else none) none := by
    apply List.foldl_ext
    intro a i hi
    rw [List.mem_range] at hi
    rw [h i hi]
  simp only [e]

theorem dc_verdict_congr (o1 o2 : Buf) (h : ∀ i, i < 16 → o1 i = o2 i) :
    dc_verdict o1 = dc_verdict o2 := by
  unfold dc_verdict
  rw [h 0 (by decide)]
  have e : (List.range' 1 15).foldl (fun (ret : Option Int) i =>
      match ret with
      | some v => some v
      | none =>
        if magnitude_squared (o1 i) > magnitude_squared (o2 0) >>> 4 then some (-2)
        else none) none =
      (List.range' 1 15).foldl (fun (ret : Option Int) i =>
      match ret with
      | some v => some v
      | none =>
        if magnitude_squared (o2 i) > magnitude_squared (o2 0) >>> 4 then some (-2)
        else none) none := by
    apply List.foldl_ext
    intro a i hi
    rw [List.mem_range'_1] at hi
    rw [h i (by omega)]
  simp only [e]

/-! ### The 16-point single-frequency test (C16) -/

/-- C16 (evaluation of the code on the input of `test_single_frequency`). Whatever the
initial content of the local arrays, the output of `fft_16_point` on the single-tone input
has bin 1 equal to `(1, -8)` with `magnitude_squared` 0 and bin 15 equal to `(524249, 2)`
with `magnitude_squared` 8387360, so bin 15 exceeds `magnitude_squared(bin 1) / 16` and
`test_single_frequency` returns `-1`. -/
theorem test_single_frequency_fails (fft_output temp : Buf) :
    fft_16_point single_frequency_input_16 fft_output temp 1 = ⟨1, -8⟩ ∧
    fft_16_point single_frequency_input_16 fft_output temp 15 = ⟨524249, 2⟩ ∧
    magnitude_squared (fft_16_point single_frequency_input_16 fft_output temp 1) = 0 ∧
    magnitude_squared (fft_16_point single_frequency_input_16 fft_output temp 15) = 8387360 ∧
    ¬ (magnitude_squared (fft_16_point single_frequency_input_16 fft_output temp 15) ≤
      magnitude_squared (fft_16_point single_frequency_input_16 fft_output temp 1) / 16) ∧
    test_single_frequency fft_output temp = -1 := by
  have b1 := fft_16_point_single_frequency_bins fft_output temp 1 (by decide)
  have b15 := fft_16_point_single_frequency_bins fft_output temp 15 (by decide)
  have e1 : single_frequency_bins_16.getD 1 ⟨0, 0⟩ = ⟨1, -8⟩ := rfl
  have e15 : single_frequency_bins_16.getD 15 ⟨0, 0⟩ = ⟨524249, 2⟩ := rfl
  rw [e1] at b1
  rw [e15] at b15
  have m1 : magnitude_squared ⟨1, -8⟩ = 0 := by decide!
  have m15 : magnitude_squared ⟨524249, 2⟩ = 8387360 := by decide!
  rw [b1, b15, m1, m15]
  refine ⟨rfl, rfl, rfl, rfl, by decide, ?_⟩
  unfold test_single_frequency
  rw [single_frequency_verdict_congr _ _
    (fft_16_point_frame _ fft_output temp zero_buf zero_buf)]
  exact test_single_frequency_eval

/-! ### The 16-point DC test (C17) -/

/-- C17 (counterexample). For the input with all 16 samples equal to `(32767, 0)` (local
arrays initially zero), bin 1 of the output of `fft_16_point` is `(0, -7)`, not `(0, 0)`. -/
theorem fft_16_point_dc_bin1 :
    fft_16_point dc_input zero_buf zero_buf 1 = ⟨0, -7⟩ ∧
    fft_16_point dc_input zero_buf zero_buf 1 ≠ ⟨0, 0⟩ := by
  have b1 := fft_16_point_dc_bins zero_buf zero_buf 1 (by decide)
  have e1 : dc_bins_16.getD 1 ⟨0, 0⟩ = ⟨0, -7⟩ := rfl
  rw [e1] at b1
  rw [b1]
  exact ⟨rfl, by decide⟩

/-- C17 (amended). For the input with all 16 samples equal to `(32767, 0)`, whatever the
initial content of the local arrays, bin 0 of the output of `fft_16_point` is
`(524240, 0)`, every bin `i` in `[1, 16)` has both lanes of absolute value at most 8 and
`magnitude_squared` equal to 0 (at most `magnitude_squared(bin 0) / 16`), and `test_dc`
returns 0. -/
theorem fft_16_point_dc_small (fft_output temp : Buf) :
    fft_16_point dc_input fft_output temp 0 = ⟨524240, 0⟩ ∧
    magnitude_squared (fft_16_point dc_input fft_output temp 0) = 8387072 ∧
    (∀ i, 1 ≤ i → i < 16 →
      lanes_le 8 (fft_16_point dc_input fft_output temp i) ∧
      magnitude_squared (fft_16_point dc_input fft_output temp i) = 0 ∧
      magnitude_squared (fft_16_point dc_input fft_output temp i) ≤
        magnitude_squared (fft_16_point dc_input fft_output temp 0) / 16) ∧
    test_dc fft_output temp = 0 := by
  have b0 := fft_16_point_dc_bins fft_output temp 0 (by decide)
  have e0 : dc_bins_16.getD 0 ⟨0, 0⟩ = ⟨524240, 0⟩ := rfl
  rw [e0] at b0
  have m0 : magnitude_squared ⟨524240, 0⟩ = 8387072 := by decide!
  refine ⟨b0, by rw [b0, m0], ?_, ?_⟩
  · intro i h1 hi
    rw [fft_16_point_dc_bins fft_output temp i hi, b0, m0]
    interval_cases i <;> exact ⟨by decide, by decide!, by decide!⟩
  · unfold test_dc
    rw [dc_verdict_congr _ _ (fft_16_point_frame _ fft_output temp zero_buf zero_buf)]
    exact test_dc_eval

/-! ### The 16-point transform as an instance of the generic engine (C19) -/

/-- C19. For every input buffer (and every initial content of the output and local
arrays), the algorithm of `fft_1024_point` instantiated with `N = 16`, `bits = 4` and the
16-point twiddle table returns, and returns the output of `fft_16_point`;
`bit_reverse_table[i] = bit_reverse_u16(i, 4)` for every `i < 16`, the stage-3 index
`(k << 1) & 7` equals `k * (16 / 8)` for every `k < 4`, and the instance `N = 1024`,
`bits = 10` of the same algorithm is `fft_1024_point` itself. -/
theorem fft_16_point_refines (input output temp : Buf) :
    fft_n_point 16 4 twiddle_factors input output = some (fft_16_point input output temp) ∧
    (∀ i, i < 16 → bit_reverse_table i = bit_reverse_u16 i 4) ∧
    (∀ k, k < 4 → (k <<< 1) &&& 7 = k * (16 / 8)) ∧
    (∀ (s : TwiddleState) (x out : Buf),
      fft_1024_point s x out =
        (fft_n_point FFT_N LOG2_FFT_N (init_twiddles s).twiddle_factors x out).map
          (fun o => (init_twiddles s, o))) := by
  refine ⟨?_, ?_, ?_, fft_n_point_1024⟩
  · unfold fft_n_point fft_16_point
    simp only
    rw [copy_input_n_16, bit_reverse_reorder_n_16 _ temp]
    exact stage_loop_n_16 _
  · intro i hi
    interval_cases i <;> decide
  · intro k hk
    exact stage3_twiddle_idx k hk

/-! ### Range of the twiddle table after `init_twiddles` (C22) -/

/-- C22. After `init_twiddles` on a consistent twiddle state (flag clear, or table already
built), for every `k` in `[0, 512)` the entry `twiddle_factors[k]` is the `k`-th value of
the recurrence `w_{k+1} = complex_multiply(w_k, W1)` from `(32767, 0)` and both of its
lanes lie in `[-32767, 32767]`. -/
theorem init_twiddles_q15_range (s : TwiddleState) (hs : s.consistent) :
    ∀ k, k < 512 →
      (init_twiddles s).twiddle_factors k = twiddle_seq k ∧
      (-32767 ≤ ((init_twiddles s).twiddle_factors k).real ∧
        ((init_twiddles s).twiddle_factors k).real ≤ 32767) ∧
      (-32767 ≤ ((init_twiddles s).twiddle_factors k).imag ∧
        ((init_twiddles s).twiddle_factors k).imag ≤ 32767) := by
  intro k hk
  have h := (init_twiddles_consistent s hs).1 k hk
  rw [h]
  exact ⟨rfl, twiddle_seq_range k hk⟩

/-- Witness for C22 at the start-up state and the last entry `k = 511`. -/
theorem init_twiddles_q15_range_witness :
    TwiddleState.startup.consistent ∧
    (init_twiddles TwiddleState.startup).twiddle_factors 511 = twiddle_seq 511 ∧
    (-32767 ≤ ((init_twiddles TwiddleState.startup).twiddle_factors 511).real ∧
      ((init_twiddles TwiddleState.startup).twiddle_factors 511).real ≤ 32767) ∧
    (-32767 ≤ ((init_twiddles TwiddleState.startup).twiddle_factors 511).imag ∧
      ((init_twiddles TwiddleState.startup).twiddle_factors 511).imag ≤ 32767) :=
  ⟨consistent_startup,
    init_twiddles_q15_range TwiddleState.startup consistent_startup 511 (by decide)⟩

/-! ### The 16-point single-frequency output concentrates at bin 15 (C23) -/

/-- C23. For the input of `test_single_frequency` and any initial content of the local
arrays, bin 15 of the output of `fft_16_point` is `(524249, 2)` with `magnitude_squared`
8387360, and every bin `i` other than 15 has
`magnitude_squared(bin i) <= magnitude_squared(bin 15) / 16`. -/
theorem fft_16_point_single_frequency_bin15 (fft_output temp : Buf) :
    fft_16_point single_frequency_input_16 fft_output temp 15 = ⟨524249, 2⟩ ∧
    magnitude_squared (fft_16_point single_frequency_input_16 fft_output temp 15) = 8387360 ∧
    ∀ i, i < 16 → i ≠ 15 →
      magnitude_squared (fft_16_point single_frequency_input_16 fft_output temp i) ≤
        magnitude_squared (fft_16_point single_frequency_input_16 fft_output temp 15) / 16 := by
  have b15 := fft_16_point_single_frequency_bins fft_output temp 15 (by decide)
  have e15 : single_frequency_bins_16.getD 15 ⟨0, 0⟩ = ⟨524249, 2⟩ := rfl
  rw [e15] at b15
  have m15 : magnitude_squared ⟨524249, 2⟩ = 8387360 := by decide!
  refine ⟨b15, by rw [b15, m15], ?_⟩
  intro i hi hne
  rw [fft_16_point_single_frequency_bins fft_output temp i hi, b15, m15]
  interval_cases i <;> first | exact absurd rfl hne | decide!

/-! ### Index safety and stage schedule (C21) -/

theorem butterfly_fold_index (tw : Buf) (h step b : Nat) (o : Buf) : ∀ c,
    ((List.range c).foldl (butterfly_body tw h step b) (o, 0)).2 = c * step := by
  intro c
  induction c with
  | zero => simp only [List.range_zero, List.foldl, Nat.zero_mul]
  | succ c ih =>
    have hb : ∀ (st : Buf × Nat) (j : Nat),
        (butterfly_body tw h step b st j).2 = st.2 + step := fun _ _ => rfl
    rw [List.range_succ, List.foldl_append]
    simp only [List.foldl]
    rw [hb, ih, Nat.succ_mul]

theorem butterfly_fold_traced (tw : Buf) (h step b : Nat) (o : Buf)
    (tr : List butterfly_access) : ∀ c,
    (List.range c).foldl (butterfly_body_traced tw h step b) ((o, 0), tr) =
      ((List.range c).foldl (butterfly_body tw h step b) (o, 0),
        tr ++ (List.range c).map (fun j =>
          { j := j, data_lo := b + j, data_hi := b + j + h, twiddle := j * step })) := by
  intro c
  induction c with
  | zero => simp only [List.range_zero, List.foldl, List.map_nil, List.append_nil]
  | succ c ih =>
    rw [List.range_succ, List.foldl_append, List.foldl_append, List.map_append, ih]
    simp only [List.foldl, butterfly_body_traced, butterfly_fold_index, List.map_cons,
      List.map_nil, List.append_assoc]

theorem butterfly_loop_traced_eq (tw : Buf) (h step b : Nat) (o : Buf)
    (tr : List butterfly_access) :
    butterfly_loop_traced tw h step b o tr =
      (butterfly_loop tw h step b o,
        tr ++ (List.range h).map (fun j =>
          { j := j, data_lo := b + j, data_hi := b + j + h, twiddle := j * step })) := by
  unfold butterfly_loop_traced butterfly_loop
  rw [butterfly_fold_traced]

theorem block_loop_traced_blocks (tw : Buf) (m h step : Nat) :
    ∀ (c fuel block : Nat) (o : Buf) (tr : List butterfly_access), c ≤ fuel →
      FFT_N ≤ block + c * m → (∀ q, q < c → block + q * m < FFT_N) →
      block_loop_traced tw m h step fuel block o tr =
        (block_loop tw m h step fuel block o).map (fun out =>
          (out, tr ++ (List.range' block c m).flatMap (fun b =>
            (List.range h).map (fun j =>
              { j := j, data_lo := b + j, data_hi := b + j + h, twiddle := j * step })))) := by
  intro c
  induction c with
  | zero =>
    intro fuel block o tr _ hge _
    have hnot : ¬ block < FFT_N := by omega
    cases fuel <;>
      simp only [block_loop_traced, block_loop, hnot, if_false, List.range', List.flatMap_nil,
        List.append_nil, Option.map_some']
  | succ c ih =>
    intro fuel block o tr hfuel hge hlt
    have hb : block < FFT_N := by
      have := hlt 0 (by omega)
      omega
    obtain ⟨fuel2, rfl⟩ : ∃ f, fuel = f + 1 := ⟨fuel - 1, by omega⟩
    rw [block_loop_traced, block_loop, if_pos hb, if_pos hb]
    simp only [butterfly_loop_traced_eq]
    rw [ih fuel2 (block + m) _ _ (by omega) (by rw [Nat.succ_mul] at hge; omega)
      (by
        intro q hq
        have := hlt (q + 1) (by omega)
        rw [Nat.succ_mul] at this
        omega)]
    simp only [List.range', List.flatMap_cons, List.append_assoc]

theorem stage_loop_traced_step (tw d : Buf) (fuel m : Nat) (hm : m ∈ stage_sizes)
    (tr : List stage_record) :
    stage_loop_traced tw (fuel + 1) m (FFT_N / m) d tr =
      stage_loop_traced tw fuel (m <<< 1) ((FFT_N / m) >>> 1) (stage_spec tw m d)
        (tr ++ [{ m := m, step := FFT_N / m, accesses := stage_accesses m }]) := by
  obtain ⟨h1, h2, h3, _⟩ := stage_sizes_facts hm
  have hle : m ≤ FFT_N := Nat.le_of_dvd (by decide) h3
  have hshift : m >>> 1 = m / 2 := by rw [Nat.shiftRight_eq_div_pow, pow_one]
  have hcm : FFT_N / m * m = FFT_N := Nat.div_mul_cancel h3
  have hb := block_loop_traced_blocks tw m (m >>> 1) (FFT_N / m) (FFT_N / m) FFT_N 0 d []
    (Nat.div_le_self _ _) (by omega)
    (by
      intro q hq
      have : q * m < FFT_N / m * m := Nat.mul_lt_mul_of_pos_right hq (by omega)
      omega)
  rw [block_loop_stage tw d m hm] at hb
  rw [stage_loop_traced, if_pos hle]
  simp only [hb, Option.map_some', List.nil_append]
  rw [hshift]
  rfl

theorem stage_loop_traced_eq (tw d : Buf) :
    stage_loop_traced tw (LOG2_FFT_N + 1) 2 (FFT_N >>> 1) d [] =
      some (stage_sizes.foldl (fun d m => stage_spec tw m d) d, stage_schedule) := by
  have e0 : stage_loop_traced tw (LOG2_FFT_N + 1) 2 (FFT_N >>> 1) d [] =
      stage_loop_traced tw (10 + 1) 2 (FFT_N / 2) d [] := rfl
  rw [e0, stage_loop_traced_step tw _ _ 2 (by decide)]
  have e1 : ∀ x t, stage_loop_traced tw 10 (2 <<< 1) ((FFT_N / 2) >>> 1) x t =
      stage_loop_traced tw (9 + 1) 4 (FFT_N / 4) x t := fun _ _ => rfl
  rw [e1, stage_loop_traced_step tw _ _ 4 (by decide)]
  have e2 : ∀ x t, stage_loop_traced tw 9 (4 <<< 1) ((FFT_N / 4) >>> 1) x t =
      stage_loop_traced tw (8 + 1) 8 (FFT_N / 8) x t := fun _ _ => rfl
  rw [e2, stage_loop_traced_step tw _ _ 8 (by decide)]
  have e3 : ∀ x t, stage_loop_traced tw 8 (8 <<< 1) ((FFT_N / 8) >>> 1) x t =
      stage_loop_traced tw (7 + 1) 16 (FFT_N / 16) x t := fun _ _ => rfl
  rw [e3, stage_loop_traced_step tw _ _ 16 (by decide)]
  have e4 : ∀ x t, stage_loop_traced tw 7 (16 <<< 1) ((FFT_N / 16) >>> 1) x t =
      stage_loop_traced tw (6 + 1) 32 (FFT_N / 32) x t := fun _ _ => rfl
  rw [e4, stage_loop_traced_step tw _ _ 32 (by decide)]
  have e5 : ∀ x t, stage_loop_traced tw 6 (32 <<< 1) ((FFT_N / 32) >>> 1) x t =
      stage_loop_traced tw (5 + 1) 64 (FFT_N / 64) x t := fun _ _ => rfl
  rw [e5, stage_loop_traced_step tw _ _ 64 (by decide)]
  have e6 : ∀ x t, stage_loop_traced tw 5 (64 <<< 1) ((FFT_N / 64) >>> 1) x t =
      stage_loop_traced tw (4 + 1) 128 (FFT_N / 128) x t := fun _ _ => rfl
  rw [e6, stage_loop_traced_step tw _ _ 128 (by decide)]
  have e7 : ∀ x t, stage_loop_traced tw 4 (128 <<< 1) ((FFT_N / 128) >>> 1) x t =
      stage_loop_traced tw (3 + 1) 256 (FFT_N / 256) x t := fun _ _ => rfl
  rw [e7, stage_loop_traced_step tw _ _ 256 (by decide)]
  have e8 : ∀ x t, stage_loop_traced tw 3 (256 <<< 1) ((FFT_N / 256) >>> 1) x t =
      stage_loop_traced tw (2 + 1) 512 (FFT_N / 512) x t := fun _ _ => rfl
  rw [e8, stage_loop_traced_step tw _ _ 512 (by decide)]
  have e9 : ∀ x t, stage_loop_traced tw 2 (512 <<< 1) ((FFT_N / 512) >>> 1) x t =
      stage_loop_traced tw (1 + 1) 1024 (FFT_N / 1024) x t := fun _ _ => rfl
  rw [e9, stage_loop_traced_step tw _ _ 1024 (by decide)]
  have e10 : ∀ x t, stage_loop_traced tw 1 (1024 <<< 1) ((FFT_N / 1024) >>> 1) x t =
      some (x, t) := fun _ _ => rfl
  rw [e10]
  rfl

theorem fft_1024_point_traced_eq (s : TwiddleState) (input output : Buf) :
    fft_1024_point_traced s input output =
      some ((init_twiddles s, fft_spec (init_twiddles s).twiddle_factors input output),
        stage_schedule) := by
  unfold fft_1024_point_traced fft_spec
  simp only [stage_loop_traced_eq, copy_input_eq, bit_reverse_reorder_generic_eq]

theorem stage_accesses_length {m : Nat} (hm : m ∈ stage_sizes) :
    (stage_accesses m).length = 512 := by
  obtain ⟨_, _, _, h4⟩ := stage_sizes_facts hm
  have key : ∀ (l : List Nat) (f : Nat → List butterfly_access) (n : Nat),
      (∀ b, (f b).length = n) → (l.flatMap f).length = l.length * n := by
    intro l f n hf
    induction l with
    | nil => simp
    | cons a l ih => rw [List.flatMap_cons, List.length_append, ih, hf, List.length_cons]; ring
  unfold stage_accesses
  rw [key _ _ (m / 2) (fun b => by rw [List.length_map, List.length_range]), List.length_range',
    Nat.mul_comm, h4]

theorem stage_accesses_bounds {m : Nat} (hm : m ∈ stage_sizes) (a : butterfly_access)
    (ha : a ∈ stage_accesses m) :
    a.j < m / 2 ∧ a.data_lo < FFT_N ∧ a.data_hi < FFT_N ∧ a.data_hi = a.data_lo + m / 2 ∧
      a.twiddle = a.j * (FFT_N / m) ∧ a.twiddle < 512 := by
  obtain ⟨h1, h2, h3, _⟩ := stage_sizes_facts hm
  unfold stage_accesses at ha
  rw [List.mem_flatMap] at ha
  obtain ⟨b, hb, hab⟩ := ha
  rw [List.mem_map] at hab
  obtain ⟨j, hj, rfl⟩ := hab
  rw [List.mem_range] at hj
  rw [List.mem_range'] at hb
  obtain ⟨q, hq, rfl⟩ := hb
  have hdvd : m ∣ 0 + m * q := by rw [Nat.zero_add]; exact Dvd.intro _ rfl
  have hlt : 0 + m * q < FFT_N := by
    have hcm : FFT_N / m * m = FFT_N := Nat.div_mul_cancel h3
    have : q * m < FFT_N / m * m := Nat.mul_lt_mul_of_pos_right hq (by omega)
    rw [Nat.zero_add, Nat.mul_comm]
    omega
  have hnext := next_block_le hdvd h3 hlt
  refine ⟨hj, ?_, ?_, rfl, rfl, twiddle_index_lt hm hj⟩
  · show 0 + m * q + j < FFT_N
    omega
  · show 0 + m * q + j + m / 2 < FFT_N
    omega

theorem stage_schedule_sizes :
    stage_schedule.map (fun r => (r.m, r.step)) =
      [(2, 512), (4, 256), (8, 128), (16, 64), (32, 32), (64, 16), (128, 8), (256, 4),
        (512, 2), (1024, 1)] := rfl

theorem stage_schedule_mem (r : stage_record) (hr : r ∈ stage_schedule) :
    r.m ∈ stage_sizes ∧ r.step = FFT_N / r.m ∧ r.accesses = stage_accesses r.m := by
  unfold stage_schedule at hr
  rw [List.mem_map] at hr
  obtain ⟨m, hm, rfl⟩ := hr
  exact ⟨hm, rfl, rfl⟩

/-- C21. `fft_1024_point` with its stage loop instrumented returns, with the same state and
output buffer as `fft_1024_point`, after exactly 10 iterations of the stage loop, with
`(m, step) = (2, 512), (4, 256), ..., (1024, 1)` at their starts, so `m * step = 1024` at
the start of every stage; every stage executes 512 butterflies, and in every butterfly the
data indices `block + j` and `block + j + halfsize` are below 1024 and the twiddle index is
`k = j * step`, below 512; and for every `i` in `[0, 1024)` the index
`bit_reverse_u16(i, 10)` is below 1024. -/
theorem fft_1024_point_index_safety (s : TwiddleState) (input output : Buf) :
    ∃ F tr, fft_1024_point_traced s input output = some ((init_twiddles s, F), tr) ∧
      fft_1024_point s input output = some (init_twiddles s, F) ∧
      tr.length = 10 ∧
      tr.map (fun r => (r.m, r.step)) =
        [(2, 512), (4, 256), (8, 128), (16, 64), (32, 32), (64, 16), (128, 8), (256, 4),
          (512, 2), (1024, 1)] ∧
      (∀ r, r ∈ tr →
        r.m * r.step = 1024 ∧ r.accesses.length = 512 ∧
        ∀ a, a ∈ r.accesses →
          a.j < r.m >>> 1 ∧ a.data_lo < 1024 ∧ a.data_hi < 1024 ∧
          a.data_hi = a.data_lo + (r.m >>> 1) ∧ a.twiddle = a.j * r.step ∧ a.twiddle < 512) ∧
      (∀ i, i < 1024 → bit_reverse_u16 i LOG2_FFT_N < 1024) := by
  refine ⟨_, _, fft_1024_point_traced_eq s input output, fft_1024_point_eq s input output,
    rfl, stage_schedule_sizes, ?_, fun i hi => bit_reverse_u16_lt hi⟩
  intro r hr
  obtain ⟨hm, hstep, hacc⟩ := stage_schedule_mem r hr
  obtain ⟨_, _, h3, _⟩ := stage_sizes_facts hm
  have hshift : r.m >>> 1 = r.m / 2 := by rw [Nat.shiftRight_eq_div_pow, pow_one]
  refine ⟨?_, ?_, ?_⟩
  · rw [hstep, Nat.mul_comm]
    exact Nat.div_mul_cancel h3
  · rw [hacc]
    exact stage_accesses_length hm
  · intro a ha
    rw [hacc] at ha
    rw [hstep, hshift]
    exact stage_accesses_bounds hm a ha

/-! ### Range of the intermediates of `complex_multiply`, all inputs but one (C13) -/

/-- C13 (amended). For every pair `a`, `b` with `int32_t` lanes the first intermediate
`a.real*b.real - a.imag*b.imag` is in the `int64_t` range, and the second,
`a.real*b.imag + a.imag*b.real`, is in it unless all four lanes equal `-2^31`; in both
cases the `int64_t` variable holds the exact value. In particular the second is in range
whenever `b` is `W1` or one of the 512 values of the twiddle recurrence (lanes in
`[-32767, 32767]`), the second arguments `init_twiddles` and the butterflies pass. -/
theorem complex_multiply_temps_in_range (a b : complex_t) (ha : lanes_int32 a)
    (hb : lanes_int32 b) :
    (is_int64 (complex_multiply_real_temp a b) ∧
      to_int64 (complex_multiply_real_temp a b) = complex_multiply_real_temp a b) ∧
    (¬ (a.real = -2147483648 ∧ a.imag = -2147483648 ∧
        b.real = -2147483648 ∧ b.imag = -2147483648) →
      is_int64 (complex_multiply_imag_temp a b) ∧
      to_int64 (complex_multiply_imag_temp a b) = complex_multiply_imag_temp a b) ∧
    (b = W1 ∨ (∃ k, k < 512 ∧ b = twiddle_seq k) →
      lanes_le 32767 b ∧ is_int64 (complex_multiply_imag_temp a b)) := by
  obtain ⟨h1, h2⟩ := int32_mul_bounds _ _ ha.1 hb.1
  obtain ⟨h3, h4⟩ := int32_mul_bounds _ _ ha.2 hb.2
  obtain ⟨h5, h6⟩ := int32_mul_bounds _ _ ha.1 hb.2
  obtain ⟨h7, h8⟩ := int32_mul_bounds _ _ ha.2 hb.1
  have key : ¬ (a.real = -2147483648 ∧ a.imag = -2147483648 ∧
        b.real = -2147483648 ∧ b.imag = -2147483648) →
      is_int64 (complex_multiply_imag_temp a b) := by
    intro hne
    unfold complex_multiply_imag_temp is_int64
    by_cases hc : a.real = -2147483648 ∧ b.imag = -2147483648
    · have h9 := int32_mul_upper _ _ ha.2 hb.1 (fun h => hne ⟨hc.1, h.1, h.2, hc.2⟩)
      constructor <;> omega
    · have h9 := int32_mul_upper _ _ ha.1 hb.2 hc
      constructor <;> omega
  have hre : is_int64 (complex_multiply_real_temp a b) := by
    unfold complex_multiply_real_temp is_int64
    constructor <;> omega
  refine ⟨⟨hre, to_int64_of_bounds hre.1 hre.2⟩, ?_, ?_⟩
  · intro hne
    have h := key hne
    exact ⟨h, to_int64_of_bounds h.1 h.2⟩
  · intro hW
    have hle : lanes_le 32767 b := by
      rcases hW with rfl | ⟨k, hk, rfl⟩
      · unfold lanes_le W1
        decide
      · exact twiddle_seq_range k hk
    refine ⟨hle, key ?_⟩
    intro hall
    unfold lanes_le at hle
    omega

/-- Witness for the amended C13 at `a = (-2^31, -2^31)` and `b = W1`. -/
theorem complex_multiply_temps_in_range_witness :
    lanes_int32 ⟨-2147483648, -2147483648⟩ ∧ lanes_int32 W1 ∧
    is_int64 (complex_multiply_real_temp ⟨-2147483648, -2147483648⟩ W1) ∧
    is_int64 (complex_multiply_imag_temp ⟨-2147483648, -2147483648⟩ W1) :=
  ⟨by decide, by decide,
    (complex_multiply_temps_in_range ⟨-2147483648, -2147483648⟩ W1 (by decide) (by decide)).1.1,
    ((complex_multiply_temps_in_range ⟨-2147483648, -2147483648⟩ W1 (by decide)
      (by decide)).2.2 (Or.inl rfl)).2⟩

/-! ### Round trip of the impulses at sample 0 (C3) -/

